import Mathlib

/-!
# OVR thread command queue: `CircularBuffer` and `ThreadCommandQueueImpl`

A shallow embedding of `LibOVRKernel/Src/Monterey/Kernel/OVR_ThreadCommandQueue.cpp`.

* `size_t` is modelled as `Nat` with explicit reduction modulo `2 ^ 64`
  (`SizeTMod`), in `roundUpSize`, `Head += size`, `Tail += size`,
  `Size - Head` and `Tail - Head`.
* A pointer into the ring is modelled by its byte offset from `pBuffer`;
  the null pointer is `none`.  (`pBuffer` itself is assumed non-null.)
* `OVR_ASSERT` compiles to nothing in release builds: the functions below
  are the release behaviour, and the asserted conditions are separate
  Boolean definitions.
-/

namespace OVR

/-! ## CircularBuffer -/

/-- Number of values of the unsigned type `size_t` (64-bit target). -/
def SizeTMod : Nat := 2 ^ 64

/-- Addition of two `size_t` values. -/
def sizeAdd (a b : Nat) : Nat := (a + b) % SizeTMod

/-- Subtraction of two `size_t` values (wraps around below zero). -/
def sizeSub (a b : Nat) : Nat := (a % SizeTMod + (SizeTMod - b % SizeTMod)) % SizeTMod

/-- The enumerator `AlignSize = 16`. -/
def AlignSize : Nat := 16

/-- The enumerator `AlignMask = AlignSize - 1`. -/
def AlignMask : Nat := AlignSize - 1

/-- The value `~(size_t)AlignMask`. -/
def notAlignMask : Nat := SizeTMod - 1 - AlignMask

/-- The fields `Size`, `Tail`, `Head`, `End` of `class CircularBuffer`
(the storage `pBuffer` is kept apart from the cursors). -/
structure CircularBuffer where
  Size : Nat
  Tail : Nat
  Head : Nat
  End : Nat
deriving DecidableEq

/-- `roundUpSize(size) = (size + AlignMask) & ~(size_t)AlignMask`. -/
def roundUpSize (size : Nat) : Nat := ((size + AlignMask) % SizeTMod) &&& notAlignMask

namespace CircularBuffer

/-- The constructor `CircularBuffer(size)`: `Size(size), Tail(0), Head(0), End(0)`. -/
def create (size : Nat) : CircularBuffer :=
  { Size := size, Tail := 0, Head := 0, End := 0 }

/-- `IsEmpty()`: `Head == Tail`. -/
def IsEmpty (b : CircularBuffer) : Bool := b.Head == b.Tail

/-- The condition of `OVR_ASSERT(size < Size / 2)` in `Write`, on the
requested (not yet rounded) size. -/
def WriteSizeAssert (b : CircularBuffer) (size : Nat) : Bool :=
  decide (roundUpSize size < b.Size / 2)

/-- `Write(size)`: the returned block (its offset from `pBuffer`, `none` for
the null pointer) and the buffer afterwards. -/
def Write (b : CircularBuffer) (size : Nat) : Option Nat × CircularBuffer :=
  let size := roundUpSize size
  if b.Head ≥ b.Tail then
    if size ≤ sizeSub b.Size b.Head then
      (some b.Head, { b with Head := sizeAdd b.Head size })
    else if size < b.Tail then
      (some 0, { b with End := b.Head, Head := size })
    else
      (none, b)
  else
    if sizeSub b.Tail b.Head > size then
      (some b.Head, { b with Head := sizeAdd b.Head size })
    else
      (none, b)

/-- `ReadBegin()`: offset of the next block, `none` when `Head == Tail`. -/
def ReadBegin (b : CircularBuffer) : Option Nat :=
  if b.Head ≠ b.Tail then some b.Tail else none

/-- `ReadEnd(size)`. -/
def ReadEnd (b : CircularBuffer) (size : Nat) : CircularBuffer :=
  let size := roundUpSize size
  let tail := sizeAdd b.Tail size
  if tail = b.End then
    { b with Tail := 0, End := 0 }
  else if tail = b.Head then
    { b with Tail := 0, Head := 0 }
  else
    { b with Tail := tail }

end CircularBuffer

/-! ## The ring together with the record sizes stored in it -/

/-- Size found at an offset in a list of stores, most recent first
(0 when nothing was stored there). -/
def storedSize (stored : List (Nat × Nat)) (offset : Nat) : Nat :=
  (stored.lookup offset).getD 0

/-- A `CircularBuffer` together with the sizes of the records that were
stored at the offsets `Write` returned (most recent store first); this is
what a reader finds in the bytes at the pointer `ReadBegin` returns. -/
structure Ring where
  buf : CircularBuffer
  stored : List (Nat × Nat)
deriving DecidableEq

/-- One call made on the ring by its user. -/
inductive RingOp where
  | write (size : Nat)
  | read
deriving DecidableEq

/-- What a call returned: the offset of a successful `Write`, or the offset
of a non-null `ReadBegin`. -/
inductive RingEvent where
  | wrote (offset : Nat)
  | readAt (offset : Nat)
deriving DecidableEq

namespace Ring

/-- A ring over a freshly constructed buffer of the given capacity. -/
def fresh (size : Nat) : Ring := { buf := CircularBuffer.create size, stored := [] }

/-- Size of the record last stored at an offset (0 when nothing was). -/
def sizeAt (r : Ring) (offset : Nat) : Nat := storedSize r.stored offset

/-- A `Write(size)` followed, when it succeeds, by the store of a record of
that size at the returned offset. -/
def write (r : Ring) (size : Nat) : Option Nat × Ring :=
  match r.buf.Write size with
  | (some p, b) => (some p, { buf := b, stored := (p, size) :: r.stored })
  | (none, b) => (none, { r with buf := b })

/-- A `ReadBegin`; when it is non-null, `ReadEnd` with the size of the record
found at the returned offset. -/
def read (r : Ring) : Option Nat × Ring :=
  match r.buf.ReadBegin with
  | some p => (some p, { r with buf := r.buf.ReadEnd (r.sizeAt p) })
  | none => (none, r)

/-- One call on the ring: the state afterwards. -/
def step (r : Ring) : RingOp → Ring
  | .write size => (r.write size).2
  | .read => r.read.2

/-- One call on the ring: what it returned, if it returned a block. -/
def event (r : Ring) : RingOp → Option RingEvent
  | .write size => (r.write size).1.map RingEvent.wrote
  | .read => r.read.1.map RingEvent.readAt

/-- The blocks returned along a sequence of calls, in order. -/
def trace (r : Ring) : List RingOp → List RingEvent
  | [] => []
  | op :: ops => (r.event op).toList ++ trace (r.step op) ops

/-- The state after a sequence of calls. -/
def run (r : Ring) : List RingOp → Ring
  | [] => r
  | op :: ops => run (r.step op) ops

end Ring

/-- Offsets returned by the successful `Write` calls of a trace, in order. -/
def writeOffsets (t : List RingEvent) : List Nat :=
  t.filterMap fun e => match e with
    | .wrote p => some p
    | .readAt _ => none

/-- Offsets returned by the non-null `ReadBegin` calls of a trace, in order. -/
def readOffsets (t : List RingEvent) : List Nat :=
  t.filterMap fun e => match e with
    | .wrote _ => none
    | .readAt p => some p

/-- A write request that passes the check of `Write` as the code computes it:
positive size whose rounded value `roundUpSize size`, computed in `size_t`, is
below half the capacity. -/
def StatedWrite (capacity size : Nat) : Prop :=
  0 < size ∧ size < SizeTMod ∧ roundUpSize size < capacity / 2

instance (capacity size : Nat) : Decidable (StatedWrite capacity size) := by
  unfold StatedWrite; infer_instance

/-- A stated write request whose rounding does not wrap around `size_t`:
`size + AlignMask` is still a `size_t`. -/
def InRangeWrite (capacity size : Nat) : Prop :=
  0 < size ∧ size + AlignMask < SizeTMod ∧ roundUpSize size < capacity / 2

instance (capacity size : Nat) : Decidable (InRangeWrite capacity size) := by
  unfold InRangeWrite; infer_instance

/-- A call on the ring whose size, for a write, is an `InRangeWrite`. -/
def RingOp.InRange (capacity : Nat) : RingOp → Prop
  | .write size => InRangeWrite capacity size
  | .read => True

instance (capacity : Nat) (op : RingOp) : Decidable (op.InRange capacity) :=
  match op with
  | .write size => inferInstanceAs (Decidable (InRangeWrite capacity size))
  | .read => inferInstanceAs (Decidable True)

/-- A write request as the ring's contract words it, read in ordinary
arithmetic: positive size whose value rounded up to the next multiple of
`AlignSize` is below half the capacity.  Every such size is one for which
`size + AlignMask` does not overflow `size_t`. -/
def ContractWrite (capacity size : Nat) : Prop :=
  0 < size ∧ (size + AlignMask) / AlignSize * AlignSize < capacity / 2

instance (capacity size : Nat) : Decidable (ContractWrite capacity size) := by
  unfold ContractWrite; infer_instance

/-- A call on the ring within the contract: any read, and any write that is a
`ContractWrite`. -/
def RingOp.Contract (capacity : Nat) : RingOp → Prop
  | .write size => ContractWrite capacity size
  | .read => True

instance (capacity : Nat) (op : RingOp) : Decidable (op.Contract capacity) :=
  match op with
  | .write size => inferInstanceAs (Decidable (ContractWrite capacity size))
  | .read => inferInstanceAs (Decidable True)

/-- States of the ring reachable from a fresh buffer of the given capacity by
positive-size writes within the precondition and by reads (`ReadBegin` with a
non-null result followed by the size-matched `ReadEnd`). -/
inductive Ring.Reachable (capacity : Nat) : Ring → Prop where
  | fresh : Ring.Reachable capacity (Ring.fresh capacity)
  | write (r : Ring) (size : Nat) : Ring.Reachable capacity r →
      StatedWrite capacity size → Ring.Reachable capacity (r.write size).2
  | read (r : Ring) : Ring.Reachable capacity r → r.buf.Head ≠ r.buf.Tail →
      Ring.Reachable capacity r.read.2

/-- Records laid out back to back: the first starts at offset `a`, each
occupies its rounded size (which is positive), the last ends at offset `b`. -/
def Chain : Nat → List (Nat × Nat) → Nat → Prop
  | a, [], b => a = b
  | a, (o, s) :: rest, b => o = a ∧ 0 < roundUpSize s ∧ Chain (a + roundUpSize s) rest b

/-- The layout of the ring with live records `Q` (offset and stored size,
oldest first): either not wrapped, the records filling `[Tail, Head)`, or
wrapped, the records filling `[Tail, End)` and then `[0, Head)`. -/
def Ring.Inv (r : Ring) (Q : List (Nat × Nat)) : Prop :=
  r.buf.Size < 2 ^ 64 ∧ (∀ o s, (o, s) ∈ Q → r.sizeAt o = s) ∧
  ((r.buf.End = 0 ∧ r.buf.Tail ≤ r.buf.Head ∧ r.buf.Head ≤ r.buf.Size ∧
      Chain r.buf.Tail Q r.buf.Head ∧ (r.buf.Head = r.buf.Tail → r.buf.Head = 0)) ∨
   (r.buf.End ≠ 0 ∧ r.buf.Head < r.buf.Tail ∧ r.buf.Tail < r.buf.End ∧
      r.buf.End ≤ r.buf.Size ∧ 0 < r.buf.Head ∧
      ∃ Q1 Q2, Q = Q1 ++ Q2 ∧ Chain r.buf.Tail Q1 r.buf.End ∧ Chain 0 Q2 r.buf.Head))

/-! ## ThreadCommand, PopBuffer and ThreadCommandQueueImpl

The header `OVR_ThreadCommandQueue.h` (which declares `ThreadCommand`,
`ThreadCommand::PopBuffer`, `ThreadCommand::NotifyEvent` and the constant
`PopBuffer::MaxSize`) is not part of the sources at hand.  The three types are
modelled from the specification; `MaxSize` and `sizeof(ExitCommand)` are
parameters of the functions that use them.

Each block of code that runs under `QueueLock` is one function on the queue
state.  Calls to collaborators (the two hooks of `ThreadCommandQueue`,
`PulseEvent`, `CopyConstruct`, `Destruct`, `Execute`) are recorded, in the order
they are made, in the field `effects`. -/

/-- Modelled from the spec: the notification primitive `ThreadCommand::NotifyEvent`
of the missing header; an event object is identified by a number. -/
abbrev NotifyEvent := Nat

/-- Modelled from the spec: the concrete variant of a command, which selects
the `Execute` that a virtual call runs: the queue's own `ExitCommand`, or a
command of the queue's user (told apart by a tag). -/
inductive CommandKind where
  | exit
  | user (tag : Nat)
deriving DecidableEq

/-- Modelled from the spec: the class `ThreadCommand` of the missing header,
with its serialized size, its "needs wait" flag, its exit flag and the
completion event the queue attaches to it. -/
structure ThreadCommand where
  Size : Nat
  WaitFlag : Bool
  ExitFlag : Bool
  pEvent : Option NotifyEvent
  kind : CommandKind
deriving DecidableEq

namespace ThreadCommand

/-- Modelled from the spec: `GetSize()`, the serialized size of the command. -/
def GetSize (c : ThreadCommand) : Nat := c.Size

/-- Modelled from the spec: `NeedsWait()`, whether the pusher waits for completion. -/
def NeedsWait (c : ThreadCommand) : Bool := c.WaitFlag

end ThreadCommand

/-- The constructor `ExitCommand(impl, wait)`: `ThreadCommand(sizeof(ExitCommand), wait, true)`;
the value of `sizeof(ExitCommand)` is a parameter. -/
def ExitCommand (sizeofExitCommand : Nat) (wait : Bool) : ThreadCommand :=
  { Size := sizeofExitCommand, WaitFlag := wait, ExitFlag := true, pEvent := none, kind := .exit }

/-- Modelled from the spec: the class `ThreadCommand::PopBuffer` of the missing
header: its current size (0 when empty) and the command whose bytes its
`Buffer` holds. -/
structure PopBuffer where
  Size : Nat
  Buffer : Option ThreadCommand
deriving DecidableEq

/-- A call to a collaborator of the queue. -/
inductive Effect where
  | OnPushNonEmpty_Locked
  | OnPopEmpty_Locked
  | CopyConstruct (offset : Nat) (c : ThreadCommand)
  | Destruct (c : ThreadCommand)
  | Execute (c : ThreadCommand)
  | PulseEvent (e : NotifyEvent)
deriving DecidableEq

namespace PopBuffer

/-- Modelled from the spec: the constructor of `PopBuffer`, an empty buffer. -/
def create : PopBuffer := { Size := 0, Buffer := none }

/-- Modelled from the spec: `GetSize()`, the current size of the buffer. -/
def GetSize (pb : PopBuffer) : Nat := pb.Size

/-- `InitFromBuffer(data)`, where `cmd` is the command found at `data`: the
buffer afterwards and the commands it destructed.  `memcpy` of zero bytes
leaves `Buffer` as it was. -/
def InitFromBuffer (MaxSize : Nat) (pb : PopBuffer) (cmd : ThreadCommand) :
    PopBuffer × List ThreadCommand :=
  let destructed := if pb.Size ≠ 0 then pb.Buffer.toList else []
  let size := cmd.Size
  let size := if size > MaxSize then MaxSize else size
  ({ Size := size, Buffer := if size = 0 then pb.Buffer else some cmd }, destructed)

/-- The destructor `~PopBuffer()`: the commands it destructs. -/
def destroy (pb : PopBuffer) : List ThreadCommand :=
  if pb.Size ≠ 0 then pb.Buffer.toList else []

end PopBuffer

/-- The fields of `class ThreadCommandQueueImpl`, the contents of the ring's
storage (the commands constructed at the offsets `Write` returned, most recent
first), the number of `NotifyEvent` objects created so far, and the calls made
to collaborators so far. -/
structure ThreadCommandQueueImpl where
  ExitEnqueued : Bool
  ExitProcessed : Bool
  AvailableEvents : List NotifyEvent
  BlockedProducers : List NotifyEvent
  CommandBuffer : CircularBuffer
  ringData : List (Nat × ThreadCommand)
  eventsCreated : Nat
  effects : List Effect
deriving DecidableEq

/-- What one pass through the lock scope of `PushCommand` ends in: `return false`,
`break` out of the loop (with the completion event, if any), or leaving the
scope to wait on the event just put on the blocked-producer list. -/
inductive PushStep where
  | returnedFalse
  | enqueued (completeEvent : Option NotifyEvent)
  | blocked (queueAvailableEvent : NotifyEvent)
deriving DecidableEq

namespace ThreadCommandQueueImpl

/-- The constructor: `ExitEnqueued(false), ExitProcessed(false), CommandBuffer(2048)`. -/
def create : ThreadCommandQueueImpl :=
  { ExitEnqueued := false, ExitProcessed := false, AvailableEvents := [],
    BlockedProducers := [], CommandBuffer := CircularBuffer.create 2048,
    ringData := [], eventsCreated := 0, effects := [] }

/-- The command found in the ring's storage at an offset.  Storage that was
never written is read as a user command of size 0. -/
def commandAt (q : ThreadCommandQueueImpl) (offset : Nat) : ThreadCommand :=
  (q.ringData.lookup offset).getD
    { Size := 0, WaitFlag := false, ExitFlag := false, pEvent := none, kind := .user 0 }

/-- `AllocNotifyEvent_NTS()`: the first free event, or a new one. -/
def AllocNotifyEvent_NTS (q : ThreadCommandQueueImpl) : NotifyEvent × ThreadCommandQueueImpl :=
  match q.AvailableEvents with
  | p :: rest => (p, { q with AvailableEvents := rest })
  | [] => (q.eventsCreated, { q with eventsCreated := q.eventsCreated + 1 })

/-- `FreeNotifyEvent_NTS(p)`: `AvailableEvents.PushBack(p)`. -/
def FreeNotifyEvent_NTS (q : ThreadCommandQueueImpl) (p : NotifyEvent) : ThreadCommandQueueImpl :=
  { q with AvailableEvents := q.AvailableEvents ++ [p] }

/-- The start of the lock scope of `PushCommand`'s loop:
`if (queueAvailableEvent) { FreeNotifyEvent_NTS(queueAvailableEvent); ... }`. -/
def ReleaseWaitEvent (q : ThreadCommandQueueImpl) (queueAvailableEvent : Option NotifyEvent) :
    ThreadCommandQueueImpl :=
  match queueAvailableEvent with
  | some e => q.FreeNotifyEvent_NTS e
  | none => q

/-- The branch `if (buffer) { ... break; }` of `PushCommand`, after `Write`
returned the block at offset `buffer`: the command is copy-constructed there,
a completion event is attached to the copy when it needs one, and the
became-non-empty hook is called when the ring was empty before. -/
def PushCommand_Enqueue (q : ThreadCommandQueueImpl) (command : ThreadCommand) (buffer : Nat)
    (bufferWasEmpty : Bool) : PushStep × ThreadCommandQueueImpl :=
  let a := q.AllocNotifyEvent_NTS
  let completeEvent := if command.NeedsWait then some a.1 else none
  let q1 := if command.NeedsWait then a.2 else q
  let c := if command.NeedsWait then { command with pEvent := some a.1 } else command
  let q2 := { q1 with ringData := (buffer, c) :: q1.ringData,
                      effects := q1.effects ++ [.CopyConstruct buffer command] }
  let q3 := if bufferWasEmpty then
      { q2 with effects := q2.effects ++ [.OnPushNonEmpty_Locked] }
    else q2
  (.enqueued completeEvent, q3)

/-- The end of the lock scope of `PushCommand` when `Write` returned null:
`queueAvailableEvent = AllocNotifyEvent_NTS(); BlockedProducers.PushBack(queueAvailableEvent)`. -/
def PushCommand_Block (q : ThreadCommandQueueImpl) : PushStep × ThreadCommandQueueImpl :=
  let a := q.AllocNotifyEvent_NTS
  (.blocked a.1, { a.2 with BlockedProducers := a.2.BlockedProducers ++ [a.1] })

/-- One pass through the lock scope of `PushCommand`'s loop.
`queueAvailableEvent` is the local variable of that name: `none` on the first
pass, the event the producer waited on when it retries. -/
def PushCommand_Locked (q : ThreadCommandQueueImpl) (command : ThreadCommand)
    (queueAvailableEvent : Option NotifyEvent) : PushStep × ThreadCommandQueueImpl :=
  let q := q.ReleaseWaitEvent queueAvailableEvent
  if q.ExitEnqueued && !command.ExitFlag then
    (.returnedFalse, q)
  else
    let bufferWasEmpty := q.CommandBuffer.IsEmpty
    match q.CommandBuffer.Write command.GetSize with
    | (some buffer, cb) =>
      { q with CommandBuffer := cb }.PushCommand_Enqueue command buffer bufferWasEmpty
    | (none, cb) =>
      { q with CommandBuffer := cb }.PushCommand_Block

/-- The end of `PushCommand` for a command that was enqueued with a completion
event, after the wait: the lock scope that frees the event. -/
def PushCommand_Complete (q : ThreadCommandQueueImpl) (completeEvent : NotifyEvent) :
    ThreadCommandQueueImpl :=
  q.FreeNotifyEvent_NTS completeEvent

/-- `PopCommand(popBuffer)`: the returned flag, the queue and the caller's
buffer afterwards. -/
def PopCommand (MaxSize : Nat) (q : ThreadCommandQueueImpl) (popBuffer : PopBuffer) :
    Bool × ThreadCommandQueueImpl × PopBuffer :=
  match q.CommandBuffer.ReadBegin with
  | none => (false, { q with effects := q.effects ++ [.OnPopEmpty_Locked] }, popBuffer)
  | some buffer =>
    let i := popBuffer.InitFromBuffer MaxSize (q.commandAt buffer)
    let q := { q with effects := q.effects ++ i.2.map Effect.Destruct,
                      CommandBuffer := q.CommandBuffer.ReadEnd i.1.GetSize }
    match q.BlockedProducers with
    | [] => (true, q, i.1)
    | queueAvailableEvent :: rest =>
      (true, { q with BlockedProducers := rest,
                      effects := q.effects ++ [.PulseEvent queueAvailableEvent] }, i.1)

/-- The virtual call `command->Execute()`: `ExitCommand::Execute` sets
`ExitProcessed`; the `Execute` of a user's command does not touch the queue. -/
def ExecuteCommand (q : ThreadCommandQueueImpl) (command : ThreadCommand) :
    ThreadCommandQueueImpl :=
  let q := { q with effects := q.effects ++ [.Execute command] }
  match command.kind with
  | .exit => { q with ExitProcessed := true }
  | .user _ => q

/-- `PopBuffer::Execute()` on a buffer that holds a command (on an empty buffer
there is no command to run and the queue is left as it is). -/
def Execute (q : ThreadCommandQueueImpl) (popBuffer : PopBuffer) : ThreadCommandQueueImpl :=
  match popBuffer.Buffer with
  | none => q
  | some command =>
    let q := q.ExecuteCommand command
    if command.NeedsWait then
      match command.pEvent with
      | some e => { q with effects := q.effects ++ [.PulseEvent e] }
      | none => q
    else q

/-- The lock scope of `PushExitCommand(wait)`: the queue afterwards, and the
command that the call then hands to `PushCommand` (`none` when it returned
from inside the scope). -/
def PushExitCommand_Locked (sizeofExitCommand : Nat) (q : ThreadCommandQueueImpl) (wait : Bool) :
    ThreadCommandQueueImpl × Option ThreadCommand :=
  if q.ExitEnqueued then
    (q, none)
  else
    ({ q with ExitEnqueued := true }, some (ExitCommand sizeofExitCommand wait))

/-- `ThreadCommandQueue::IsExiting()`. -/
def IsExiting (q : ThreadCommandQueueImpl) : Bool := q.ExitProcessed

end ThreadCommandQueueImpl

/-- The queue together with the consumer thread's `PopBuffer`. -/
structure QueueState where
  impl : ThreadCommandQueueImpl
  popBuffer : PopBuffer
deriving DecidableEq

/-- A freshly constructed queue and an empty `PopBuffer`. -/
def QueueState.create : QueueState :=
  { impl := ThreadCommandQueueImpl.create, popBuffer := PopBuffer.create }

/-- States reachable from a fresh queue, each lock scope being one step: passes
of `PushCommand` for commands of the queue's users, the lock scope of
`PushExitCommand` and the passes of the `PushCommand` it calls, the return of a
completion event, `PopCommand` and `PopBuffer::Execute` by the consumer. -/
inductive QueueState.Reachable (MaxSize sizeofExitCommand : Nat) : QueueState → Prop where
  | create : QueueState.Reachable MaxSize sizeofExitCommand QueueState.create
  | push (s : QueueState) (command : ThreadCommand) (queueAvailableEvent : Option NotifyEvent) :
      QueueState.Reachable MaxSize sizeofExitCommand s → command.kind ≠ .exit →
      QueueState.Reachable MaxSize sizeofExitCommand
        { s with impl := (s.impl.PushCommand_Locked command queueAvailableEvent).2 }
  | pushComplete (s : QueueState) (completeEvent : NotifyEvent) :
      QueueState.Reachable MaxSize sizeofExitCommand s →
      QueueState.Reachable MaxSize sizeofExitCommand
        { s with impl := s.impl.PushCommand_Complete completeEvent }
  | pushExit (s : QueueState) (wait : Bool) :
      QueueState.Reachable MaxSize sizeofExitCommand s →
      QueueState.Reachable MaxSize sizeofExitCommand
        { s with impl := (s.impl.PushExitCommand_Locked sizeofExitCommand wait).1 }
  | pushExitCommand (s : QueueState) (wait : Bool) (queueAvailableEvent : Option NotifyEvent) :
      QueueState.Reachable MaxSize sizeofExitCommand s → s.impl.ExitEnqueued = true →
      QueueState.Reachable MaxSize sizeofExitCommand
        { s with impl := (s.impl.PushCommand_Locked (ExitCommand sizeofExitCommand wait)
            queueAvailableEvent).2 }
  | pop (s : QueueState) :
      QueueState.Reachable MaxSize sizeofExitCommand s →
      QueueState.Reachable MaxSize sizeofExitCommand
        { impl := (s.impl.PopCommand MaxSize s.popBuffer).2.1,
          popBuffer := (s.impl.PopCommand MaxSize s.popBuffer).2.2 }
  | execute (s : QueueState) :
      QueueState.Reachable MaxSize sizeofExitCommand s →
      QueueState.Reachable MaxSize sizeofExitCommand
        { s with impl := s.impl.Execute s.popBuffer }

/-- The consumer has executed the exit command: an `Execute` of a command of
kind `exit` is among the calls made so far. -/
def ExitExecuted (q : ThreadCommandQueueImpl) : Prop :=
  ∃ c, Effect.Execute c ∈ q.effects ∧ c.kind = .exit

/-! ## The assertions inside `Write` and `ReadEnd`, and the live records -/

/-- The conditions of the assertions that `Write(size)` meets on its way, apart
from the assertion on the size: `End == 0` when `Head >= Tail`, `End != 0`
otherwise, and `Head != Tail` after a write that wraps or that is made in the
wrapped state. -/
def CircularBuffer.WriteAsserts (b : CircularBuffer) (size : Nat) : Bool :=
  let size := roundUpSize size
  if b.Head ≥ b.Tail then
    (b.End == 0) &&
      (if size ≤ sizeSub b.Size b.Head then true
       else if size < b.Tail then size != b.Tail
       else true)
  else
    (b.End != 0) &&
      (if sizeSub b.Tail b.Head > size then sizeAdd b.Head size != b.Tail else true)

/-- The conditions of the assertions that `ReadEnd(size)` meets on its way:
`Head != Tail` on entry and `End == 0` when the advanced `Tail` meets `Head`. -/
def CircularBuffer.ReadEndAsserts (b : CircularBuffer) (size : Nat) : Bool :=
  let tail := sizeAdd b.Tail (roundUpSize size)
  (b.Head != b.Tail) &&
    (if tail = b.End then true
     else if tail = b.Head then b.End == 0
     else true)

/-- The records written and not yet consumed, after a `Write(size)` that
returned `res`: a successful write adds its record (offset and size). -/
def liveAfterWrite (live : List (Nat × Nat)) (res : Option Nat) (size : Nat) :
    List (Nat × Nat) :=
  match res with
  | some p => live ++ [(p, size)]
  | none => live

/-- The records written and not yet consumed, after a `ReadBegin` that returned
offset `p` and its `ReadEnd`: what was stored at `p` is consumed. -/
def liveAfterRead (live : List (Nat × Nat)) (p : Nat) : List (Nat × Nat) :=
  live.filter fun x => x.1 != p

/-- States of the ring reachable as in `Ring.Reachable`, together with the
records (offset and size) that were written and not yet consumed by `ReadEnd`. -/
inductive Ring.ReachableLive (capacity : Nat) : Ring → List (Nat × Nat) → Prop where
  | fresh : Ring.ReachableLive capacity (Ring.fresh capacity) []
  | write (r : Ring) (live : List (Nat × Nat)) (size : Nat) :
      Ring.ReachableLive capacity r live → StatedWrite capacity size →
      Ring.ReachableLive capacity (r.write size).2 (liveAfterWrite live (r.write size).1 size)
  | read (r : Ring) (live : List (Nat × Nat)) :
      Ring.ReachableLive capacity r live → r.buf.Head ≠ r.buf.Tail →
      Ring.ReachableLive capacity r.read.2 (liveAfterRead live r.buf.Tail)

/-- A wrapped ring: capacity 2048 after writes of 1008 and 1008 bytes, a read
and a write of 512 bytes. -/
def wrappedRingExample : Ring :=
  (((((Ring.fresh 2048).write 1008).2.write 1008).2.read.2).write 512).2

/-! ## Calls made by one lock scope -/

/-- The calls to collaborators made between two states of the queue: what was
added to `effects`. -/
def newEffects (before after : ThreadCommandQueueImpl) : List Effect :=
  after.effects.drop before.effects.length

/-- The events signalled by a list of calls, in order. -/
def pulsedEvents (l : List Effect) : List NotifyEvent :=
  l.filterMap fun e => match e with
    | .PulseEvent x => some x
    | _ => none

/-- The commands copy-constructed by a list of calls, in order. -/
def constructedCommands (l : List Effect) : List ThreadCommand :=
  l.filterMap fun e => match e with
    | .CopyConstruct _ c => some c
    | _ => none

/-- The commands destructed over the life of a `PopBuffer`: by the calls
`InitFromBuffer` for the commands of the list, in order, and then by the
destructor. -/
def PopBuffer.destructedBy (MaxSize : Nat) : PopBuffer → List ThreadCommand → List ThreadCommand
  | pb, [] => pb.destroy
  | pb, cmd :: cmds =>
    (pb.InitFromBuffer MaxSize cmd).2 ++
      PopBuffer.destructedBy MaxSize (pb.InitFromBuffer MaxSize cmd).1 cmds

/-! ## Producers, the consumer and the queue as one system

Each block of code that runs under `QueueLock` is one atomic step of the
thread that runs it.  A producer thread makes one call, `PushCommand(command)`
or `PushExitCommand(wait)`; between its lock scopes it waits on a
`NotifyEvent` until that event is signalled.  The consumer thread alternates
`PopCommand` and, after a successful pop, `PopBuffer::Execute`. -/

/-- Where a producer thread stands in its call. -/
inductive ProducerState where
  /-- `PushCommand(command)` is called; the first pass has not run yet. -/
  | start (command : ThreadCommand)
  /-- `PushExitCommand(wait)` is called; its lock scope has not run yet. -/
  | startExit (wait : Bool)
  /-- The pass found the ring full: the thread waits on `queueAvailableEvent`. -/
  | parked (command : ThreadCommand) (queueAvailableEvent : NotifyEvent)
  /-- The event was signalled: the thread is about to retry. -/
  | woken (command : ThreadCommand) (queueAvailableEvent : NotifyEvent)
  /-- The command is in the ring: the thread waits on `completeEvent`. -/
  | waitComplete (command : ThreadCommand) (completeEvent : NotifyEvent)
  /-- The completion event was signalled: the thread is about to free it. -/
  | completing (command : ThreadCommand) (completeEvent : NotifyEvent)
  /-- `PushCommand(command)` has returned `result`. -/
  | returned (command : ThreadCommand) (result : Bool)
  /-- `PushExitCommand` has returned from inside its lock scope. -/
  | exitReturned
deriving DecidableEq

/-- The call a producer thread makes: `PushCommand` of a command of the queue's
user, or `PushExitCommand(wait)`. -/
inductive Request where
  | push (size : Nat) (wait : Bool) (exitFlag : Bool)
  | exit (wait : Bool)
deriving DecidableEq

/-- The state in which the thread with the given number starts its call; the
command of a `PushCommand` is tagged with that number. -/
def Request.toProducer (i : Nat) : Request → ProducerState
  | .push size wait exitFlag =>
    .start { Size := size, WaitFlag := wait, ExitFlag := exitFlag, pEvent := none, kind := .user i }
  | .exit wait => .startExit wait

/-- The producer threads for a list of requests, numbered from `i`. -/
def Request.producersFrom : Nat → List Request → List ProducerState
  | _, [] => []
  | i, r :: rs => r.toProducer i :: Request.producersFrom (i + 1) rs

/-- A size a command may have: positive, within the capacity of the `PopBuffer`,
and passing the assertion of `Write` on the queue's ring of 2048 bytes. -/
def ValidCommandSize (MaxSize size : Nat) : Prop :=
  0 < size ∧ size ≤ MaxSize ∧ size + AlignMask < SizeTMod ∧ roundUpSize size < 2048 / 2

instance (MaxSize size : Nat) : Decidable (ValidCommandSize MaxSize size) := by
  unfold ValidCommandSize; infer_instance

/-- A request whose command, if it pushes one, has a valid size. -/
def Request.Valid (MaxSize : Nat) : Request → Prop
  | .push size _ _ => ValidCommandSize MaxSize size
  | .exit _ => True

instance (MaxSize : Nat) (r : Request) : Decidable (r.Valid MaxSize) :=
  match r with
  | .push size _ _ => inferInstanceAs (Decidable (ValidCommandSize MaxSize size))
  | .exit _ => inferInstanceAs (Decidable True)

/-- The queue, the consumer's `PopBuffer`, whether the consumer has popped a
command that it has not executed yet, and the producer threads. -/
structure System where
  impl : ThreadCommandQueueImpl
  popBuffer : PopBuffer
  pending : Bool
  producers : List ProducerState
deriving DecidableEq

/-- A step of the system: the next lock scope of producer thread `i`, a
`PopCommand` by the consumer, or a `PopBuffer::Execute` by the consumer. -/
inductive Action where
  | producer (i : Nat)
  | pop
  | execute
deriving DecidableEq

namespace ProducerState

/-- Where `PushCommand(command)` goes after a pass through its lock scope. -/
def afterPush (command : ThreadCommand) : PushStep → ProducerState
  | .returnedFalse => .returned command false
  | .enqueued none => .returned command true
  | .enqueued (some e) => .waitComplete command e
  | .blocked e => .parked command e

/-- The effect of `PulseEvent` on event `e` on a thread that is parked on it. -/
def wake (e : NotifyEvent) : ProducerState → ProducerState
  | .parked c x => if x = e then .woken c x else .parked c x
  | p => p

/-- The effect of `PulseEvent` on event `e` on a thread that waits for the
completion of its command on it. -/
def signal (e : NotifyEvent) : ProducerState → ProducerState
  | .waitComplete c x => if x = e then .completing c x else .waitComplete c x
  | p => p

end ProducerState

namespace System

/-- A fresh queue, an empty `PopBuffer` and one producer thread for each request. -/
def init (reqs : List Request) : System :=
  { impl := ThreadCommandQueueImpl.create, popBuffer := PopBuffer.create, pending := false,
    producers := Request.producersFrom 0 reqs }

/-- The next lock scope of producer thread `i` (nothing when the thread waits
or has returned). -/
def producerStep (sizeofExitCommand : Nat) (s : System) (i : Nat) : System :=
  match s.producers[i]? with
  | some (.start c) =>
    { s with impl := (s.impl.PushCommand_Locked c none).2,
             producers := s.producers.set i
               (ProducerState.afterPush c (s.impl.PushCommand_Locked c none).1) }
  | some (.woken c e) =>
    { s with impl := (s.impl.PushCommand_Locked c (some e)).2,
             producers := s.producers.set i
               (ProducerState.afterPush c (s.impl.PushCommand_Locked c (some e)).1) }
  | some (.startExit wait) =>
    { s with impl := (s.impl.PushExitCommand_Locked sizeofExitCommand wait).1,
             producers := s.producers.set i
               (match (s.impl.PushExitCommand_Locked sizeofExitCommand wait).2 with
                | some c => .start c
                | none => .exitReturned) }
  | some (.completing c e) =>
    { s with impl := s.impl.PushCommand_Complete e,
             producers := s.producers.set i (.returned c true) }
  | _ => s

/-- A `PopCommand` by the consumer (not before it has executed the command it
popped last); the event it signals wakes the thread parked on it. -/
def popStep (MaxSize : Nat) (s : System) : System :=
  if s.pending then s
  else
    { impl := (s.impl.PopCommand MaxSize s.popBuffer).2.1,
      popBuffer := (s.impl.PopCommand MaxSize s.popBuffer).2.2,
      pending := (s.impl.PopCommand MaxSize s.popBuffer).1,
      producers :=
        match (s.impl.PopCommand MaxSize s.popBuffer).1, s.impl.BlockedProducers with
        | true, e :: _ => s.producers.map (ProducerState.wake e)
        | _, _ => s.producers }

/-- A `PopBuffer::Execute` by the consumer, after a successful `PopCommand`; the
completion event it signals releases the thread that waits on it. -/
def executeStep (s : System) : System :=
  if s.pending then
    { s with impl := s.impl.Execute s.popBuffer, pending := false,
             producers :=
               match s.popBuffer.Buffer with
               | some c =>
                 if c.NeedsWait then
                   match c.pEvent with
                   | some e => s.producers.map (ProducerState.signal e)
                   | none => s.producers
                 else s.producers
               | none => s.producers }
  else s

/-- One step of the system. -/
def step (MaxSize sizeofExitCommand : Nat) (s : System) : Action → System
  | .producer i => s.producerStep sizeofExitCommand i
  | .pop => s.popStep MaxSize
  | .execute => s.executeStep

/-- The state after a sequence of steps. -/
def run (MaxSize sizeofExitCommand : Nat) (s : System) : List Action → System
  | [] => s
  | a :: as => run MaxSize sizeofExitCommand (s.step MaxSize sizeofExitCommand a) as

/-- States of the system reachable from a fresh queue and producer threads whose
requests are valid. -/
inductive Reachable (MaxSize sizeofExitCommand : Nat) : System → Prop where
  | init (reqs : List Request) : (∀ r ∈ reqs, r.Valid MaxSize) →
      Reachable MaxSize sizeofExitCommand (System.init reqs)
  | step (s : System) (a : Action) : Reachable MaxSize sizeofExitCommand s →
      Reachable MaxSize sizeofExitCommand (s.step MaxSize sizeofExitCommand a)

end System

/-- The event a producer is parked on, if it is parked. -/
def ProducerState.parkedEvent : ProducerState → Option NotifyEvent
  | .parked _ e => some e
  | _ => none

/-- The event a woken producer holds until it retries, if it is one. -/
def ProducerState.wokenEvent : ProducerState → Option NotifyEvent
  | .woken _ e => some e
  | _ => none

/-- The completion event attached to the command of a producer whose push has
not returned yet, if it has one. -/
def ProducerState.completionEvent : ProducerState → Option NotifyEvent
  | .waitComplete _ e => some e
  | .completing _ e => some e
  | _ => none

/-- What the call of a producer returned, if it has returned (`PushExitCommand`
returning from inside its lock scope counts as `true`). -/
def ProducerState.result : ProducerState → Option Bool
  | .returned _ b => some b
  | .exitReturned => some true
  | _ => none

/-- The events on which parked producers wait. -/
def parkedEvents (ps : List ProducerState) : List NotifyEvent :=
  ps.filterMap ProducerState.parkedEvent

/-- The events held by producers that were woken and have not retried yet. -/
def wokenEvents (ps : List ProducerState) : List NotifyEvent :=
  ps.filterMap ProducerState.wokenEvent

/-- The completion events of the commands whose push has not returned yet. -/
def completionEvents (ps : List ProducerState) : List NotifyEvent :=
  ps.filterMap ProducerState.completionEvent

/-- The run in which a producer is left parked for ever: with a `PopBuffer` of
256 bytes and an `ExitCommand` of 32 bytes, threads 0 to 7 push commands of
256 bytes and fill the ring, threads 8 to 15 push and are parked, thread 16
calls `PushExitCommand(false)` and is parked too; the consumer then pops and
executes the eight commands, and after each pop the thread it woke retries and
is rejected. -/
def strandedRun : List Action :=
  (List.range 16).map Action.producer ++ [.producer 16, .producer 16] ++
  (List.range 8).flatMap fun k => [.pop, .execute, .producer (8 + k)]

/-- The state at the end of `strandedRun`. -/
def strandedState : System :=
  System.run 256 32
    (System.init (List.replicate 16 (Request.push 256 false false) ++ [Request.exit false]))
    strandedRun

/-- The run after which an event is in none of the free list, the blocked list
and the completion events: threads 0 to 7 fill the ring with commands of 256
bytes, thread 8 pushes and is parked on event 0, and the consumer pops. -/
def wokenRun : List Action :=
  (List.range 9).map Action.producer ++ [.pop]

/-- The state at the end of `wokenRun`. -/
def wokenState : System :=
  System.run 256 32 (System.init (List.replicate 9 (Request.push 256 false false))) wokenRun

/-- Every event created so far is in exactly one of four places: the free list,
the blocked-producer list, the hands of a woken producer that has not retried
yet, or attached as the completion event of a command whose push has not
returned; and the blocked-producer list holds the events of the parked
producers. -/
def System.EventsInv (s : System) : Prop :=
  (∀ x : Nat,
    s.impl.AvailableEvents.count x + s.impl.BlockedProducers.count x
        + (wokenEvents s.producers).count x + (completionEvents s.producers).count x
      = if x < s.impl.eventsCreated then 1 else 0) ∧
  (∀ x : Nat, (parkedEvents s.producers).count x = s.impl.BlockedProducers.count x)

/-! ## The commands stored in the queue's ring -/

/-- The ring of the queue together with the sizes of the commands that were
copy-constructed in its storage. -/
def ThreadCommandQueueImpl.ring (q : ThreadCommandQueueImpl) : Ring :=
  { buf := q.CommandBuffer, stored := q.ringData.map fun x => (x.1, x.2.Size) }

/-- The commands stored in the ring, in the order in which successive calls of
`PopCommand` hand them out (at most `fuel` of them). -/
def ThreadCommandQueueImpl.drain (MaxSize : Nat) :
    Nat → ThreadCommandQueueImpl → PopBuffer → List ThreadCommand
  | 0, _, _ => []
  | fuel + 1, q, popBuffer =>
    match q.PopCommand MaxSize popBuffer with
    | (true, q1, popBuffer1) => popBuffer1.Buffer.toList ++ drain MaxSize fuel q1 popBuffer1
    | (false, _, _) => []

/-- The live records of the queue's ring are `live` (offset and command, oldest
first): the ring has the queue's capacity, its cursors delimit exactly these
records, the storage holds each command at its offset, and each has a valid
size. -/
def ThreadCommandQueueImpl.LiveInv (MaxSize : Nat) (q : ThreadCommandQueueImpl)
    (live : List (Nat × ThreadCommand)) : Prop :=
  q.CommandBuffer.Size = 2048 ∧
  q.ring.Inv (live.map fun x => (x.1, x.2.Size)) ∧
  ∀ x ∈ live, q.ringData.lookup x.1 = some x.2 ∧ ValidCommandSize MaxSize x.2.Size

/-- The command a producer thread is pushing or has pushed, if it has one. -/
def ProducerState.command : ProducerState → Option ThreadCommand
  | .start c => some c
  | .startExit _ => none
  | .parked c _ => some c
  | .woken c _ => some c
  | .waitComplete c _ => some c
  | .completing c _ => some c
  | .returned c _ => some c
  | .exitReturned => none

/-- Whether a producer thread is still to run a pass of `PushCommand` with its
command: it has not started, is parked, or was woken. -/
def ProducerState.toPush : ProducerState → Option ThreadCommand
  | .start c => some c
  | .parked c _ => some c
  | .woken c _ => some c
  | _ => none

/-- The ring of the system holds the live records `live`, and every command
that a producer thread is still to push has a valid size. -/
def System.BaseInv (MaxSize : Nat) (s : System) (live : List (Nat × ThreadCommand)) : Prop :=
  s.impl.LiveInv MaxSize live ∧
  ∀ p ∈ s.producers, ∀ c, p.toPush = some c → ValidCommandSize MaxSize c.Size

theorem land_notAlignMask (x : Nat) (hx : x < 2 ^ 64) :
    x &&& (2 ^ 64 - 1 - 15) = x / 16 * 16 := by
  apply Nat.eq_of_testBit_eq
  intro i
  have h1 : (2:Nat) ^ 64 - 1 - 15 = 2 ^ 4 * (2 ^ 60 - 1) := by norm_num
  have h2 : x / 16 * 16 = 2 ^ 4 * (x / 2 ^ 4) := by norm_num [Nat.mul_comm]
  rw [Nat.testBit_and, h1, h2, Nat.testBit_mul_pow_two, Nat.testBit_mul_pow_two,
    Nat.testBit_two_pow_sub_one, ← Nat.shiftRight_eq_div_pow, Nat.testBit_shiftRight]
  by_cases h4 : 4 ≤ i
  · have e : 4 + (i - 4) = i := by omega
    by_cases h64 : i < 64
    · have : i - 4 < 60 := by omega
      simp [h4, this, e]
    · have hb : x.testBit i = false := by
        apply Nat.testBit_lt_two_pow
        calc x < 2 ^ 64 := hx
          _ ≤ 2 ^ i := Nat.pow_le_pow_right (by norm_num) (by omega)
      simp [hb, e]
  · simp [h4]

theorem roundUpSize_eq (size : Nat) :
    roundUpSize size = (size + 15) % 2 ^ 64 / 16 * 16 := by
  unfold roundUpSize notAlignMask AlignMask AlignSize SizeTMod
  exact land_notAlignMask _ (Nat.mod_lt _ (by norm_num))

theorem roundUpSize_of_lt (size : Nat) (h : size + 15 < 2 ^ 64) :
    roundUpSize size = (size + 15) / 16 * 16 := by
  rw [roundUpSize_eq, Nat.mod_eq_of_lt h]

theorem roundUpSize_lt (size : Nat) : roundUpSize size < 2 ^ 64 := by
  rw [roundUpSize_eq]
  have := Nat.mod_lt (size + 15) (show 0 < 2 ^ 64 by norm_num)
  omega

theorem roundUpSize_pos (size : Nat) (h0 : 0 < size) (h : size + 15 < 2 ^ 64) :
    0 < roundUpSize size := by
  rw [roundUpSize_of_lt size h]
  omega

theorem sizeAdd_of_lt (a b : Nat) (h : a + b < 2 ^ 64) : sizeAdd a b = a + b := by
  unfold sizeAdd SizeTMod
  exact Nat.mod_eq_of_lt h

theorem sizeSub_of_le (a b : Nat) (hb : b ≤ a) (ha : a < 2 ^ 64) : sizeSub a b = a - b := by
  unfold sizeSub SizeTMod
  rw [Nat.mod_eq_of_lt ha, Nat.mod_eq_of_lt (lt_of_le_of_lt hb ha)]
  have : a + (2 ^ 64 - b) = (a - b) + 2 ^ 64 := by omega
  rw [this, Nat.add_mod_right]
  exact Nat.mod_eq_of_lt (by omega)

/-! ## Layout lemmas -/

theorem Chain.le {a b : Nat} {Q : List (Nat × Nat)} (h : Chain a Q b) : a ≤ b := by
  induction Q generalizing a with
  | nil => exact le_of_eq h
  | cons x rest ih =>
    obtain ⟨o, s⟩ := x
    obtain ⟨_, _, h3⟩ := h
    have := ih h3
    omega

theorem Chain.bounds {a b : Nat} {Q : List (Nat × Nat)} (h : Chain a Q b) (o s : Nat)
    (hm : (o, s) ∈ Q) : a ≤ o ∧ o + roundUpSize s ≤ b ∧ 0 < roundUpSize s := by
  induction Q generalizing a with
  | nil => simp at hm
  | cons x rest ih =>
    obtain ⟨o1, s1⟩ := x
    obtain ⟨h1, h2, h3⟩ := h
    rcases List.mem_cons.mp hm with he | hr
    · have e1 : o = o1 := congrArg Prod.fst he
      have e2 : s = s1 := congrArg Prod.snd he
      subst e1 e2
      have := h3.le
      omega
    · have := ih h3 hr
      omega

theorem Chain.snoc {a b : Nat} {Q : List (Nat × Nat)} (h : Chain a Q b) (s : Nat)
    (hs : 0 < roundUpSize s) : Chain a (Q ++ [(b, s)]) (b + roundUpSize s) := by
  induction Q generalizing a with
  | nil =>
    have e : a = b := h
    subst e
    exact ⟨rfl, hs, rfl⟩
  | cons x rest ih =>
    obtain ⟨o1, s1⟩ := x
    obtain ⟨h1, h2, h3⟩ := h
    exact ⟨h1, h2, ih h3⟩

theorem Chain.eq_nil {a : Nat} {Q : List (Nat × Nat)} (h : Chain a Q a) : Q = [] := by
  cases Q with
  | nil => rfl
  | cons x rest =>
    obtain ⟨o1, s1⟩ := x
    obtain ⟨_, h2, h3⟩ := h
    have := h3.le
    omega

theorem Chain.uncons {a b : Nat} {Q : List (Nat × Nat)} (h : Chain a Q b) (hne : a ≠ b) :
    ∃ s rest, Q = (a, s) :: rest ∧ 0 < roundUpSize s ∧ Chain (a + roundUpSize s) rest b := by
  cases Q with
  | nil => exact absurd h hne
  | cons x rest =>
    obtain ⟨o1, s1⟩ := x
    obtain ⟨h1, h2, h3⟩ := h
    subst h1
    exact ⟨s1, rest, rfl, h2, h3⟩

theorem storedSize_cons (st : List (Nat × Nat)) (p s o : Nat) :
    storedSize ((p, s) :: st) o = if o = p then s else storedSize st o := by
  unfold storedSize
  by_cases h : o = p
  · subst h
    simp [List.lookup]
  · have : (o == p) = false := by simpa using h
    simp [List.lookup, this, h]

/-! ## The layout is kept by `Write` and `ReadEnd` -/

theorem CircularBuffer.Write_inplace {b : CircularBuffer} {size : Nat} (h : b.Tail ≤ b.Head)
    (h1 : roundUpSize size ≤ sizeSub b.Size b.Head) :
    b.Write size = (some b.Head, { b with Head := sizeAdd b.Head (roundUpSize size) }) := by
  simp [CircularBuffer.Write, h, h1]

theorem CircularBuffer.Write_wrap {b : CircularBuffer} {size : Nat} (h : b.Tail ≤ b.Head)
    (h1 : ¬ roundUpSize size ≤ sizeSub b.Size b.Head) (h2 : roundUpSize size < b.Tail) :
    b.Write size = (some 0, { b with End := b.Head, Head := roundUpSize size }) := by
  simp [CircularBuffer.Write, h, h1, h2]

theorem CircularBuffer.Write_full {b : CircularBuffer} {size : Nat} (h : b.Tail ≤ b.Head)
    (h1 : ¬ roundUpSize size ≤ sizeSub b.Size b.Head) (h2 : ¬ roundUpSize size < b.Tail) :
    b.Write size = (none, b) := by
  simp [CircularBuffer.Write, h, h1, h2]

theorem CircularBuffer.Write_wrapped {b : CircularBuffer} {size : Nat} (h : b.Head < b.Tail)
    (h1 : sizeSub b.Tail b.Head > roundUpSize size) :
    b.Write size = (some b.Head, { b with Head := sizeAdd b.Head (roundUpSize size) }) := by
  simp [CircularBuffer.Write, not_le.mpr h, h1]

theorem CircularBuffer.Write_wrapped_full {b : CircularBuffer} {size : Nat} (h : b.Head < b.Tail)
    (h1 : ¬ sizeSub b.Tail b.Head > roundUpSize size) :
    b.Write size = (none, b) := by
  simp only [CircularBuffer.Write, ge_iff_le, not_le.mpr h, if_false, if_neg h1]

theorem Ring.write_of_some {r : Ring} {size p : Nat} {b : CircularBuffer}
    (h : r.buf.Write size = (some p, b)) :
    r.write size = (some p, { buf := b, stored := (p, size) :: r.stored }) := by
  unfold Ring.write
  rw [h]

theorem Ring.write_of_none {r : Ring} {size : Nat} {b : CircularBuffer}
    (h : r.buf.Write size = (none, b)) :
    r.write size = (none, { r with buf := b }) := by
  unfold Ring.write
  rw [h]

theorem CircularBuffer.Write_none {b : CircularBuffer} {size : Nat}
    (h : (b.Write size).1 = none) : (b.Write size).2 = b := by
  by_cases hTH : b.Tail ≤ b.Head
  · by_cases h1 : roundUpSize size ≤ sizeSub b.Size b.Head
    · rw [CircularBuffer.Write_inplace hTH h1] at h
      cases h
    · by_cases h2 : roundUpSize size < b.Tail
      · rw [CircularBuffer.Write_wrap hTH h1 h2] at h
        cases h
      · rw [CircularBuffer.Write_full hTH h1 h2]
  · by_cases h1 : sizeSub b.Tail b.Head > roundUpSize size
    · rw [CircularBuffer.Write_wrapped (not_le.mp hTH) h1] at h
      cases h
    · rw [CircularBuffer.Write_wrapped_full (not_le.mp hTH) h1]

theorem CircularBuffer.Write_Size (b : CircularBuffer) (size : Nat) :
    (b.Write size).2.Size = b.Size := by
  simp only [CircularBuffer.Write]
  split_ifs <;> rfl

theorem CircularBuffer.ReadEnd_Size (b : CircularBuffer) (size : Nat) :
    (b.ReadEnd size).Size = b.Size := by
  simp only [CircularBuffer.ReadEnd]
  split_ifs <;> rfl

theorem Ring.write_buf (r : Ring) (size : Nat) :
    (r.write size).2.buf = (r.buf.Write size).2 := by
  rcases hW : r.buf.Write size with ⟨_ | p, b⟩
  · rw [Ring.write_of_none hW]
  · rw [Ring.write_of_some hW]

theorem Ring.write_fst (r : Ring) (size : Nat) :
    (r.write size).1 = (r.buf.Write size).1 := by
  rcases hW : r.buf.Write size with ⟨_ | p, b⟩
  · rw [Ring.write_of_none hW]
  · rw [Ring.write_of_some hW]

theorem Ring.write_none {r : Ring} {size : Nat} (h : (r.write size).1 = none) :
    (r.write size).2 = r := by
  rcases hW : r.buf.Write size with ⟨_ | p, b⟩
  · have hb : (r.buf.Write size).2 = r.buf := CircularBuffer.Write_none (by rw [hW])
    rw [hW] at hb
    rw [Ring.write_of_none hW]
    simp only at hb
    subst hb
    rfl
  · rw [Ring.write_of_some hW] at h
    cases h

theorem Ring.Inv.write_pos {r : Ring} {Q : List (Nat × Nat)} {size : Nat} (hinv : r.Inv Q)
    (hpos : 0 < roundUpSize size) (p : Nat) (hp : (r.write size).1 = some p) :
    (r.write size).2.Inv (Q ++ [(p, size)]) := by
  obtain ⟨hS, hmem, hlay⟩ := hinv
  have hr := roundUpSize_lt size
  rcases hlay with ⟨hE, hTH, hHS, hch, hemp⟩ | ⟨hE, hHT, hTE, hES, hH0, Q1, Q2, hQ, hc1, hc2⟩
  · have hsub : sizeSub r.buf.Size r.buf.Head = r.buf.Size - r.buf.Head :=
      sizeSub_of_le _ _ hHS hS
    by_cases h1 : roundUpSize size ≤ r.buf.Size - r.buf.Head
    · have hadd : sizeAdd r.buf.Head (roundUpSize size) = r.buf.Head + roundUpSize size :=
        sizeAdd_of_lt _ _ (by omega)
      have hw : r.write size = (some r.buf.Head,
          { buf := { r.buf with Head := r.buf.Head + roundUpSize size },
            stored := (r.buf.Head, size) :: r.stored }) := by
        rw [Ring.write_of_some (CircularBuffer.Write_inplace hTH (hsub ▸ h1)), hadd]
      rw [hw] at hp ⊢
      simp only [Option.some.injEq] at hp
      subst hp
      refine ⟨hS, ?_, Or.inl ⟨hE, ?_, ?_, ?_, ?_⟩⟩
      · intro o s hm
        show storedSize ((r.buf.Head, size) :: r.stored) o = s
        rw [storedSize_cons]
        rcases List.mem_append.mp hm with h | h
        · have := hch.bounds o s h
          rw [if_neg (by omega)]
          exact hmem o s h
        · simp only [List.mem_singleton, Prod.mk.injEq] at h
          obtain ⟨rfl, rfl⟩ := h
          simp
      · show r.buf.Tail ≤ r.buf.Head + roundUpSize size
        omega
      · show r.buf.Head + roundUpSize size ≤ r.buf.Size
        omega
      · exact hch.snoc size hpos
      · show r.buf.Head + roundUpSize size = r.buf.Tail → r.buf.Head + roundUpSize size = 0
        omega
    · by_cases h2 : roundUpSize size < r.buf.Tail
      · have hw : r.write size = (some 0,
            { buf := { r.buf with End := r.buf.Head, Head := roundUpSize size },
              stored := (0, size) :: r.stored }) := by
          rw [Ring.write_of_some (CircularBuffer.Write_wrap hTH (hsub ▸ h1) h2)]
        rw [hw] at hp ⊢
        simp only [Option.some.injEq] at hp
        subst hp
        have hne : r.buf.Head ≠ r.buf.Tail := by
          intro he
          have := hemp he
          omega
        refine ⟨hS, ?_, Or.inr ⟨?_, ?_, ?_, ?_, ?_, Q, [(0, size)], rfl, hch, ?_⟩⟩
        · intro o s hm
          show storedSize ((0, size) :: r.stored) o = s
          rw [storedSize_cons]
          rcases List.mem_append.mp hm with h | h
          · have := hch.bounds o s h
            rw [if_neg (by omega)]
            exact hmem o s h
          · simp only [List.mem_singleton, Prod.mk.injEq] at h
            obtain ⟨rfl, rfl⟩ := h
            simp
        · show r.buf.Head ≠ 0
          omega
        · show roundUpSize size < r.buf.Tail
          exact h2
        · show r.buf.Tail < r.buf.Head
          omega
        · show r.buf.Head ≤ r.buf.Size
          exact hHS
        · show 0 < roundUpSize size
          exact hpos
        · exact ⟨rfl, hpos, Nat.zero_add _⟩
      · have hw : (r.write size).1 = none := by
          rw [Ring.write_of_none (CircularBuffer.Write_full hTH (hsub ▸ h1) h2)]
        rw [hw] at hp
        cases hp
  · have hsub : sizeSub r.buf.Tail r.buf.Head = r.buf.Tail - r.buf.Head :=
      sizeSub_of_le _ _ (le_of_lt hHT) (by omega)
    by_cases h1 : r.buf.Tail - r.buf.Head > roundUpSize size
    · have hadd : sizeAdd r.buf.Head (roundUpSize size) = r.buf.Head + roundUpSize size :=
        sizeAdd_of_lt _ _ (by omega)
      have hw : r.write size = (some r.buf.Head,
          { buf := { r.buf with Head := r.buf.Head + roundUpSize size },
            stored := (r.buf.Head, size) :: r.stored }) := by
        rw [Ring.write_of_some (CircularBuffer.Write_wrapped hHT (hsub ▸ h1)), hadd]
      rw [hw] at hp ⊢
      simp only [Option.some.injEq] at hp
      subst hp
      refine ⟨hS, ?_, Or.inr ⟨hE, ?_, hTE, hES, ?_, Q1, Q2 ++ [(r.buf.Head, size)], ?_, hc1,
        hc2.snoc size hpos⟩⟩
      · intro o s hm
        show storedSize ((r.buf.Head, size) :: r.stored) o = s
        rw [storedSize_cons]
        rcases List.mem_append.mp hm with h | h
        · rw [hQ] at h
          have hne : o ≠ r.buf.Head := by
            rcases List.mem_append.mp h with h' | h'
            · have := hc1.bounds o s h'
              omega
            · have := hc2.bounds o s h'
              omega
          rw [if_neg hne]
          exact hmem o s (hQ ▸ h)
        · simp only [List.mem_singleton, Prod.mk.injEq] at h
          obtain ⟨rfl, rfl⟩ := h
          simp
      · show r.buf.Head + roundUpSize size < r.buf.Tail
        omega
      · show 0 < r.buf.Head + roundUpSize size
        omega
      · rw [hQ, List.append_assoc]
    · have hw : (r.write size).1 = none := by
        rw [Ring.write_of_none (CircularBuffer.Write_wrapped_full hHT (hsub ▸ h1))]
      rw [hw] at hp
      cases hp

theorem Ring.Inv.write_zero {r : Ring} {Q : List (Nat × Nat)} {size : Nat} (hinv : r.Inv Q)
    (hz : roundUpSize size = 0) :
    r.write size = (some r.buf.Head,
      { buf := r.buf, stored := (r.buf.Head, size) :: r.stored }) ∧
    (r.write size).2.Inv Q := by
  obtain ⟨hS, hmem, hlay⟩ := hinv
  have hadd : sizeAdd r.buf.Head (roundUpSize size) = r.buf.Head := by
    rw [hz]
    rcases hlay with ⟨_, _, hHS, _, _⟩ | ⟨_, hHT, hTE, hES, _⟩
    · exact sizeAdd_of_lt _ _ (by omega)
    · exact sizeAdd_of_lt _ _ (by omega)
  have hw : r.write size = (some r.buf.Head,
      { buf := r.buf, stored := (r.buf.Head, size) :: r.stored }) := by
    rcases hlay with ⟨_, hTH, hHS, _, _⟩ | ⟨_, hHT, hTE, hES, _⟩
    · have h1 : roundUpSize size ≤ sizeSub r.buf.Size r.buf.Head := by
        rw [hz]
        exact Nat.zero_le _
      rw [Ring.write_of_some (CircularBuffer.Write_inplace hTH h1), hadd]
    · have h1 : sizeSub r.buf.Tail r.buf.Head > roundUpSize size := by
        rw [hz, sizeSub_of_le _ _ (le_of_lt hHT) (by omega)]
        omega
      rw [Ring.write_of_some (CircularBuffer.Write_wrapped hHT h1), hadd]
  refine ⟨hw, ?_⟩
  rw [hw]
  refine ⟨hS, ?_, hlay⟩
  intro o s hm
  show storedSize ((r.buf.Head, size) :: r.stored) o = s
  rw [storedSize_cons]
  have hne : o ≠ r.buf.Head := by
    rcases hlay with ⟨_, _, _, hch, _⟩ | ⟨_, hHT, _, _, _, Q1, Q2, hQ, hc1, hc2⟩
    · have := hch.bounds o s hm
      omega
    · rw [hQ] at hm
      rcases List.mem_append.mp hm with h' | h'
      · have := hc1.bounds o s h'
        omega
      · have := hc2.bounds o s h'
        omega
  rw [if_neg hne]
  exact hmem o s hm

theorem Ring.Inv.empty {r : Ring} {Q : List (Nat × Nat)} (hinv : r.Inv Q)
    (he : r.buf.Head = r.buf.Tail) :
    Q = [] ∧ r.buf.Head = 0 ∧ r.buf.Tail = 0 ∧ r.buf.End = 0 := by
  obtain ⟨_, _, hlay⟩ := hinv
  rcases hlay with ⟨hE, _, _, hch, hemp⟩ | ⟨_, hHT, _⟩
  · have h0 := hemp he
    refine ⟨?_, h0, by omega, hE⟩
    rw [he] at hch
    exact hch.eq_nil
  · omega

theorem Ring.read_of_empty {r : Ring} (he : r.buf.Head = r.buf.Tail) : r.read = (none, r) := by
  simp [Ring.read, CircularBuffer.ReadBegin, he]

theorem Ring.read_of_ne {r : Ring} (hne : r.buf.Head ≠ r.buf.Tail) :
    r.read = (some r.buf.Tail, { r with buf := r.buf.ReadEnd (r.sizeAt r.buf.Tail) }) := by
  simp [Ring.read, CircularBuffer.ReadBegin, hne]

theorem Ring.Inv.read_some {r : Ring} {Q : List (Nat × Nat)} (hinv : r.Inv Q)
    (hne : r.buf.Head ≠ r.buf.Tail) :
    ∃ s rest, Q = (r.buf.Tail, s) :: rest ∧ r.read.1 = some r.buf.Tail ∧ r.read.2.Inv rest := by
  obtain ⟨hS, hmem, hlay⟩ := hinv
  rw [Ring.read_of_ne hne]
  rcases hlay with ⟨hE, hTH, hHS, hch, hemp⟩ | ⟨hE, hHT, hTE, hES, hH0, Q1, Q2, hQ, hc1, hc2⟩
  · obtain ⟨s, rest, hQ, hpos, hrest⟩ := hch.uncons (fun h => hne h.symm)
    have hs : r.sizeAt r.buf.Tail = s := hmem _ _ (by rw [hQ]; exact List.mem_cons_self _ _)
    have hle := hrest.le
    have hadd : sizeAdd r.buf.Tail (roundUpSize s) = r.buf.Tail + roundUpSize s :=
      sizeAdd_of_lt _ _ (by omega)
    have hmem2 : ∀ o s', (o, s') ∈ rest → r.sizeAt o = s' := fun o s' hm =>
      hmem o s' (by rw [hQ]; exact List.mem_cons_of_mem _ hm)
    refine ⟨s, rest, hQ, rfl, ?_⟩
    simp only [hs, CircularBuffer.ReadEnd, hadd]
    have hnE : r.buf.Tail + roundUpSize s ≠ r.buf.End := by omega
    rw [if_neg hnE]
    by_cases hH : r.buf.Tail + roundUpSize s = r.buf.Head
    · rw [if_pos hH]
      rw [hH] at hrest
      have hnil := hrest.eq_nil
      subst hnil
      exact ⟨hS, hmem2, Or.inl ⟨hE, le_refl _, Nat.zero_le _, rfl, fun _ => rfl⟩⟩
    · rw [if_neg hH]
      refine ⟨hS, hmem2, Or.inl ⟨hE, hle, hHS, hrest, ?_⟩⟩
      intro h
      exact absurd h.symm hH
  · obtain ⟨s, rest1, hQ1, hpos, hrest⟩ := hc1.uncons (by omega)
    have hQ' : Q = (r.buf.Tail, s) :: (rest1 ++ Q2) := by rw [hQ, hQ1]; rfl
    have hs : r.sizeAt r.buf.Tail = s := hmem _ _ (by rw [hQ']; exact List.mem_cons_self _ _)
    have hle := hrest.le
    have hadd : sizeAdd r.buf.Tail (roundUpSize s) = r.buf.Tail + roundUpSize s :=
      sizeAdd_of_lt _ _ (by omega)
    have hmem2 : ∀ o s', (o, s') ∈ rest1 ++ Q2 → r.sizeAt o = s' := fun o s' hm =>
      hmem o s' (by rw [hQ']; exact List.mem_cons_of_mem _ hm)
    refine ⟨s, rest1 ++ Q2, hQ', rfl, ?_⟩
    simp only [hs, CircularBuffer.ReadEnd, hadd]
    by_cases hEq : r.buf.Tail + roundUpSize s = r.buf.End
    · rw [if_pos hEq]
      rw [hEq] at hrest
      have hnil := hrest.eq_nil
      subst hnil
      refine ⟨hS, hmem2, Or.inl ⟨rfl, Nat.zero_le _, ?_, hc2, ?_⟩⟩
      · show r.buf.Head ≤ r.buf.Size
        omega
      · intro h
        exact h
    · rw [if_neg hEq]
      have hH : r.buf.Tail + roundUpSize s ≠ r.buf.Head := by omega
      rw [if_neg hH]
      refine ⟨hS, hmem2, Or.inr ⟨hE, ?_, ?_, hES, hH0, rest1, Q2, rfl, hrest, hc2⟩⟩
      · show r.buf.Head < r.buf.Tail + roundUpSize s
        omega
      · show r.buf.Tail + roundUpSize s < r.buf.End
        omega

theorem Ring.Inv.fresh (capacity : Nat) (h : capacity < 2 ^ 64) : (Ring.fresh capacity).Inv [] :=
  ⟨h, fun _ _ hm => absurd hm (List.not_mem_nil _),
    Or.inl ⟨rfl, le_refl _, Nat.zero_le _, rfl, fun _ => rfl⟩⟩

theorem Ring.Inv.write {r : Ring} {Q : List (Nat × Nat)} (hinv : r.Inv Q) (size : Nat) :
    ∃ Q', (r.write size).2.Inv Q' := by
  rcases Nat.eq_zero_or_pos (roundUpSize size) with hz | hpos
  · exact ⟨Q, (hinv.write_zero hz).2⟩
  · rcases hp : (r.write size).1 with _ | p
    · rw [Ring.write_none hp]
      exact ⟨Q, hinv⟩
    · exact ⟨_, hinv.write_pos hpos p hp⟩

theorem Ring.Reachable.inv {capacity : Nat} (hcap : capacity < SizeTMod) {r : Ring}
    (h : Ring.Reachable capacity r) : r.buf.Size = capacity ∧ ∃ Q, r.Inv Q := by
  induction h with
  | fresh => exact ⟨rfl, [], Ring.Inv.fresh capacity hcap⟩
  | write r size _ _ ih =>
    obtain ⟨hsz, Q, hinv⟩ := ih
    refine ⟨?_, hinv.write size⟩
    rw [Ring.write_buf, CircularBuffer.Write_Size]
    exact hsz
  | read r _ hne ih =>
    obtain ⟨hsz, Q, hinv⟩ := ih
    obtain ⟨s, rest, _, _, hinv2⟩ := hinv.read_some hne
    refine ⟨?_, rest, hinv2⟩
    rw [Ring.read_of_ne hne]
    show (r.buf.ReadEnd _).Size = capacity
    rw [CircularBuffer.ReadEnd_Size]
    exact hsz

/-! ## FIFO order of the ring -/

theorem readOffsets_append (t1 t2 : List RingEvent) :
    readOffsets (t1 ++ t2) = readOffsets t1 ++ readOffsets t2 := by
  simp [readOffsets, List.filterMap_append]

theorem writeOffsets_append (t1 t2 : List RingEvent) :
    writeOffsets (t1 ++ t2) = writeOffsets t1 ++ writeOffsets t2 := by
  simp [writeOffsets, List.filterMap_append]

theorem Ring.Inv.trace_fifo {capacity : Nat} (ops : List RingOp) :
    ∀ (r : Ring) (Q : List (Nat × Nat)), r.Inv Q → (∀ op ∈ ops, op.InRange capacity) →
      readOffsets (r.trace ops) <+: Q.map Prod.fst ++ writeOffsets (r.trace ops) := by
  induction ops with
  | nil =>
    intro r Q _ _
    exact List.nil_prefix
  | cons op ops ih =>
    intro r Q hinv hops
    have hrest : ∀ op' ∈ ops, op'.InRange capacity := fun op' h =>
      hops op' (List.mem_cons_of_mem _ h)
    cases op with
    | write size =>
      have hin : InRangeWrite capacity size := hops _ (List.mem_cons_self _ _)
      have hpos : 0 < roundUpSize size := roundUpSize_pos size hin.1 hin.2.1
      rcases hp : (r.write size).1 with _ | p
      · have hst : r.step (.write size) = r := Ring.write_none hp
        have hev : r.event (.write size) = none := by simp [Ring.event, hp]
        simp only [Ring.trace, hst, hev, Option.toList, List.nil_append]
        exact ih r Q hinv hrest
      · have hinv2 := hinv.write_pos hpos p hp
        have hev : r.event (.write size) = some (.wrote p) := by simp [Ring.event, hp]
        have := ih (r.step (.write size)) _ hinv2 hrest
        simp only [Ring.trace, hev, Option.toList, readOffsets_append, writeOffsets_append]
        simpa [readOffsets, writeOffsets] using this
    | read =>
      by_cases he : r.buf.Head = r.buf.Tail
      · have hst : r.step .read = r := by simp [Ring.step, Ring.read_of_empty he]
        have hev : r.event .read = none := by simp [Ring.event, Ring.read_of_empty he]
        simp only [Ring.trace, hst, hev, Option.toList, List.nil_append]
        exact ih r Q hinv hrest
      · obtain ⟨s, rest, hQ, h1, hinv2⟩ := hinv.read_some he
        have hev : r.event .read = some (.readAt r.buf.Tail) := by simp [Ring.event, h1]
        have := ih (r.step .read) rest hinv2 hrest
        simp only [Ring.trace, hev, Option.toList, readOffsets_append, writeOffsets_append]
        subst hQ
        simpa [readOffsets, writeOffsets, List.prefix_cons_inj] using this

/-! ## The claims -/

theorem ContractWrite.inRange {capacity size : Nat} (hcap : capacity < SizeTMod)
    (h : ContractWrite capacity size) : InRangeWrite capacity size := by
  obtain ⟨h0, h1⟩ := h
  have hM : AlignMask = 15 := rfl
  have hA : AlignSize = 16 := rfl
  have h64 : SizeTMod = 2 ^ 64 := rfl
  rw [hM, hA] at h1
  rw [h64] at hcap
  have hlt : size + 15 < 2 ^ 64 := by omega
  refine ⟨h0, by rw [hM, h64]; exact hlt, ?_⟩
  rw [roundUpSize_eq, Nat.mod_eq_of_lt hlt]
  exact h1

/-- C1: starting from a fresh `CircularBuffer`, for every sequence of `Write`
calls (each with positive size whose value rounded up to a multiple of 16 is
less than `Size / 2`) interleaved in any way with `ReadBegin`/`ReadEnd` pairs
where `ReadEnd` is given the size of the record `ReadBegin` just returned, the
offsets returned by the non-null `ReadBegin` calls are an initial segment of the
offsets returned by the successful `Write` calls: the k-th non-null `ReadBegin`
returns exactly the offset that the k-th successful `Write` returned. -/
theorem C1_fifo_order (capacity : Nat) (hcap : capacity < SizeTMod) (ops : List RingOp)
    (hops : ∀ op ∈ ops, op.Contract capacity) :
    readOffsets ((Ring.fresh capacity).trace ops)
        <+: writeOffsets ((Ring.fresh capacity).trace ops) ∧
    ∀ (k p : Nat), (readOffsets ((Ring.fresh capacity).trace ops))[k]? = some p →
      (writeOffsets ((Ring.fresh capacity).trace ops))[k]? = some p := by
  have hin : ∀ op ∈ ops, op.InRange capacity := by
    intro op hop
    have h := hops op hop
    cases op with
    | write size => exact ContractWrite.inRange hcap h
    | read => trivial
  have h := Ring.Inv.trace_fifo ops (Ring.fresh capacity) [] (Ring.Inv.fresh capacity hcap) hin
  simp only [List.map_nil, List.nil_append] at h
  refine ⟨h, ?_⟩
  intro k p hk
  obtain ⟨t, ht⟩ := h
  rw [← ht]
  have hlt : k < (readOffsets ((Ring.fresh capacity).trace ops)).length := by
    by_contra hge
    rw [List.getElem?_eq_none (not_lt.mp hge)] at hk
    cases hk
  rw [List.getElem?_append_left hlt]
  exact hk

/-- C1 at a concrete run with a wrapped write: capacity 2048, writes of 1008,
1008, a read, a write of 512 (wrapping to offset 0) and reads. -/
theorem C1_fifo_order_witness :
    readOffsets ((Ring.fresh 2048).trace
        [.write 1008, .write 1008, .read, .write 512, .read, .read, .read])
      <+: writeOffsets ((Ring.fresh 2048).trace
        [.write 1008, .write 1008, .read, .write 512, .read, .read, .read]) ∧
    ∀ (k p : Nat), (readOffsets ((Ring.fresh 2048).trace
        [.write 1008, .write 1008, .read, .write 512, .read, .read, .read]))[k]? = some p →
      (writeOffsets ((Ring.fresh 2048).trace
        [.write 1008, .write 1008, .read, .write 512, .read, .read, .read]))[k]? = some p :=
  C1_fifo_order 2048 (by decide)
    [.write 1008, .write 1008, .read, .write 512, .read, .read, .read] (by decide)

/-- C3: for every buffer state and every size, if `CircularBuffer::Write`
returns null then `Head`, `Tail` and `End` (and `Size`) are exactly what they
were before the call. -/
theorem C3_write_all_or_nothing (b : CircularBuffer) (size : Nat)
    (h : (b.Write size).1 = none) :
    (b.Write size).2.Head = b.Head ∧ (b.Write size).2.Tail = b.Tail ∧
    (b.Write size).2.End = b.End ∧ (b.Write size).2 = b := by
  have e := CircularBuffer.Write_none h
  rw [e]
  exact ⟨rfl, rfl, rfl, rfl⟩

/-- C3 at a full buffer: capacity 2048 with `Head` at the end and `Tail` at 0
rejects a write of 16 bytes and keeps its cursors. -/
theorem C3_write_all_or_nothing_witness :
    (CircularBuffer.Write { Size := 2048, Tail := 0, Head := 2048, End := 0 } 16).1 = none ∧
    (CircularBuffer.Write { Size := 2048, Tail := 0, Head := 2048, End := 0 } 16).2.Head = 2048 ∧
    (CircularBuffer.Write { Size := 2048, Tail := 0, Head := 2048, End := 0 } 16).2.Tail = 0 ∧
    (CircularBuffer.Write { Size := 2048, Tail := 0, Head := 2048, End := 0 } 16).2.End = 0 :=
  have h := C3_write_all_or_nothing { Size := 2048, Tail := 0, Head := 2048, End := 0 } 16
    (by decide)
  ⟨by decide, h.1, h.2.1, h.2.2.1⟩

/-- C7: in every state reachable from a fresh `CircularBuffer` by positive-size
writes within the precondition and size-matched `ReadEnd`s, `Head == Tail`
implies `Head = Tail = 0` and `End = 0`.  Scenario A: with capacity 2048, ten
writes of 64 bytes succeed at offsets 0, 64, ..., 576, ten `ReadBegin`/`ReadEnd(64)`
pairs return those offsets in order, and afterwards `Head = Tail = End = 0`. -/
theorem C7_drained_ring_is_initial :
    (∀ capacity r, capacity < SizeTMod → Ring.Reachable capacity r →
      r.buf.Head = r.buf.Tail → r.buf.Head = 0 ∧ r.buf.Tail = 0 ∧ r.buf.End = 0) ∧
    (Ring.fresh 2048).trace (List.replicate 10 (.write 64) ++ List.replicate 10 .read)
      = [.wrote 0, .wrote 64, .wrote 128, .wrote 192, .wrote 256, .wrote 320, .wrote 384,
         .wrote 448, .wrote 512, .wrote 576, .readAt 0, .readAt 64, .readAt 128, .readAt 192,
         .readAt 256, .readAt 320, .readAt 384, .readAt 448, .readAt 512, .readAt 576] ∧
    ((Ring.fresh 2048).run (List.replicate 10 (.write 64) ++ List.replicate 10 .read)).buf
      = { Size := 2048, Tail := 0, Head := 0, End := 0 } := by
  refine ⟨?_, by decide, by decide⟩
  intro capacity r hcap hr he
  obtain ⟨_, Q, hinv⟩ := hr.inv hcap
  exact (hinv.empty he).2

/-- C7 at a concrete reachable state: capacity 2048 after a write of 64 bytes
and its read. -/
theorem C7_drained_ring_is_initial_witness :
    (((Ring.fresh 2048).write 64).2.read.2).buf.Head = 0 ∧
    (((Ring.fresh 2048).write 64).2.read.2).buf.Tail = 0 ∧
    (((Ring.fresh 2048).write 64).2.read.2).buf.End = 0 :=
  C7_drained_ring_is_initial.1 2048 _ (by decide)
    (Ring.Reachable.read _ (Ring.Reachable.write _ 64 Ring.Reachable.fresh (by decide))
      (by decide))
    (by decide)

/-- C8: with the queue's ring capacity of 2048, the precondition check of
`Write` (rounded size < Size/2) passes, for a requested size whose rounding is
computed without overflow of `size_t` (as for the size of every command),
exactly when the size is at most 1008 bytes; the requested sizes 1023, 1024 and
1025 fail the check. -/
theorem C8_half_capacity_boundary (size : Nat) (h : size + AlignMask < SizeTMod) :
    (ThreadCommandQueueImpl.create.CommandBuffer.WriteSizeAssert size = true ↔ size ≤ 1008) ∧
    ThreadCommandQueueImpl.create.CommandBuffer.WriteSizeAssert 1023 = false ∧
    ThreadCommandQueueImpl.create.CommandBuffer.WriteSizeAssert 1024 = false ∧
    ThreadCommandQueueImpl.create.CommandBuffer.WriteSizeAssert 1025 = false := by
  have key : ThreadCommandQueueImpl.create.CommandBuffer.WriteSizeAssert size = true ↔
      (size + 15) % 2 ^ 64 / 16 * 16 < 1024 := by
    simp only [CircularBuffer.WriteSizeAssert, decide_eq_true_eq, roundUpSize_eq]
    rfl
  have h64 : SizeTMod = 18446744073709551616 := by norm_num [SizeTMod]
  have hM : AlignMask = 15 := rfl
  rw [h64, hM] at h
  refine ⟨?_, by decide, by decide, by decide⟩
  rw [key, Nat.mod_eq_of_lt (by norm_num; exact h)]
  omega

/-- C8 at the largest size that passes, 1008, and the smallest that fails, 1009. -/
theorem C8_half_capacity_boundary_witness :
    (ThreadCommandQueueImpl.create.CommandBuffer.WriteSizeAssert 1008 = true ↔ 1008 ≤ 1008) ∧
    (ThreadCommandQueueImpl.create.CommandBuffer.WriteSizeAssert 1009 = true ↔ 1009 ≤ 1008) :=
  ⟨(C8_half_capacity_boundary 1008 (by decide)).1, (C8_half_capacity_boundary 1009 (by decide)).1⟩

/-- C9: in every reachable non-wrapped state (`Head >= Tail`, `End = 0`), a
`Write` whose rounded size equals `Size - Head` succeeds, returns offset `Head`
and leaves `Head = Size`; the next `Write` of any positive size (one whose
rounding is computed without overflow of `size_t`, as for the size of every
command) then succeeds if and only if its rounded size is strictly less than
`Tail`, and when it succeeds it returns offset 0, sets `End` to `Size` and
`Head` to the rounded size. -/
theorem C9_exact_fill_then_wrap (capacity : Nat) (r : Ring) (size size2 : Nat)
    (hcap : capacity < SizeTMod) (hr : Ring.Reachable capacity r)
    (hHT : r.buf.Head ≥ r.buf.Tail) (hE : r.buf.End = 0)
    (hfill : roundUpSize size = r.buf.Size - r.buf.Head)
    (hpos : 0 < size2) (hrange : size2 + AlignMask < SizeTMod) :
    (r.buf.Write size).1 = some r.buf.Head ∧
    (r.buf.Write size).2 = { r.buf with Head := r.buf.Size } ∧
    (((r.buf.Write size).2.Write size2).1 ≠ none ↔ roundUpSize size2 < r.buf.Tail) ∧
    (((r.buf.Write size).2.Write size2).1 ≠ none →
      ((r.buf.Write size).2.Write size2).1 = some 0 ∧
      ((r.buf.Write size).2.Write size2).2
        = { r.buf with End := r.buf.Size, Head := roundUpSize size2 }) := by
  obtain ⟨hsz, Q, hS, _, hlay⟩ := hr.inv hcap
  have hHS : r.buf.Head ≤ r.buf.Size := by
    rcases hlay with ⟨_, _, h, _⟩ | ⟨h, _⟩
    · exact h
    · exact absurd hE h
  have hsub : sizeSub r.buf.Size r.buf.Head = r.buf.Size - r.buf.Head :=
    sizeSub_of_le _ _ hHS hS
  have hadd : sizeAdd r.buf.Head (roundUpSize size) = r.buf.Size := by
    rw [hfill, sizeAdd_of_lt _ _ (by omega)]
    omega
  have hW : r.buf.Write size = (some r.buf.Head, { r.buf with Head := r.buf.Size }) := by
    rw [CircularBuffer.Write_inplace hHT (by rw [hsub, hfill]), hadd]
  have hpos2 : 0 < roundUpSize size2 := roundUpSize_pos size2 hpos hrange
  have hT : r.buf.Tail ≤ r.buf.Size := le_trans hHT hHS
  have hsub2 : sizeSub r.buf.Size r.buf.Size = 0 := by
    rw [sizeSub_of_le _ _ (le_refl _) hS]
    omega
  have h1 : ¬ roundUpSize size2 ≤
      sizeSub ({ r.buf with Head := r.buf.Size } : CircularBuffer).Size
        ({ r.buf with Head := r.buf.Size } : CircularBuffer).Head := by
    show ¬ roundUpSize size2 ≤ sizeSub r.buf.Size r.buf.Size
    rw [hsub2]
    omega
  rw [hW]
  refine ⟨rfl, rfl, ?_, ?_⟩
  · by_cases h2 : roundUpSize size2 < r.buf.Tail
    · rw [CircularBuffer.Write_wrap (b := { r.buf with Head := r.buf.Size }) hT h1 h2]
      simp [h2]
    · rw [CircularBuffer.Write_full (b := { r.buf with Head := r.buf.Size }) hT h1 h2]
      simp [h2]
  · intro hne
    by_cases h2 : roundUpSize size2 < r.buf.Tail
    · rw [CircularBuffer.Write_wrap (b := { r.buf with Head := r.buf.Size }) hT h1 h2]
      exact ⟨rfl, rfl⟩
    · rw [CircularBuffer.Write_full (b := { r.buf with Head := r.buf.Size }) hT h1 h2] at hne
      exact absurd rfl hne

/-- C9 at a concrete state: capacity 2048 after writes of 1008 and
1008 bytes and one read (`Tail = 1008`, `Head = 2016`); a write of 32 bytes fills
the buffer and a write of 512 bytes then wraps to offset 0. -/
theorem C9_exact_fill_then_wrap_witness :
    (CircularBuffer.Write ((((Ring.fresh 2048).write 1008).2.write 1008).2.read.2).buf 32).1
      = some ((((Ring.fresh 2048).write 1008).2.write 1008).2.read.2).buf.Head ∧
    ((CircularBuffer.Write ((((Ring.fresh 2048).write 1008).2.write 1008).2.read.2).buf 32).2.Write
      512).1 = some 0 ∧
    ((CircularBuffer.Write ((((Ring.fresh 2048).write 1008).2.write 1008).2.read.2).buf 32).2.Write
      512).2 = { Size := 2048, Tail := 1008, Head := 512, End := 2048 } :=
  have h := C9_exact_fill_then_wrap 2048
    ((((Ring.fresh 2048).write 1008).2.write 1008).2.read.2) 32 512 (by decide)
    (Ring.Reachable.read _
      (Ring.Reachable.write _ 1008 (Ring.Reachable.write _ 1008 Ring.Reachable.fresh (by decide))
        (by decide))
      (by decide))
    (by decide) (by decide) (by decide) (by decide) (by decide)
  ⟨h.1, (h.2.2.2 (h.2.2.1.mpr (by decide))).1, by decide⟩

/-- C10: for every reachable state with `Head == Tail` and every size whose
rounded value is less than `Size / 2`, `Write` succeeds (returns a non-null
block, at offset 0); so a pass of `PushCommand` on a queue whose ring is in
such a state, for a command that is not rejected, enqueues the command and
does not put the producer on the blocked-producer list. -/
theorem C10_empty_ring_accepts (capacity : Nat) (r : Ring) (size : Nat)
    (hcap : capacity < SizeTMod) (hr : Ring.Reachable capacity r)
    (he : r.buf.Head = r.buf.Tail) (hs : roundUpSize size < r.buf.Size / 2) :
    (r.buf.Write size).1 ≠ none ∧ (r.buf.Write size).1 = some 0 ∧
    ∀ (q : ThreadCommandQueueImpl) (command : ThreadCommand) (e : Option NotifyEvent),
      q.CommandBuffer = r.buf → command.GetSize = size →
      (q.ExitEnqueued && !command.ExitFlag) = false →
      ∃ completeEvent, (q.PushCommand_Locked command e).1 = .enqueued completeEvent := by
  obtain ⟨_, Q, hinv⟩ := hr.inv hcap
  obtain ⟨_, hH, hT, hE⟩ := hinv.empty he
  have hS := hinv.1
  have h1 : roundUpSize size ≤ sizeSub r.buf.Size r.buf.Head := by
    rw [hH, sizeSub_of_le _ _ (Nat.zero_le _) hS]
    omega
  have hW := @CircularBuffer.Write_inplace r.buf size (by omega) h1
  have hW1 : (r.buf.Write size).1 = some 0 := by rw [hW, hH]
  refine ⟨by rw [hW1]; simp, hW1, ?_⟩
  intro q command e hq hsize hrej
  have hq0 : (q.ReleaseWaitEvent e).CommandBuffer = r.buf := by
    cases e <;> exact hq
  have hrej0 : ((q.ReleaseWaitEvent e).ExitEnqueued && !command.ExitFlag) = false := by
    cases e <;> exact hrej
  simp only [ThreadCommandQueueImpl.PushCommand_Locked, hrej0, Bool.false_eq_true, if_false]
  rw [hq0, hsize, hW]
  exact ⟨_, rfl⟩

/-- C10 at the fresh buffer of capacity 2048 and the largest size within the
precondition. -/
theorem C10_empty_ring_accepts_witness :
    (CircularBuffer.Write (Ring.fresh 2048).buf 1008).1 = some 0 :=
  (C10_empty_ring_accepts 2048 (Ring.fresh 2048) 1008 (by decide) Ring.Reachable.fresh
    (by decide) (by decide)).2.1

/-! ## What the lock scopes leave unchanged -/

theorem ThreadCommandQueueImpl.AllocNotifyEvent_NTS_frame (q : ThreadCommandQueueImpl) :
    q.AllocNotifyEvent_NTS.2.ExitEnqueued = q.ExitEnqueued ∧
    q.AllocNotifyEvent_NTS.2.ExitProcessed = q.ExitProcessed ∧
    q.AllocNotifyEvent_NTS.2.BlockedProducers = q.BlockedProducers ∧
    q.AllocNotifyEvent_NTS.2.CommandBuffer = q.CommandBuffer ∧
    q.AllocNotifyEvent_NTS.2.ringData = q.ringData ∧
    q.AllocNotifyEvent_NTS.2.effects = q.effects := by
  unfold ThreadCommandQueueImpl.AllocNotifyEvent_NTS
  cases q.AvailableEvents <;> exact ⟨rfl, rfl, rfl, rfl, rfl, rfl⟩

theorem ThreadCommandQueueImpl.ReleaseWaitEvent_frame (q : ThreadCommandQueueImpl)
    (e : Option NotifyEvent) :
    (q.ReleaseWaitEvent e).ExitEnqueued = q.ExitEnqueued ∧
    (q.ReleaseWaitEvent e).ExitProcessed = q.ExitProcessed ∧
    (q.ReleaseWaitEvent e).BlockedProducers = q.BlockedProducers ∧
    (q.ReleaseWaitEvent e).CommandBuffer = q.CommandBuffer ∧
    (q.ReleaseWaitEvent e).ringData = q.ringData ∧
    (q.ReleaseWaitEvent e).effects = q.effects ∧
    (q.ReleaseWaitEvent e).AvailableEvents = q.AvailableEvents ++ e.toList ∧
    (q.ReleaseWaitEvent e).eventsCreated = q.eventsCreated := by
  cases e
  · exact ⟨rfl, rfl, rfl, rfl, rfl, rfl, by simp [ThreadCommandQueueImpl.ReleaseWaitEvent], rfl⟩
  · exact ⟨rfl, rfl, rfl, rfl, rfl, rfl, rfl, rfl⟩

theorem ThreadCommandQueueImpl.PushCommand_Locked_rejected (q : ThreadCommandQueueImpl)
    (command : ThreadCommand) (e : Option NotifyEvent)
    (h : (q.ExitEnqueued && !command.ExitFlag) = true) :
    q.PushCommand_Locked command e = (.returnedFalse, q.ReleaseWaitEvent e) := by
  have h0 : ((q.ReleaseWaitEvent e).ExitEnqueued && !command.ExitFlag) = true := by
    rw [(q.ReleaseWaitEvent_frame e).1]
    exact h
  simp only [ThreadCommandQueueImpl.PushCommand_Locked, h0, if_true]

theorem ThreadCommandQueueImpl.PushCommand_Locked_blocked (q : ThreadCommandQueueImpl)
    (command : ThreadCommand) (e : Option NotifyEvent) (cb : CircularBuffer)
    (h : (q.ExitEnqueued && !command.ExitFlag) = false)
    (hW : (q.ReleaseWaitEvent e).CommandBuffer.Write command.GetSize = (none, cb)) :
    q.PushCommand_Locked command e =
      { q.ReleaseWaitEvent e with CommandBuffer := cb }.PushCommand_Block := by
  have h0 : ((q.ReleaseWaitEvent e).ExitEnqueued && !command.ExitFlag) = false := by
    rw [(q.ReleaseWaitEvent_frame e).1]
    exact h
  simp only [ThreadCommandQueueImpl.PushCommand_Locked, h0, Bool.false_eq_true, if_false]
  rw [hW]

theorem ThreadCommandQueueImpl.PushCommand_Locked_enqueued (q : ThreadCommandQueueImpl)
    (command : ThreadCommand) (e : Option NotifyEvent) (buffer : Nat) (cb : CircularBuffer)
    (h : (q.ExitEnqueued && !command.ExitFlag) = false)
    (hW : (q.ReleaseWaitEvent e).CommandBuffer.Write command.GetSize = (some buffer, cb)) :
    q.PushCommand_Locked command e =
      { q.ReleaseWaitEvent e with CommandBuffer := cb }.PushCommand_Enqueue command buffer
        (q.ReleaseWaitEvent e).CommandBuffer.IsEmpty := by
  have h0 : ((q.ReleaseWaitEvent e).ExitEnqueued && !command.ExitFlag) = false := by
    rw [(q.ReleaseWaitEvent_frame e).1]
    exact h
  simp only [ThreadCommandQueueImpl.PushCommand_Locked, h0, Bool.false_eq_true, if_false]
  rw [hW]

theorem ThreadCommandQueueImpl.PushCommand_Block_frame (q : ThreadCommandQueueImpl) :
    q.PushCommand_Block.2.ExitEnqueued = q.ExitEnqueued ∧
    q.PushCommand_Block.2.ExitProcessed = q.ExitProcessed ∧
    q.PushCommand_Block.2.CommandBuffer = q.CommandBuffer ∧
    q.PushCommand_Block.2.ringData = q.ringData ∧
    q.PushCommand_Block.2.effects = q.effects := by
  obtain ⟨a1, a2, _, a4, a5, a6⟩ := q.AllocNotifyEvent_NTS_frame
  exact ⟨a1, a2, a4, a5, a6⟩

theorem ThreadCommandQueueImpl.PushCommand_Enqueue_frame (q : ThreadCommandQueueImpl)
    (command : ThreadCommand) (buffer : Nat) (wasEmpty : Bool) :
    (q.PushCommand_Enqueue command buffer wasEmpty).2.ExitEnqueued = q.ExitEnqueued ∧
    (q.PushCommand_Enqueue command buffer wasEmpty).2.ExitProcessed = q.ExitProcessed ∧
    (q.PushCommand_Enqueue command buffer wasEmpty).2.BlockedProducers = q.BlockedProducers ∧
    (q.PushCommand_Enqueue command buffer wasEmpty).2.CommandBuffer = q.CommandBuffer ∧
    (q.PushCommand_Enqueue command buffer wasEmpty).2.effects =
      q.effects ++ [.CopyConstruct buffer command] ++
        (if wasEmpty then [.OnPushNonEmpty_Locked] else []) ∧
    (∃ c, (q.PushCommand_Enqueue command buffer wasEmpty).2.ringData = (buffer, c) :: q.ringData ∧
      c.Size = command.Size ∧ c.kind = command.kind ∧ c.ExitFlag = command.ExitFlag ∧
      c.WaitFlag = command.WaitFlag) := by
  obtain ⟨a1, a2, a3, a4, a5, a6⟩ := q.AllocNotifyEvent_NTS_frame
  cases hw : command.NeedsWait <;> cases wasEmpty <;>
    simp [ThreadCommandQueueImpl.PushCommand_Enqueue, hw, a1, a2, a3, a4, a5, a6]

theorem ThreadCommandQueueImpl.PushCommand_Locked_frame (q : ThreadCommandQueueImpl)
    (command : ThreadCommand) (e : Option NotifyEvent) :
    (q.PushCommand_Locked command e).2.ExitEnqueued = q.ExitEnqueued ∧
    (q.PushCommand_Locked command e).2.ExitProcessed = q.ExitProcessed ∧
    ∃ ext, (q.PushCommand_Locked command e).2.effects = q.effects ++ ext ∧
      ∀ c, Effect.Execute c ∉ ext := by
  obtain ⟨f1, f2, _, _, _, f6, _, _⟩ := q.ReleaseWaitEvent_frame e
  by_cases hrej : (q.ExitEnqueued && !command.ExitFlag) = true
  · rw [q.PushCommand_Locked_rejected command e hrej]
    exact ⟨f1, f2, [], by simp [f6], by simp⟩
  · have hrej' : (q.ExitEnqueued && !command.ExitFlag) = false := by simpa using hrej
    rcases hW : (q.ReleaseWaitEvent e).CommandBuffer.Write command.GetSize with ⟨_ | p, cb⟩
    · rw [q.PushCommand_Locked_blocked command e cb hrej' hW]
      obtain ⟨b1, b2, _, _, b6⟩ :=
        ThreadCommandQueueImpl.PushCommand_Block_frame
          { q.ReleaseWaitEvent e with CommandBuffer := cb }
      exact ⟨b1.trans f1, b2.trans f2, [], by simpa using b6.trans f6, by simp⟩
    · rw [q.PushCommand_Locked_enqueued command e p cb hrej' hW]
      obtain ⟨b1, b2, _, _, b6, _⟩ :=
        ThreadCommandQueueImpl.PushCommand_Enqueue_frame
          { q.ReleaseWaitEvent e with CommandBuffer := cb } command p
          (q.ReleaseWaitEvent e).CommandBuffer.IsEmpty
      refine ⟨b1.trans f1, b2.trans f2,
        [.CopyConstruct p command] ++
          (if (q.ReleaseWaitEvent e).CommandBuffer.IsEmpty then [.OnPushNonEmpty_Locked] else []),
        ?_, ?_⟩
      · rw [b6, List.append_assoc]
        show (q.ReleaseWaitEvent e).effects ++ _ = _
        rw [f6]
      · intro c hc
        rcases List.mem_append.mp hc with h | h
        · simp at h
        · split_ifs at h <;> simp at h

theorem ThreadCommandQueueImpl.PopCommand_of_some (MaxSize : Nat) (q : ThreadCommandQueueImpl)
    (popBuffer : PopBuffer) (p : Nat) (h : q.CommandBuffer.ReadBegin = some p) :
    (q.PopCommand MaxSize popBuffer).1 = true ∧
    (q.PopCommand MaxSize popBuffer).2.2 = (popBuffer.InitFromBuffer MaxSize (q.commandAt p)).1 ∧
    (q.PopCommand MaxSize popBuffer).2.1.CommandBuffer =
      q.CommandBuffer.ReadEnd (popBuffer.InitFromBuffer MaxSize (q.commandAt p)).1.GetSize ∧
    (q.PopCommand MaxSize popBuffer).2.1.ExitEnqueued = q.ExitEnqueued ∧
    (q.PopCommand MaxSize popBuffer).2.1.ExitProcessed = q.ExitProcessed ∧
    ∃ ext, (q.PopCommand MaxSize popBuffer).2.1.effects = q.effects ++ ext ∧
      ∀ c, Effect.Execute c ∉ ext := by
  unfold ThreadCommandQueueImpl.PopCommand
  rw [h]
  simp only []
  split
  · exact ⟨rfl, rfl, rfl, rfl, rfl, _, rfl, by simp⟩
  · rename_i e rest _
    exact ⟨rfl, rfl, rfl, rfl, rfl,
      (popBuffer.InitFromBuffer MaxSize (q.commandAt p)).2.map Effect.Destruct ++ [.PulseEvent e],
      by simp, by simp⟩

theorem ThreadCommandQueueImpl.PopCommand_of_none (MaxSize : Nat) (q : ThreadCommandQueueImpl)
    (popBuffer : PopBuffer) (h : q.CommandBuffer.ReadBegin = none) :
    q.PopCommand MaxSize popBuffer =
      (false, { q with effects := q.effects ++ [.OnPopEmpty_Locked] }, popBuffer) := by
  unfold ThreadCommandQueueImpl.PopCommand
  rw [h]

theorem ThreadCommandQueueImpl.PopCommand_frame (MaxSize : Nat) (q : ThreadCommandQueueImpl)
    (popBuffer : PopBuffer) :
    (q.PopCommand MaxSize popBuffer).2.1.ExitEnqueued = q.ExitEnqueued ∧
    (q.PopCommand MaxSize popBuffer).2.1.ExitProcessed = q.ExitProcessed ∧
    ∃ ext, (q.PopCommand MaxSize popBuffer).2.1.effects = q.effects ++ ext ∧
      ∀ c, Effect.Execute c ∉ ext := by
  rcases h : q.CommandBuffer.ReadBegin with _ | p
  · rw [q.PopCommand_of_none MaxSize popBuffer h]
    exact ⟨rfl, rfl, _, rfl, by simp⟩
  · exact (q.PopCommand_of_some MaxSize popBuffer p h).2.2.2

theorem ThreadCommandQueueImpl.Execute_frame (q : ThreadCommandQueueImpl) (popBuffer : PopBuffer) :
    (q.Execute popBuffer).ExitEnqueued = q.ExitEnqueued ∧
    ((popBuffer.Buffer = none ∧ q.Execute popBuffer = q) ∨
     (∃ command ext, popBuffer.Buffer = some command ∧
        (q.Execute popBuffer).effects = q.effects ++ [.Execute command] ++ ext ∧
        (∀ c, Effect.Execute c ∉ ext) ∧
        (q.Execute popBuffer).ExitProcessed = (q.ExitProcessed || decide (command.kind = .exit)))) := by
  unfold ThreadCommandQueueImpl.Execute
  cases hb : popBuffer.Buffer with
  | none => exact ⟨rfl, Or.inl ⟨rfl, rfl⟩⟩
  | some command =>
    simp only []
    have key : (q.ExecuteCommand command).ExitEnqueued = q.ExitEnqueued ∧
        (q.ExecuteCommand command).effects = q.effects ++ [.Execute command] ∧
        (q.ExecuteCommand command).ExitProcessed =
          (q.ExitProcessed || decide (command.kind = .exit)) := by
      unfold ThreadCommandQueueImpl.ExecuteCommand
      cases hk : command.kind <;> simp
    obtain ⟨k1, k2, k3⟩ := key
    cases hw : command.NeedsWait
    · simp only [Bool.false_eq_true, if_false]
      exact ⟨k1, Or.inr ⟨command, [], rfl, by simp [k2], by simp, k3⟩⟩
    · simp only [if_true]
      cases he : command.pEvent with
      | none => exact ⟨k1, Or.inr ⟨command, [], rfl, by simp [k2], by simp, k3⟩⟩
      | some e =>
        exact ⟨k1, Or.inr ⟨command, [.PulseEvent e], rfl, by simp [k2], by simp, k3⟩⟩

theorem ExitExecuted_congr (q q2 : ThreadCommandQueueImpl) (ext : List Effect)
    (h : q2.effects = q.effects ++ ext) (hno : ∀ c, Effect.Execute c ∉ ext) :
    ExitExecuted q2 ↔ ExitExecuted q := by
  unfold ExitExecuted
  constructor
  · rintro ⟨c, hc, hk⟩
    rw [h] at hc
    rcases List.mem_append.mp hc with h1 | h1
    · exact ⟨c, h1, hk⟩
    · exact absurd h1 (hno c)
  · rintro ⟨c, hc, hk⟩
    exact ⟨c, by rw [h]; exact List.mem_append_left _ hc, hk⟩

theorem QueueState.Reachable.exit_iff {MaxSize sizeofExitCommand : Nat} {s : QueueState}
    (h : QueueState.Reachable MaxSize sizeofExitCommand s) :
    s.impl.ExitProcessed = true ↔ ExitExecuted s.impl := by
  induction h with
  | create =>
    constructor
    · intro h
      cases h
    · rintro ⟨c, hc, _⟩
      cases hc
  | push s command e _ _ ih =>
    obtain ⟨_, f2, ext, f3, f4⟩ := s.impl.PushCommand_Locked_frame command e
    show (s.impl.PushCommand_Locked command e).2.ExitProcessed = true ↔
      ExitExecuted (s.impl.PushCommand_Locked command e).2
    rw [f2, ExitExecuted_congr _ _ ext f3 f4]
    exact ih
  | pushComplete s e _ ih =>
    show (s.impl.PushCommand_Complete e).ExitProcessed = true ↔
      ExitExecuted (s.impl.PushCommand_Complete e)
    rw [ExitExecuted_congr s.impl _ [] (by simp [ThreadCommandQueueImpl.PushCommand_Complete,
      ThreadCommandQueueImpl.FreeNotifyEvent_NTS]) (by simp)]
    exact ih
  | pushExit s wait _ ih =>
    show (s.impl.PushExitCommand_Locked sizeofExitCommand wait).1.ExitProcessed = true ↔
      ExitExecuted (s.impl.PushExitCommand_Locked sizeofExitCommand wait).1
    have h1 : (s.impl.PushExitCommand_Locked sizeofExitCommand wait).1.ExitProcessed
        = s.impl.ExitProcessed := by
      unfold ThreadCommandQueueImpl.PushExitCommand_Locked
      split_ifs <;> rfl
    have h2 : (s.impl.PushExitCommand_Locked sizeofExitCommand wait).1.effects
        = s.impl.effects ++ [] := by
      unfold ThreadCommandQueueImpl.PushExitCommand_Locked
      split_ifs <;> simp
    rw [h1, ExitExecuted_congr s.impl _ [] h2 (by simp)]
    exact ih
  | pushExitCommand s wait e _ _ ih =>
    obtain ⟨_, f2, ext, f3, f4⟩ :=
      s.impl.PushCommand_Locked_frame (ExitCommand sizeofExitCommand wait) e
    show (s.impl.PushCommand_Locked (ExitCommand sizeofExitCommand wait) e).2.ExitProcessed = true
      ↔ ExitExecuted (s.impl.PushCommand_Locked (ExitCommand sizeofExitCommand wait) e).2
    rw [f2, ExitExecuted_congr _ _ ext f3 f4]
    exact ih
  | pop s _ ih =>
    obtain ⟨_, f2, ext, f3, f4⟩ := s.impl.PopCommand_frame MaxSize s.popBuffer
    show (s.impl.PopCommand MaxSize s.popBuffer).2.1.ExitProcessed = true ↔
      ExitExecuted (s.impl.PopCommand MaxSize s.popBuffer).2.1
    rw [f2, ExitExecuted_congr _ _ ext f3 f4]
    exact ih
  | execute s _ ih =>
    show (s.impl.Execute s.popBuffer).ExitProcessed = true ↔
      ExitExecuted (s.impl.Execute s.popBuffer)
    rcases (s.impl.Execute_frame s.popBuffer).2 with ⟨_, h⟩ | ⟨command, ext, _, h2, h3, h4⟩
    · rw [h]
      exact ih
    · rw [h4]
      unfold ExitExecuted
      rw [h2]
      constructor
      · intro hp
        rcases Bool.or_eq_true_iff.mp hp with h5 | h5
        · obtain ⟨c, hc, hk⟩ := ih.mp h5
          exact ⟨c, by simp [hc], hk⟩
        · exact ⟨command, by simp, by simpa using h5⟩
      · rintro ⟨c, hc, hk⟩
        rcases List.mem_append.mp hc with h5 | h5
        · rcases List.mem_append.mp h5 with h6 | h6
          · rw [Bool.or_eq_true_iff]
            exact Or.inl (ih.mpr ⟨c, h6, hk⟩)
          · simp only [List.mem_singleton, Effect.Execute.injEq] at h6
            subst h6
            simp [hk]
        · exact absurd h5 (h3 c)

/-! ## The claims about the queue -/

/-- C2: for every queue state in which `ExitEnqueued` is true and every command
whose `ExitFlag` is false, each pass of `PushCommand` through its lock scope
(the first one, `queueAvailableEvent = 0`, or a retry after the producer was
woken) returns false, leaves the ring as it was (`Head`, `Tail`, `End` and the
stored commands), adds nothing to the blocked-producer list and calls no hook. -/
theorem C2_rejected_after_exit (q : ThreadCommandQueueImpl) (command : ThreadCommand)
    (queueAvailableEvent : Option NotifyEvent)
    (hexit : q.ExitEnqueued = true) (hflag : command.ExitFlag = false) :
    (q.PushCommand_Locked command queueAvailableEvent).1 = .returnedFalse ∧
    (q.PushCommand_Locked command queueAvailableEvent).2.CommandBuffer = q.CommandBuffer ∧
    (q.PushCommand_Locked command queueAvailableEvent).2.ringData = q.ringData ∧
    (q.PushCommand_Locked command queueAvailableEvent).2.BlockedProducers = q.BlockedProducers ∧
    (q.PushCommand_Locked command queueAvailableEvent).2.effects = q.effects ∧
    Effect.OnPushNonEmpty_Locked ∉
      ((q.PushCommand_Locked command queueAvailableEvent).2.effects.drop q.effects.length) := by
  have hrej : (q.ExitEnqueued && !command.ExitFlag) = true := by simp [hexit, hflag]
  rw [q.PushCommand_Locked_rejected command queueAvailableEvent hrej]
  obtain ⟨_, _, f3, f4, f5, f6, _, _⟩ := q.ReleaseWaitEvent_frame queueAvailableEvent
  refine ⟨rfl, f4, f5, f3, f6, ?_⟩
  show Effect.OnPushNonEmpty_Locked ∉ (q.ReleaseWaitEvent queueAvailableEvent).effects.drop _
  rw [f6]
  simp

/-- C2 at a retry (the producer waited on event 0) on an empty queue after an
exit request, for a user command of 64 bytes. -/
theorem C2_rejected_after_exit_witness :
    (ThreadCommandQueueImpl.PushCommand_Locked
      { ThreadCommandQueueImpl.create with ExitEnqueued := true }
      { Size := 64, WaitFlag := true, ExitFlag := false, pEvent := none, kind := .user 1 }
      (some 0)).1 = .returnedFalse :=
  (C2_rejected_after_exit { ThreadCommandQueueImpl.create with ExitEnqueued := true }
    { Size := 64, WaitFlag := true, ExitFlag := false, pEvent := none, kind := .user 1 }
    (some 0) rfl rfl).1

/-- C4, as stated, fails for a `PopBuffer` capacity of 256 bytes: a command of
512 bytes (rounded size 512, below 1024) is accepted into the fresh ring, for
which `Write` reserves 512 bytes (`Head = 512`); the `PopCommand` that returns
it passes `GetSize() = 256` to `ReadEnd`, which advances the read cursor by 256
only (`Tail = 256`, `Head = 512`). -/
theorem C4_pop_size_counterexample :
    roundUpSize 512 < 2048 / 2 ∧
    (ThreadCommandQueueImpl.create.PushCommand_Locked
      { Size := 512, WaitFlag := false, ExitFlag := false, pEvent := none, kind := .user 1 }
      none).1 = .enqueued none ∧
    (ThreadCommandQueueImpl.create.PushCommand_Locked
      { Size := 512, WaitFlag := false, ExitFlag := false, pEvent := none, kind := .user 1 }
      none).2.CommandBuffer = { Size := 2048, Tail := 0, Head := 512, End := 0 } ∧
    (ThreadCommandQueueImpl.PopCommand 256
      (ThreadCommandQueueImpl.create.PushCommand_Locked
        { Size := 512, WaitFlag := false, ExitFlag := false, pEvent := none, kind := .user 1 }
        none).2 PopBuffer.create).1 = true ∧
    (ThreadCommandQueueImpl.PopCommand 256
      (ThreadCommandQueueImpl.create.PushCommand_Locked
        { Size := 512, WaitFlag := false, ExitFlag := false, pEvent := none, kind := .user 1 }
        none).2 PopBuffer.create).2.2.GetSize = 256 ∧
    (ThreadCommandQueueImpl.PopCommand 256
      (ThreadCommandQueueImpl.create.PushCommand_Locked
        { Size := 512, WaitFlag := false, ExitFlag := false, pEvent := none, kind := .user 1 }
        none).2 PopBuffer.create).2.1.CommandBuffer
      = { Size := 2048, Tail := 256, Head := 512, End := 0 } := by
  decide

/-- C4, amended: for every command that `PushCommand` accepted into the ring and
whose size does not exceed the capacity `MaxSize` of the `PopBuffer`, the
`PopCommand` that returns it passes to `ReadEnd` exactly the size that was
passed to `Write` (`PopBuffer::GetSize` after `InitFromBuffer` equals the
command's size), so it releases the rounded size that `Write` reserved.
First part: an accepting pass of `PushCommand` calls `Write` with the command's
size and stores at the returned offset a copy with that size.  Second part: a
`PopCommand` that finds such a copy next in the ring. -/
theorem C4_pop_releases_what_push_allocated (MaxSize : Nat) (command : ThreadCommand)
    (hfit : command.GetSize ≤ MaxSize) :
    (∀ (q : ThreadCommandQueueImpl) (e completeEvent : Option NotifyEvent),
      (q.PushCommand_Locked command e).1 = .enqueued completeEvent →
      ∃ p, (q.CommandBuffer.Write command.GetSize).1 = some p ∧
        (q.PushCommand_Locked command e).2.CommandBuffer
          = (q.CommandBuffer.Write command.GetSize).2 ∧
        ((q.PushCommand_Locked command e).2.commandAt p).GetSize = command.GetSize) ∧
    (∀ (q : ThreadCommandQueueImpl) (popBuffer : PopBuffer) (p : Nat),
      q.CommandBuffer.ReadBegin = some p → (q.commandAt p).GetSize = command.GetSize →
      (q.PopCommand MaxSize popBuffer).1 = true ∧
      (q.PopCommand MaxSize popBuffer).2.2.GetSize = command.GetSize ∧
      (q.PopCommand MaxSize popBuffer).2.1.CommandBuffer
        = q.CommandBuffer.ReadEnd command.GetSize) := by
  constructor
  · intro q e completeEvent hres
    obtain ⟨_, _, _, f4, _⟩ := q.ReleaseWaitEvent_frame e
    by_cases hrej : (q.ExitEnqueued && !command.ExitFlag) = true
    · rw [q.PushCommand_Locked_rejected command e hrej] at hres
      cases hres
    · have hrej' : (q.ExitEnqueued && !command.ExitFlag) = false := by simpa using hrej
      rcases hW : (q.ReleaseWaitEvent e).CommandBuffer.Write command.GetSize with ⟨_ | p, cb⟩
      · rw [q.PushCommand_Locked_blocked command e cb hrej' hW] at hres
        cases hres
      · rw [q.PushCommand_Locked_enqueued command e p cb hrej' hW]
        obtain ⟨_, _, _, b4, _, c, b6, b7, _⟩ :=
          ThreadCommandQueueImpl.PushCommand_Enqueue_frame
            { q.ReleaseWaitEvent e with CommandBuffer := cb } command p
            (q.ReleaseWaitEvent e).CommandBuffer.IsEmpty
        rw [f4] at hW
        refine ⟨p, by rw [hW], by rw [b4, hW], ?_⟩
        unfold ThreadCommandQueueImpl.commandAt
        rw [b6]
        simp [List.lookup, ThreadCommand.GetSize, b7]
  · intro q popBuffer p hbegin hsize
    obtain ⟨h1, h2, h3, _⟩ := q.PopCommand_of_some MaxSize popBuffer p hbegin
    have hk : (popBuffer.InitFromBuffer MaxSize (q.commandAt p)).1.GetSize = command.GetSize := by
      have hle : ¬ (q.commandAt p).Size > MaxSize := by
        have : (q.commandAt p).Size = command.GetSize := hsize
        omega
      simp only [PopBuffer.InitFromBuffer, PopBuffer.GetSize, if_neg hle]
      exact hsize
    refine ⟨h1, ?_, ?_⟩
    · rw [h2, hk]
    · rw [h3, hk]

/-- C4, amended, at a fresh queue: a user command of 64 bytes is pushed and
popped with a `PopBuffer` of capacity 256; `ReadEnd` gets 64 and the ring is
empty again. -/
theorem C4_pop_releases_what_push_allocated_witness :
    (ThreadCommandQueueImpl.PopCommand 256
      (ThreadCommandQueueImpl.create.PushCommand_Locked
        { Size := 64, WaitFlag := false, ExitFlag := false, pEvent := none, kind := .user 1 }
        none).2 PopBuffer.create).2.2.GetSize = 64 ∧
    (ThreadCommandQueueImpl.PopCommand 256
      (ThreadCommandQueueImpl.create.PushCommand_Locked
        { Size := 64, WaitFlag := false, ExitFlag := false, pEvent := none, kind := .user 1 }
        none).2 PopBuffer.create).2.1.CommandBuffer
      = { Size := 2048, Tail := 0, Head := 0, End := 0 } :=
  have h := (C4_pop_releases_what_push_allocated 256
    { Size := 64, WaitFlag := false, ExitFlag := false, pEvent := none, kind := .user 1 }
    (by decide)).2
    (ThreadCommandQueueImpl.create.PushCommand_Locked
      { Size := 64, WaitFlag := false, ExitFlag := false, pEvent := none, kind := .user 1 }
      none).2 PopBuffer.create 0 (by decide) (by decide)
  ⟨h.2.1, h.2.2.trans (by decide)⟩

/-- C6: in every reachable queue state `IsExiting()` is true if and only if the
consumer has executed the exit command.  Requesting exit, pushing (also the
exit command itself), returning a completion event and popping leave
`IsExiting()` as it is, so it is still false while the exit command sits
unexecuted in the ring; `PopBuffer::Execute` on the exit command makes it true,
and `Execute` never makes it false again.  Scenario C on a fresh queue, for
either `wait`: after the exit request and the push of the exit command
`ExitEnqueued` is true, the exit command is next in the ring and `IsExiting()`
is false; it is still false after `PopCommand` and true after `Execute`. -/
theorem C6_two_phase_exit (MaxSize sizeofExitCommand : Nat) :
    (∀ s, QueueState.Reachable MaxSize sizeofExitCommand s →
      (s.impl.IsExiting = true ↔ ExitExecuted s.impl)) ∧
    (∀ (q : ThreadCommandQueueImpl) (wait : Bool),
      (q.PushExitCommand_Locked sizeofExitCommand wait).1.IsExiting = q.IsExiting) ∧
    (∀ (q : ThreadCommandQueueImpl) (command : ThreadCommand) (e : Option NotifyEvent),
      (q.PushCommand_Locked command e).2.IsExiting = q.IsExiting) ∧
    (∀ (q : ThreadCommandQueueImpl) (e : NotifyEvent),
      (q.PushCommand_Complete e).IsExiting = q.IsExiting) ∧
    (∀ (q : ThreadCommandQueueImpl) (popBuffer : PopBuffer),
      (q.PopCommand MaxSize popBuffer).2.1.IsExiting = q.IsExiting) ∧
    (∀ (q : ThreadCommandQueueImpl) (popBuffer : PopBuffer) (c : ThreadCommand),
      popBuffer.Buffer = some c → c.kind = .exit → (q.Execute popBuffer).IsExiting = true) ∧
    (∀ (q : ThreadCommandQueueImpl) (popBuffer : PopBuffer),
      q.IsExiting = true → (q.Execute popBuffer).IsExiting = true) ∧
    (∀ wait : Bool,
      ((ThreadCommandQueueImpl.create.PushExitCommand_Locked 32 wait).1.PushCommand_Locked
        (ExitCommand 32 wait) none).2.ExitEnqueued = true ∧
      ((ThreadCommandQueueImpl.create.PushExitCommand_Locked 32 wait).1.PushCommand_Locked
        (ExitCommand 32 wait) none).2.CommandBuffer.ReadBegin = some 0 ∧
      (((ThreadCommandQueueImpl.create.PushExitCommand_Locked 32 wait).1.PushCommand_Locked
        (ExitCommand 32 wait) none).2.commandAt 0).kind = .exit ∧
      ((ThreadCommandQueueImpl.create.PushExitCommand_Locked 32 wait).1.PushCommand_Locked
        (ExitCommand 32 wait) none).2.IsExiting = false ∧
      (ThreadCommandQueueImpl.PopCommand 256
        ((ThreadCommandQueueImpl.create.PushExitCommand_Locked 32 wait).1.PushCommand_Locked
          (ExitCommand 32 wait) none).2 PopBuffer.create).2.1.IsExiting = false ∧
      (ThreadCommandQueueImpl.Execute
        (ThreadCommandQueueImpl.PopCommand 256
          ((ThreadCommandQueueImpl.create.PushExitCommand_Locked 32 wait).1.PushCommand_Locked
            (ExitCommand 32 wait) none).2 PopBuffer.create).2.1
        (ThreadCommandQueueImpl.PopCommand 256
          ((ThreadCommandQueueImpl.create.PushExitCommand_Locked 32 wait).1.PushCommand_Locked
            (ExitCommand 32 wait) none).2 PopBuffer.create).2.2).IsExiting = true) := by
  refine ⟨fun s hs => hs.exit_iff, ?_, ?_, ?_, ?_, ?_, ?_, ?_⟩
  · intro q wait
    unfold ThreadCommandQueueImpl.PushExitCommand_Locked ThreadCommandQueueImpl.IsExiting
    split_ifs <;> rfl
  · intro q command e
    exact (q.PushCommand_Locked_frame command e).2.1
  · intro q e
    rfl
  · intro q popBuffer
    exact (q.PopCommand_frame MaxSize popBuffer).2.1
  · intro q popBuffer c hb hk
    rcases (q.Execute_frame popBuffer).2 with ⟨h, _⟩ | ⟨command, _, h2, _, _, h4⟩
    · rw [hb] at h
      cases h
    · rw [hb] at h2
      cases h2
      show (q.Execute popBuffer).ExitProcessed = true
      rw [h4]
      simp [hk]
  · intro q popBuffer hq
    rcases (q.Execute_frame popBuffer).2 with ⟨_, h⟩ | ⟨command, _, _, _, _, h4⟩
    · rw [h]
      exact hq
    · show (q.Execute popBuffer).ExitProcessed = true
      rw [h4]
      have : q.ExitProcessed = true := hq
      simp [this]
  · intro wait
    cases wait <;> decide

/-- C6 at the state a fresh queue reaches by `PushExitCommand(false)`, `PopCommand`
and `PopBuffer::Execute`: the exit command has been executed. -/
theorem C6_two_phase_exit_witness :
    ExitExecuted
      (ThreadCommandQueueImpl.Execute
        (ThreadCommandQueueImpl.PopCommand 256
          ((ThreadCommandQueueImpl.create.PushExitCommand_Locked 32 false).1.PushCommand_Locked
            (ExitCommand 32 false) none).2 PopBuffer.create).2.1
        (ThreadCommandQueueImpl.PopCommand 256
          ((ThreadCommandQueueImpl.create.PushExitCommand_Locked 32 false).1.PushCommand_Locked
            (ExitCommand 32 false) none).2 PopBuffer.create).2.2) :=
  ((C6_two_phase_exit 256 32).1 _
    (QueueState.Reachable.execute _
      (QueueState.Reachable.pop _
        (QueueState.Reachable.pushExitCommand _ false none
          (QueueState.Reachable.pushExit _ false QueueState.Reachable.create) (by decide))))).mp
    (by decide)

theorem roundUpSize_dvd (size : Nat) : 16 ∣ roundUpSize size := by
  rw [roundUpSize_eq]
  exact Dvd.intro_left _ rfl

theorem sizeAdd_dvd (a b : Nat) (ha : 16 ∣ a) (hb : 16 ∣ b) : 16 ∣ sizeAdd a b := by
  unfold sizeAdd SizeTMod
  norm_num
  omega

/-- C20: for every size for which `size + 15` does not wrap around `size_t`,
`roundUpSize size = (size + 15) & ~15` is the least multiple of 16 that is
greater than or equal to `size`; hence it leaves multiples of 16 unchanged, is
idempotent and monotone; and `Write(size)` and `ReadEnd(size)` move their
cursors by the same amount `roundUpSize size`: a successful `Write` leaves
`Head` at the returned offset plus that amount, and `ReadEnd` moves `Tail`
forward by that amount (and then to 0 when it has reached `End` or `Head`). -/
theorem C20_roundUpSize_ceiling (size : Nat) (h : size + AlignMask < SizeTMod) :
    (AlignSize ∣ roundUpSize size ∧ size ≤ roundUpSize size ∧
      ∀ m, AlignSize ∣ m → size ≤ m → roundUpSize size ≤ m) ∧
    (AlignSize ∣ size → roundUpSize size = size) ∧
    roundUpSize (roundUpSize size) = roundUpSize size ∧
    (∀ size2, size ≤ size2 → size2 + AlignMask < SizeTMod →
      roundUpSize size ≤ roundUpSize size2) ∧
    (∀ (b : CircularBuffer) (p : Nat), (b.Write size).1 = some p →
      (b.Write size).2.Head = sizeAdd p (roundUpSize size)) ∧
    (∀ b : CircularBuffer,
      (b.ReadEnd size).Tail =
        if sizeAdd b.Tail (roundUpSize size) = b.End ∨ sizeAdd b.Tail (roundUpSize size) = b.Head
        then 0 else sizeAdd b.Tail (roundUpSize size)) := by
  have h64 : SizeTMod = 18446744073709551616 := by norm_num [SizeTMod]
  have hM : AlignMask = 15 := rfl
  have hA : AlignSize = 16 := rfl
  rw [h64, hM] at h
  have hr : roundUpSize size = (size + 15) / 16 * 16 := roundUpSize_of_lt size (by norm_num; exact h)
  have hlt := roundUpSize_lt size
  have hdvd := roundUpSize_dvd size
  refine ⟨⟨hA ▸ hdvd, by omega, ?_⟩, ?_, ?_, ?_, ?_, ?_⟩
  · intro m hm hle
    rw [hA] at hm
    omega
  · intro hs
    rw [hA] at hs
    omega
  · rw [roundUpSize_of_lt (roundUpSize size) (by norm_num at hlt ⊢; omega)]
    omega
  · intro size2 hle h2
    rw [h64, hM] at h2
    rw [hr, roundUpSize_of_lt size2 (by norm_num; exact h2)]
    omega
  · intro b p hp
    by_cases hTH : b.Tail ≤ b.Head
    · by_cases h1 : roundUpSize size ≤ sizeSub b.Size b.Head
      · rw [CircularBuffer.Write_inplace hTH h1] at hp ⊢
        cases hp
        rfl
      · by_cases h2 : roundUpSize size < b.Tail
        · rw [CircularBuffer.Write_wrap hTH h1 h2] at hp ⊢
          cases hp
          show roundUpSize size = sizeAdd 0 (roundUpSize size)
          rw [sizeAdd_of_lt _ _ (by omega)]
          omega
        · rw [CircularBuffer.Write_full hTH h1 h2] at hp
          cases hp
    · by_cases h1 : sizeSub b.Tail b.Head > roundUpSize size
      · rw [CircularBuffer.Write_wrapped (not_le.mp hTH) h1] at hp ⊢
        cases hp
        rfl
      · rw [CircularBuffer.Write_wrapped_full (not_le.mp hTH) h1] at hp
        cases hp
  · intro b
    simp only [CircularBuffer.ReadEnd]
    split_ifs with h1 h2 h3 h4 <;> first | rfl | (exfalso; tauto)

/-- C20 at size 100: it rounds to 112. -/
theorem C20_roundUpSize_ceiling_witness :
    roundUpSize 100 = 112 ∧ roundUpSize (roundUpSize 100) = roundUpSize 100 :=
  ⟨by decide, (C20_roundUpSize_ceiling 100 (by decide)).2.2.1⟩

theorem CircularBuffer.Write_some_cases {b : CircularBuffer} {size p : Nat}
    (h : (b.Write size).1 = some p) :
    (b.Tail ≤ b.Head ∧ roundUpSize size ≤ sizeSub b.Size b.Head ∧ p = b.Head ∧
      (b.Write size).2 = { b with Head := sizeAdd b.Head (roundUpSize size) }) ∨
    (b.Tail ≤ b.Head ∧ ¬ roundUpSize size ≤ sizeSub b.Size b.Head ∧ roundUpSize size < b.Tail ∧
      p = 0 ∧ (b.Write size).2 = { b with End := b.Head, Head := roundUpSize size }) ∨
    (b.Head < b.Tail ∧ sizeSub b.Tail b.Head > roundUpSize size ∧ p = b.Head ∧
      (b.Write size).2 = { b with Head := sizeAdd b.Head (roundUpSize size) }) := by
  by_cases hTH : b.Tail ≤ b.Head
  · by_cases h1 : roundUpSize size ≤ sizeSub b.Size b.Head
    · rw [CircularBuffer.Write_inplace hTH h1] at h ⊢
      cases h
      exact Or.inl ⟨hTH, h1, rfl, rfl⟩
    · by_cases h2 : roundUpSize size < b.Tail
      · rw [CircularBuffer.Write_wrap hTH h1 h2] at h ⊢
        cases h
        exact Or.inr (Or.inl ⟨hTH, h1, h2, rfl, rfl⟩)
      · rw [CircularBuffer.Write_full hTH h1 h2] at h
        cases h
  · by_cases h1 : sizeSub b.Tail b.Head > roundUpSize size
    · rw [CircularBuffer.Write_wrapped (not_le.mp hTH) h1] at h ⊢
      cases h
      exact Or.inr (Or.inr ⟨not_le.mp hTH, h1, rfl, rfl⟩)
    · rw [CircularBuffer.Write_wrapped_full (not_le.mp hTH) h1] at h
      cases h

/-- C15: in every state reachable from a fresh `CircularBuffer` by positive-size
writes within the precondition and size-matched `ReadEnd`s, `End != 0` holds if
and only if `Head < Tail`, and `Tail <= End <= Size` whenever `End != 0`;
consequently the internal assertions of `Write` hold for a write of any size,
and those of `ReadEnd` hold for the size-matched `ReadEnd` of a non-empty ring. -/
theorem C15_wrap_state_invariant (capacity : Nat) (r : Ring) (hcap : capacity < SizeTMod)
    (hr : Ring.Reachable capacity r) :
    (r.buf.End ≠ 0 ↔ r.buf.Head < r.buf.Tail) ∧
    (r.buf.End ≠ 0 → r.buf.Tail ≤ r.buf.End ∧ r.buf.End ≤ r.buf.Size) ∧
    (∀ size, r.buf.WriteAsserts size = true) ∧
    (r.buf.Head ≠ r.buf.Tail → r.buf.ReadEndAsserts (r.sizeAt r.buf.Tail) = true) := by
  obtain ⟨_, Q, hinv⟩ := hr.inv hcap
  obtain ⟨hS, hmem, hlay⟩ := hinv
  rcases hlay with ⟨hE, hTH, hHS, hch, hemp⟩ | ⟨hE, hHT, hTE, hES, hH0, Q1, Q2, hQ, hc1, hc2⟩
  · refine ⟨by constructor <;> intro h <;> omega, fun h => absurd hE h, ?_, ?_⟩
    · intro size
      have hb : (r.buf.End == 0) = true := by simpa using hE
      simp only [CircularBuffer.WriteAsserts, ge_iff_le, hTH, if_true, hb, Bool.true_and]
      split_ifs with h1 h2
      · rfl
      · simp only [bne_iff_ne, ne_eq]
        omega
      · rfl
    · intro hne
      obtain ⟨s, rest, hQ, hpos, hrest⟩ := hch.uncons (fun h => hne h.symm)
      have hs : r.sizeAt r.buf.Tail = s := hmem _ _ (by rw [hQ]; exact List.mem_cons_self _ _)
      have hb : (r.buf.Head != r.buf.Tail) = true := by simpa using hne
      simp only [CircularBuffer.ReadEndAsserts, hs, hb, Bool.true_and]
      split_ifs
      · rfl
      · simp [hE]
      · rfl
  · refine ⟨by constructor <;> intro h <;> omega, fun _ => ⟨le_of_lt hTE, hES⟩, ?_, ?_⟩
    · intro size
      have hsub : sizeSub r.buf.Tail r.buf.Head = r.buf.Tail - r.buf.Head :=
        sizeSub_of_le _ _ (le_of_lt hHT) (by omega)
      have hb : (r.buf.End != 0) = true := by simpa using hE
      simp only [CircularBuffer.WriteAsserts, ge_iff_le, not_le.mpr hHT, if_false, hsub, hb,
        Bool.true_and]
      split_ifs with h1
      · rw [sizeAdd_of_lt _ _ (by omega)]
        simp only [bne_iff_ne, ne_eq]
        omega
      · rfl
    · intro hne
      obtain ⟨s, rest1, hQ1, hpos, hrest⟩ := hc1.uncons (by omega)
      have hs : r.sizeAt r.buf.Tail = s :=
        hmem _ _ (by rw [hQ, hQ1]; exact List.mem_cons_self _ _)
      have hle := hrest.le
      have hadd : sizeAdd r.buf.Tail (roundUpSize s) = r.buf.Tail + roundUpSize s :=
        sizeAdd_of_lt _ _ (by omega)
      have hb : (r.buf.Head != r.buf.Tail) = true := by simpa using hne
      simp only [CircularBuffer.ReadEndAsserts, hs, hadd, hb, Bool.true_and]
      split_ifs with h1 h2
      · rfl
      · omega
      · rfl

/-- C15 at a wrapped state: capacity 2048 after writes of 1008 and 1008 bytes,
a read and a write of 512 bytes (`Head = 512`, `Tail = 1008`, `End = 2016`). -/
theorem C15_wrap_state_invariant_witness :
    wrappedRingExample.buf = { Size := 2048, Tail := 1008, Head := 512, End := 2016 } ∧
    (wrappedRingExample.buf.End ≠ 0 ↔
      wrappedRingExample.buf.Head < wrappedRingExample.buf.Tail) ∧
    wrappedRingExample.buf.WriteAsserts 64 = true :=
  have h := C15_wrap_state_invariant 2048 wrappedRingExample (by decide)
    (Ring.Reachable.write _ 512
      (Ring.Reachable.read _
        (Ring.Reachable.write _ 1008
          (Ring.Reachable.write _ 1008 Ring.Reachable.fresh (by decide)) (by decide))
        (by decide))
      (by decide))
  ⟨by decide, h.1, h.2.2.1 64⟩

theorem CircularBuffer.Write_aligned (b : CircularBuffer) (size : Nat)
    (h : 16 ∣ b.Head ∧ 16 ∣ b.Tail ∧ 16 ∣ b.End) :
    16 ∣ (b.Write size).2.Head ∧ 16 ∣ (b.Write size).2.Tail ∧ 16 ∣ (b.Write size).2.End := by
  obtain ⟨h1, h2, h3⟩ := h
  have hr := roundUpSize_dvd size
  have ha := sizeAdd_dvd b.Head (roundUpSize size) h1 hr
  simp only [CircularBuffer.Write]
  split_ifs <;> exact ⟨by assumption, by assumption, by assumption⟩

theorem CircularBuffer.ReadEnd_aligned (b : CircularBuffer) (size : Nat)
    (h : 16 ∣ b.Head ∧ 16 ∣ b.Tail ∧ 16 ∣ b.End) :
    16 ∣ (b.ReadEnd size).Head ∧ 16 ∣ (b.ReadEnd size).Tail ∧ 16 ∣ (b.ReadEnd size).End := by
  obtain ⟨h1, h2, h3⟩ := h
  have hr := roundUpSize_dvd size
  have ha := sizeAdd_dvd b.Tail (roundUpSize size) h2 hr
  have h0 : 16 ∣ 0 := Nat.dvd_zero 16
  simp only [CircularBuffer.ReadEnd]
  split_ifs <;> exact ⟨by assumption, by assumption, by assumption⟩

theorem Ring.Inv.rest_offsets {r : Ring} {s : Nat} {rest : List (Nat × Nat)}
    (hinv : r.Inv ((r.buf.Tail, s) :: rest)) :
    ∀ x ∈ rest, x.1 ≠ r.buf.Tail := by
  obtain ⟨_, _, hlay⟩ := hinv
  intro x hx
  rcases hlay with ⟨_, _, _, hch, _⟩ | ⟨_, hHT, hTE, _, _, Q1, Q2, hQ, hc1, hc2⟩
  · obtain ⟨_, hpos, hrest⟩ := hch
    have := hrest.bounds x.1 x.2 hx
    omega
  · obtain ⟨s1, rest1, hQ1, hpos, hrest⟩ := hc1.uncons (by omega)
    rw [hQ1] at hQ
    simp only [List.cons_append, List.cons.injEq] at hQ
    obtain ⟨_, hQr⟩ := hQ
    rw [hQr] at hx
    rcases List.mem_append.mp hx with h | h
    · have := hrest.bounds x.1 x.2 h
      omega
    · have := hc2.bounds x.1 x.2 h
      omega

theorem Ring.ReachableLive.live_inv {capacity : Nat} (hcap : capacity < SizeTMod) {r : Ring}
    {live : List (Nat × Nat)} (h : Ring.ReachableLive capacity r live) :
    r.Inv (live.filter fun x => decide (0 < roundUpSize x.2)) ∧
    (16 ∣ r.buf.Head ∧ 16 ∣ r.buf.Tail ∧ 16 ∣ r.buf.End) := by
  induction h with
  | fresh =>
    exact ⟨Ring.Inv.fresh capacity hcap, Nat.dvd_zero 16, Nat.dvd_zero 16, Nat.dvd_zero 16⟩
  | write r live size _ _ ih =>
    obtain ⟨hinv, hal⟩ := ih
    refine ⟨?_, ?_⟩
    · rcases Nat.eq_zero_or_pos (roundUpSize size) with hz | hpos
      · obtain ⟨hw, hinv2⟩ := hinv.write_zero hz
        have h1 : (r.write size).1 = some r.buf.Head := by rw [hw]
        rw [h1]
        simp only [liveAfterWrite, List.filter_append, List.filter_cons, List.filter_nil, hz,
          lt_self_iff_false, decide_False, Bool.false_eq_true, if_false, List.append_nil]
        exact hinv2
      · rcases hp : (r.write size).1 with _ | p
        · rw [Ring.write_none hp]
          exact hinv
        · have := hinv.write_pos hpos p hp
          simp only [liveAfterWrite, List.filter_append, List.filter_cons, List.filter_nil, hpos,
            decide_True, if_true]
          exact this
    · rw [Ring.write_buf]
      exact CircularBuffer.Write_aligned r.buf size hal
  | read r live _ hne ih =>
    obtain ⟨hinv, hal⟩ := ih
    refine ⟨?_, ?_⟩
    · obtain ⟨s, rest, hQ, _, hinv2⟩ := hinv.read_some hne
      have hoff := Ring.Inv.rest_offsets (hQ ▸ hinv)
      have : (liveAfterRead live r.buf.Tail).filter (fun x => decide (0 < roundUpSize x.2))
          = rest := by
        unfold liveAfterRead
        rw [List.filter_filter]
        have hc : (fun a : Nat × Nat => decide (0 < roundUpSize a.2) && (a.1 != r.buf.Tail))
            = (fun a => (a.1 != r.buf.Tail) && decide (0 < roundUpSize a.2)) := by
          funext a
          exact Bool.and_comm _ _
        rw [hc, ← List.filter_filter, hQ]
        simp only [List.filter_cons, bne_self_eq_false, Bool.false_eq_true, if_false]
        rw [List.filter_eq_self]
        intro x hx
        simpa using hoff x hx
      rw [this]
      exact hinv2
    · rw [Ring.read_of_ne hne]
      exact CircularBuffer.ReadEnd_aligned r.buf _ hal

/-- C16: in every reachable state of the `CircularBuffer`, a successful `Write`
returns an offset `p`, a multiple of 16, such that the block
`[p, p + rounded size)` lies inside `[0, Size)` and has no byte in common with
the block of any record that was written earlier and not yet consumed by
`ReadEnd`. -/
theorem C16_blocks_do_not_overlap (capacity : Nat) (r : Ring) (live : List (Nat × Nat))
    (size p : Nat) (hcap : capacity < SizeTMod) (hr : Ring.ReachableLive capacity r live)
    (hp : (r.buf.Write size).1 = some p) :
    AlignSize ∣ p ∧ p + roundUpSize size ≤ r.buf.Size ∧
    ∀ o s, (o, s) ∈ live →
      ∀ x, ¬ (p ≤ x ∧ x < p + roundUpSize size ∧ o ≤ x ∧ x < o + roundUpSize s) := by
  obtain ⟨⟨hS, _, hlay⟩, hH, _, _⟩ := hr.live_inv hcap
  have hmemQ : ∀ o s, (o, s) ∈ live → 0 < roundUpSize s →
      (o, s) ∈ live.filter (fun x => decide (0 < roundUpSize x.2)) := by
    intro o s hm hpos
    exact List.mem_filter.mpr ⟨hm, by simpa using hpos⟩
  have hrlt := roundUpSize_lt size
  rcases hlay with ⟨hE, hTH, hHS, hch, hemp⟩ | ⟨hE, hHT, hTE, hES, hH0, Q1, Q2, hQ, hc1, hc2⟩
  · have hsub : sizeSub r.buf.Size r.buf.Head = r.buf.Size - r.buf.Head :=
      sizeSub_of_le _ _ hHS hS
    rcases CircularBuffer.Write_some_cases hp with ⟨_, h1, rfl, _⟩ | ⟨_, _, h2, rfl, _⟩ |
      ⟨h3, _⟩
    · rw [hsub] at h1
      refine ⟨hH, by omega, ?_⟩
      intro o s hm x hx
      have hpos : 0 < roundUpSize s := by omega
      have := hch.bounds o s (hmemQ o s hm hpos)
      omega
    · refine ⟨Nat.dvd_zero _, by omega, ?_⟩
      intro o s hm x hx
      have hpos : 0 < roundUpSize s := by omega
      have := hch.bounds o s (hmemQ o s hm hpos)
      omega
    · omega
  · have hsub : sizeSub r.buf.Tail r.buf.Head = r.buf.Tail - r.buf.Head :=
      sizeSub_of_le _ _ (le_of_lt hHT) (by omega)
    rcases CircularBuffer.Write_some_cases hp with ⟨h0, _⟩ | ⟨h0, _⟩ | ⟨_, h1, rfl, _⟩
    · omega
    · omega
    · rw [hsub] at h1
      refine ⟨hH, by omega, ?_⟩
      intro o s hm x hx
      have hpos : 0 < roundUpSize s := by omega
      have hmem := hmemQ o s hm hpos
      rw [hQ] at hmem
      rcases List.mem_append.mp hmem with h | h
      · have := hc1.bounds o s h
        omega
      · have := hc2.bounds o s h
        omega

/-- C16 at the wrapped ring of capacity 2048 that holds a record of 1008 bytes
at offset 1008 and one of 512 bytes at offset 0: a write of 256 bytes returns
offset 512. -/
theorem C16_blocks_do_not_overlap_witness :
    (wrappedRingExample.buf.Write 256).1 = some 512 ∧
    AlignSize ∣ 512 ∧ 512 + roundUpSize 256 ≤ wrappedRingExample.buf.Size ∧
    ∀ o s, (o, s) ∈ [(1008, 1008), (0, 512)] →
      ∀ x, ¬ (512 ≤ x ∧ x < 512 + roundUpSize 256 ∧ o ≤ x ∧ x < o + roundUpSize s) :=
  ⟨by decide,
    C16_blocks_do_not_overlap 2048 wrappedRingExample [(1008, 1008), (0, 512)] 256 512
      (by decide)
      (Ring.ReachableLive.write _ _ 512
        (Ring.ReachableLive.read _ _
          (Ring.ReachableLive.write _ _ 1008
            (Ring.ReachableLive.write _ _ 1008 Ring.ReachableLive.fresh (by decide))
            (by decide))
          (by decide))
        (by decide))
      (by decide)⟩

theorem newEffects_append (q q2 : ThreadCommandQueueImpl) (ext : List Effect)
    (h : q2.effects = q.effects ++ ext) : newEffects q q2 = ext := by
  unfold newEffects
  rw [h, List.drop_left]

theorem ThreadCommandQueueImpl.PushCommand_Block_spec (q : ThreadCommandQueueImpl) :
    ∃ e, q.PushCommand_Block.1 = .blocked e ∧
      q.PushCommand_Block.2.BlockedProducers = q.BlockedProducers ++ [e] := by
  obtain ⟨_, _, a3, _⟩ := q.AllocNotifyEvent_NTS_frame
  exact ⟨q.AllocNotifyEvent_NTS.1, rfl, by
    show q.AllocNotifyEvent_NTS.2.BlockedProducers ++ _ = _
    rw [a3]⟩

theorem ThreadCommandQueueImpl.PopCommand_some_nil (MaxSize : Nat) (q : ThreadCommandQueueImpl)
    (popBuffer : PopBuffer) (p : Nat) (h : q.CommandBuffer.ReadBegin = some p)
    (hb : q.BlockedProducers = []) :
    q.PopCommand MaxSize popBuffer =
      (true,
        { q with
          effects := q.effects ++
            (popBuffer.InitFromBuffer MaxSize (q.commandAt p)).2.map Effect.Destruct,
          CommandBuffer :=
            q.CommandBuffer.ReadEnd (popBuffer.InitFromBuffer MaxSize (q.commandAt p)).1.GetSize },
        (popBuffer.InitFromBuffer MaxSize (q.commandAt p)).1) := by
  unfold ThreadCommandQueueImpl.PopCommand
  rw [h]
  simp only [hb]

theorem ThreadCommandQueueImpl.PopCommand_some_cons (MaxSize : Nat) (q : ThreadCommandQueueImpl)
    (popBuffer : PopBuffer) (p : Nat) (e : NotifyEvent) (rest : List NotifyEvent)
    (h : q.CommandBuffer.ReadBegin = some p) (hb : q.BlockedProducers = e :: rest) :
    q.PopCommand MaxSize popBuffer =
      (true,
        { q with
          BlockedProducers := rest,
          effects := q.effects ++
            (popBuffer.InitFromBuffer MaxSize (q.commandAt p)).2.map Effect.Destruct ++
            [.PulseEvent e],
          CommandBuffer :=
            q.CommandBuffer.ReadEnd (popBuffer.InitFromBuffer MaxSize (q.commandAt p)).1.GetSize },
        (popBuffer.InitFromBuffer MaxSize (q.commandAt p)).1) := by
  unfold ThreadCommandQueueImpl.PopCommand
  rw [h]
  simp only [hb]

/-- C11: a pass of `PushCommand` whose allocation failed appends the event the
producer then waits on at the back of the blocked-producer list (and no other
pass changes that list); every successful `PopCommand` with a non-empty blocked
list removes and signals exactly the first event of the list and leaves the
remaining events in the same order; a `PopCommand` that finds the ring empty
signals and removes nothing. -/
theorem C11_blocked_producers_fifo (MaxSize : Nat) (q : ThreadCommandQueueImpl) :
    (∀ (command : ThreadCommand) (e : Option NotifyEvent),
      (q.ExitEnqueued && !command.ExitFlag) = false →
      (q.CommandBuffer.Write command.GetSize).1 = none →
      ∃ blockedEvent, (q.PushCommand_Locked command e).1 = .blocked blockedEvent ∧
        (q.PushCommand_Locked command e).2.BlockedProducers
          = q.BlockedProducers ++ [blockedEvent]) ∧
    (∀ (command : ThreadCommand) (e : Option NotifyEvent),
      (∀ blockedEvent, (q.PushCommand_Locked command e).1 ≠ .blocked blockedEvent) →
      (q.PushCommand_Locked command e).2.BlockedProducers = q.BlockedProducers) ∧
    (∀ (popBuffer : PopBuffer) (first : NotifyEvent) (rest : List NotifyEvent),
      q.BlockedProducers = first :: rest → (q.PopCommand MaxSize popBuffer).1 = true →
      (q.PopCommand MaxSize popBuffer).2.1.BlockedProducers = rest ∧
      pulsedEvents (newEffects q (q.PopCommand MaxSize popBuffer).2.1) = [first]) ∧
    (∀ popBuffer : PopBuffer, q.CommandBuffer.IsEmpty = true →
      (q.PopCommand MaxSize popBuffer).1 = false ∧
      (q.PopCommand MaxSize popBuffer).2.1.BlockedProducers = q.BlockedProducers ∧
      pulsedEvents (newEffects q (q.PopCommand MaxSize popBuffer).2.1) = []) := by
  refine ⟨?_, ?_, ?_, ?_⟩
  · intro command e hrej hW
    obtain ⟨_, _, f3, f4, _⟩ := q.ReleaseWaitEvent_frame e
    rcases hW0 : (q.ReleaseWaitEvent e).CommandBuffer.Write command.GetSize with ⟨_ | p, cb⟩
    · rw [q.PushCommand_Locked_blocked command e cb hrej hW0]
      obtain ⟨ev, h1, h2⟩ := ThreadCommandQueueImpl.PushCommand_Block_spec
        { q.ReleaseWaitEvent e with CommandBuffer := cb }
      refine ⟨ev, h1, ?_⟩
      rw [h2]
      show (q.ReleaseWaitEvent e).BlockedProducers ++ _ = _
      rw [f3]
    · rw [f4] at hW0
      rw [hW0] at hW
      cases hW
  · intro command e hnb
    obtain ⟨_, _, f3, _⟩ := q.ReleaseWaitEvent_frame e
    by_cases hrej : (q.ExitEnqueued && !command.ExitFlag) = true
    · rw [q.PushCommand_Locked_rejected command e hrej]
      exact f3
    · have hrej' : (q.ExitEnqueued && !command.ExitFlag) = false := by simpa using hrej
      rcases hW0 : (q.ReleaseWaitEvent e).CommandBuffer.Write command.GetSize with ⟨_ | p, cb⟩
      · exfalso
        obtain ⟨ev, h1, _⟩ := ThreadCommandQueueImpl.PushCommand_Block_spec
          { q.ReleaseWaitEvent e with CommandBuffer := cb }
        apply hnb ev
        rw [q.PushCommand_Locked_blocked command e cb hrej' hW0]
        exact h1
      · rw [q.PushCommand_Locked_enqueued command e p cb hrej' hW0]
        obtain ⟨_, _, b3, _⟩ := ThreadCommandQueueImpl.PushCommand_Enqueue_frame
          { q.ReleaseWaitEvent e with CommandBuffer := cb } command p
          (q.ReleaseWaitEvent e).CommandBuffer.IsEmpty
        rw [b3]
        exact f3
  · intro popBuffer first rest hb hpop
    rcases hR : q.CommandBuffer.ReadBegin with _ | p
    · rw [q.PopCommand_of_none MaxSize popBuffer hR] at hpop
      cases hpop
    · rw [q.PopCommand_some_cons MaxSize popBuffer p first rest hR hb]
      refine ⟨rfl, ?_⟩
      rw [newEffects_append q _
        ((popBuffer.InitFromBuffer MaxSize (q.commandAt p)).2.map Effect.Destruct
          ++ [.PulseEvent first]) (by simp)]
      simp [pulsedEvents, List.filterMap_append, List.filterMap_map]
  · intro popBuffer hem
    have hR : q.CommandBuffer.ReadBegin = none := by
      have : q.CommandBuffer.Head = q.CommandBuffer.Tail := by
        simpa [CircularBuffer.IsEmpty] using hem
      simp [CircularBuffer.ReadBegin, this]
    rw [q.PopCommand_of_none MaxSize popBuffer hR]
    refine ⟨rfl, rfl, ?_⟩
    rw [newEffects_append q _ [.OnPopEmpty_Locked] rfl]
    rfl

/-- C11 on a fresh queue with two parked producers (events 0 and 1) and one
command in the ring: `PopCommand` signals event 0 and leaves event 1. -/
theorem C11_blocked_producers_fifo_witness :
    (ThreadCommandQueueImpl.PopCommand 256
      { (ThreadCommandQueueImpl.create.PushCommand_Locked
          { Size := 64, WaitFlag := false, ExitFlag := false, pEvent := none, kind := .user 1 }
          none).2 with BlockedProducers := [0, 1], eventsCreated := 2 }
      PopBuffer.create).2.1.BlockedProducers = [1] :=
  ((C11_blocked_producers_fifo 256
      { (ThreadCommandQueueImpl.create.PushCommand_Locked
          { Size := 64, WaitFlag := false, ExitFlag := false, pEvent := none, kind := .user 1 }
          none).2 with BlockedProducers := [0, 1], eventsCreated := 2 }).2.2.1
    PopBuffer.create 0 [1] rfl (by decide)).1

theorem CircularBuffer.ReadBegin_none_iff (b : CircularBuffer) :
    b.ReadBegin = none ↔ b.IsEmpty = true := by
  unfold CircularBuffer.ReadBegin CircularBuffer.IsEmpty
  by_cases h : b.Head = b.Tail <;> simp [h]

/-- C18: a pass of `PushCommand` calls `OnPushNonEmpty_Locked` if and only if it
is not rejected, its `Write` succeeded and the ring was empty just before that
`Write`; `PopCommand` calls `OnPopEmpty_Locked` if and only if the ring is
empty, and in that case it returns false and leaves the ring cursors, the
blocked-producer list and the caller's `PopBuffer` unchanged. -/
theorem C18_hooks_on_transitions (MaxSize : Nat) (q : ThreadCommandQueueImpl) :
    (∀ (command : ThreadCommand) (e : Option NotifyEvent),
      Effect.OnPushNonEmpty_Locked ∈ newEffects q (q.PushCommand_Locked command e).2 ↔
        ((q.ExitEnqueued && !command.ExitFlag) = false ∧
          (q.CommandBuffer.Write command.GetSize).1 ≠ none ∧
          q.CommandBuffer.IsEmpty = true)) ∧
    (∀ popBuffer : PopBuffer,
      Effect.OnPopEmpty_Locked ∈ newEffects q (q.PopCommand MaxSize popBuffer).2.1 ↔
        q.CommandBuffer.IsEmpty = true) ∧
    (∀ popBuffer : PopBuffer, q.CommandBuffer.IsEmpty = true →
      (q.PopCommand MaxSize popBuffer).1 = false ∧
      (q.PopCommand MaxSize popBuffer).2.1.CommandBuffer = q.CommandBuffer ∧
      (q.PopCommand MaxSize popBuffer).2.1.BlockedProducers = q.BlockedProducers ∧
      (q.PopCommand MaxSize popBuffer).2.2 = popBuffer) := by
  refine ⟨?_, ?_, ?_⟩
  · intro command e
    obtain ⟨_, _, _, f4, _, f6, _, _⟩ := q.ReleaseWaitEvent_frame e
    by_cases hrej : (q.ExitEnqueued && !command.ExitFlag) = true
    · rw [q.PushCommand_Locked_rejected command e hrej,
        newEffects_append q _ [] (by rw [f6, List.append_nil])]
      simp [hrej]
    · have hrej' : (q.ExitEnqueued && !command.ExitFlag) = false := by simpa using hrej
      rcases hW0 : (q.ReleaseWaitEvent e).CommandBuffer.Write command.GetSize with ⟨_ | p, cb⟩
      · rw [q.PushCommand_Locked_blocked command e cb hrej' hW0]
        obtain ⟨_, _, _, _, b5⟩ := ThreadCommandQueueImpl.PushCommand_Block_frame
          { q.ReleaseWaitEvent e with CommandBuffer := cb }
        rw [newEffects_append q _ [] (by rw [b5, List.append_nil]; exact f6)]
        rw [f4] at hW0
        simp [hW0]
      · rw [q.PushCommand_Locked_enqueued command e p cb hrej' hW0]
        obtain ⟨_, _, _, _, b5, _⟩ := ThreadCommandQueueImpl.PushCommand_Enqueue_frame
          { q.ReleaseWaitEvent e with CommandBuffer := cb } command p
          (q.ReleaseWaitEvent e).CommandBuffer.IsEmpty
        rw [newEffects_append q _
          ([.CopyConstruct p command] ++
            if (q.ReleaseWaitEvent e).CommandBuffer.IsEmpty then [.OnPushNonEmpty_Locked] else [])
          (by rw [b5, List.append_assoc]; show (q.ReleaseWaitEvent e).effects ++ _ = _; rw [f6])]
        rw [f4] at hW0 ⊢
        by_cases hem : q.CommandBuffer.IsEmpty = true <;> simp [hW0, hem, hrej']
  · intro popBuffer
    rcases hR : q.CommandBuffer.ReadBegin with _ | p
    · rw [q.PopCommand_of_none MaxSize popBuffer hR, newEffects_append q _ [.OnPopEmpty_Locked] rfl]
      simp [(q.CommandBuffer.ReadBegin_none_iff).mp hR]
    · have hne : ¬ q.CommandBuffer.IsEmpty = true := by
        intro h
        rw [(q.CommandBuffer.ReadBegin_none_iff).mpr h] at hR
        cases hR
      cases hb : q.BlockedProducers with
      | nil =>
        rw [q.PopCommand_some_nil MaxSize popBuffer p hR hb, newEffects_append q _
          ((popBuffer.InitFromBuffer MaxSize (q.commandAt p)).2.map Effect.Destruct) rfl]
        simp [hne]
      | cons ev rest =>
        rw [q.PopCommand_some_cons MaxSize popBuffer p ev rest hR hb, newEffects_append q _
          ((popBuffer.InitFromBuffer MaxSize (q.commandAt p)).2.map Effect.Destruct
            ++ [.PulseEvent ev]) (by simp)]
        simp [hne]
  · intro popBuffer hem
    rw [q.PopCommand_of_none MaxSize popBuffer ((q.CommandBuffer.ReadBegin_none_iff).mpr hem)]
    exact ⟨rfl, rfl, rfl, rfl⟩

/-- C18 on a fresh queue: the first push calls the became-non-empty hook. -/
theorem C18_hooks_on_transitions_witness :
    Effect.OnPushNonEmpty_Locked ∈ newEffects ThreadCommandQueueImpl.create
      (ThreadCommandQueueImpl.create.PushCommand_Locked
        { Size := 64, WaitFlag := false, ExitFlag := false, pEvent := none, kind := .user 1 }
        none).2 :=
  ((C18_hooks_on_transitions 256 ThreadCommandQueueImpl.create).1
    { Size := 64, WaitFlag := false, ExitFlag := false, pEvent := none, kind := .user 1 }
    none).mpr ⟨by decide, by decide, by decide⟩

theorem PopBuffer.InitFromBuffer_held (MaxSize : Nat) (pb : PopBuffer) (cmd : ThreadCommand)
    (hM : 0 < MaxSize) (hc : 0 < cmd.Size) :
    (pb.InitFromBuffer MaxSize cmd).1.Size ≠ 0 ∧
    (pb.InitFromBuffer MaxSize cmd).1.Buffer = some cmd := by
  unfold PopBuffer.InitFromBuffer
  simp only []
  split_ifs <;> first | exact ⟨by omega, rfl⟩ | omega

theorem PopBuffer.destructedBy_held (MaxSize : Nat) (hM : 0 < MaxSize) (cmds : List ThreadCommand) :
    ∀ (pb : PopBuffer) (c0 : ThreadCommand), pb.Size ≠ 0 → pb.Buffer = some c0 →
      (∀ c ∈ cmds, 0 < c.Size) → PopBuffer.destructedBy MaxSize pb cmds = c0 :: cmds := by
  induction cmds with
  | nil =>
    intro pb c0 hs hb _
    simp [PopBuffer.destructedBy, PopBuffer.destroy, hs, hb]
  | cons cmd cmds ih =>
    intro pb c0 hs hb hc
    obtain ⟨h1, h2⟩ := PopBuffer.InitFromBuffer_held MaxSize pb cmd hM
      (hc cmd (List.mem_cons_self _ _))
    rw [PopBuffer.destructedBy, ih _ cmd h1 h2 (fun c h => hc c (List.mem_cons_of_mem _ h))]
    simp [PopBuffer.InitFromBuffer, hs, hb]

/-- C19: for every sequence of `InitFromBuffer` calls on one `PopBuffer` that
starts empty (each from a ring record holding a constructed command, whose size
is positive; the capacity `MaxSize` is positive), followed by the `PopBuffer`'s
destruction, the commands destructed are exactly the commands copied in, each
once and in order: each is destructed by the next `InitFromBuffer` or, the
last, by the destructor.  An empty `PopBuffer` (`Size` 0) destructs nothing.
A pass of `PushCommand` copy-constructs the command once when it enqueues it and
not at all otherwise. -/
theorem C19_destroyed_exactly_once (MaxSize : Nat) (cmds : List ThreadCommand)
    (hM : 0 < MaxSize) (hc : ∀ c ∈ cmds, 0 < c.Size) :
    PopBuffer.destructedBy MaxSize PopBuffer.create cmds = cmds ∧
    (∀ (pb : PopBuffer) (c0 cmd : ThreadCommand), pb.Size ≠ 0 → pb.Buffer = some c0 →
      (pb.InitFromBuffer MaxSize cmd).2 = [c0] ∧ pb.destroy = [c0]) ∧
    (∀ (pb : PopBuffer) (cmd : ThreadCommand), pb.Size = 0 →
      (pb.InitFromBuffer MaxSize cmd).2 = [] ∧ pb.destroy = []) ∧
    (∀ (q : ThreadCommandQueueImpl) (command : ThreadCommand) (e : Option NotifyEvent),
      constructedCommands (newEffects q (q.PushCommand_Locked command e).2) =
        match (q.PushCommand_Locked command e).1 with
        | .enqueued _ => [command]
        | _ => []) := by
  refine ⟨?_, ?_, ?_, ?_⟩
  · cases cmds with
    | nil => rfl
    | cons cmd cmds =>
      obtain ⟨h1, h2⟩ := PopBuffer.InitFromBuffer_held MaxSize PopBuffer.create cmd hM
        (hc cmd (List.mem_cons_self _ _))
      rw [PopBuffer.destructedBy, PopBuffer.destructedBy_held MaxSize hM cmds _ cmd h1 h2
        (fun c h => hc c (List.mem_cons_of_mem _ h))]
      rfl
  · intro pb c0 cmd hs hb
    simp [PopBuffer.InitFromBuffer, PopBuffer.destroy, hs, hb]
  · intro pb cmd hs
    simp [PopBuffer.InitFromBuffer, PopBuffer.destroy, hs]
  · intro q command e
    obtain ⟨_, _, _, _, _, f6, _, _⟩ := q.ReleaseWaitEvent_frame e
    by_cases hrej : (q.ExitEnqueued && !command.ExitFlag) = true
    · rw [q.PushCommand_Locked_rejected command e hrej,
        newEffects_append q _ [] (by rw [f6, List.append_nil])]
      rfl
    · have hrej' : (q.ExitEnqueued && !command.ExitFlag) = false := by simpa using hrej
      rcases hW0 : (q.ReleaseWaitEvent e).CommandBuffer.Write command.GetSize with ⟨_ | p, cb⟩
      · rw [q.PushCommand_Locked_blocked command e cb hrej' hW0]
        obtain ⟨_, _, _, _, b5⟩ := ThreadCommandQueueImpl.PushCommand_Block_frame
          { q.ReleaseWaitEvent e with CommandBuffer := cb }
        rw [newEffects_append q _ [] (by rw [b5, List.append_nil]; exact f6)]
        rfl
      · rw [q.PushCommand_Locked_enqueued command e p cb hrej' hW0]
        obtain ⟨_, _, _, _, b5, _⟩ := ThreadCommandQueueImpl.PushCommand_Enqueue_frame
          { q.ReleaseWaitEvent e with CommandBuffer := cb } command p
          (q.ReleaseWaitEvent e).CommandBuffer.IsEmpty
        rw [newEffects_append q _
          ([.CopyConstruct p command] ++
            if (q.ReleaseWaitEvent e).CommandBuffer.IsEmpty then [.OnPushNonEmpty_Locked] else [])
          (by rw [b5, List.append_assoc]; show (q.ReleaseWaitEvent e).effects ++ _ = _; rw [f6])]
        have h1 : ({ q.ReleaseWaitEvent e with CommandBuffer := cb }.PushCommand_Enqueue command p
            (q.ReleaseWaitEvent e).CommandBuffer.IsEmpty).1
            = .enqueued (if command.NeedsWait then
                some ({ q.ReleaseWaitEvent e with CommandBuffer := cb }.AllocNotifyEvent_NTS).1
              else none) := rfl
        rw [h1]
        split_ifs <;> rfl

/-- C19 for two commands of 64 and 32 bytes and a `PopBuffer` of capacity 256. -/
theorem C19_destroyed_exactly_once_witness :
    PopBuffer.destructedBy 256 PopBuffer.create
      [{ Size := 64, WaitFlag := false, ExitFlag := false, pEvent := none, kind := .user 1 },
       { Size := 32, WaitFlag := true, ExitFlag := false, pEvent := some 0, kind := .user 2 }]
    = [{ Size := 64, WaitFlag := false, ExitFlag := false, pEvent := none, kind := .user 1 },
       { Size := 32, WaitFlag := true, ExitFlag := false, pEvent := some 0, kind := .user 2 }] :=
  (C19_destroyed_exactly_once 256 _ (by decide) (by decide)).1

set_option maxRecDepth 100000 in
/-- C12, evaluated at the failing run: at the end of `strandedRun` the ring is
empty, the consumer has nothing left to execute, no producer is woken or about
to start, every user's push has returned, and the thread that called
`PushExitCommand` is parked on event 8, which is still in the blocked-producer
list; a further `PopCommand` finds the ring empty and signals nothing, and no
step of any thread changes the producers or the blocked-producer list. -/
theorem C12_stranded_producer :
    (∀ r ∈ List.replicate 16 (Request.push 256 false false) ++ [Request.exit false],
      r.Valid 256) ∧
    ValidCommandSize 256 32 ∧
    strandedState.impl.CommandBuffer.IsEmpty = true ∧
    strandedState.pending = false ∧
    wokenEvents strandedState.producers = [] ∧
    strandedState.impl.ExitEnqueued = true ∧
    strandedState.impl.BlockedProducers = [8] ∧
    strandedState.producers[16]? = some (.parked (ExitCommand 32 false) 8) ∧
    strandedState.producers.map ProducerState.result
      = List.replicate 8 (some true) ++ List.replicate 8 (some false) ++ [none] ∧
    (strandedState.step 256 32 .pop).impl.BlockedProducers = [8] ∧
    pulsedEvents (newEffects strandedState.impl (strandedState.step 256 32 .pop).impl) = [] ∧
    (∀ a ∈ [Action.pop, Action.execute] ++ (List.range 17).map Action.producer,
      (strandedState.step 256 32 a).producers = strandedState.producers ∧
      (strandedState.step 256 32 a).impl.BlockedProducers = strandedState.impl.BlockedProducers) := by
  refine ⟨by decide, by decide, by decide, by decide, by decide, by decide, by decide, by decide,
    by decide, by decide, by decide, by decide⟩

/-! ## Event accounting -/

theorem filterMap_set_count (f : ProducerState → Option NotifyEvent) (x : Nat)
    (p2 : ProducerState) :
    ∀ (ps : List ProducerState) (i : Nat) (p : ProducerState), ps[i]? = some p →
      (List.filterMap f (ps.set i p2)).count x + (f p).toList.count x
        = (List.filterMap f ps).count x + (f p2).toList.count x := by
  intro ps
  induction ps with
  | nil =>
    intro i p h
    simp at h
  | cons a t ih =>
    intro i p h
    cases i with
    | zero =>
      simp only [List.getElem?_cons_zero, Option.some.injEq] at h
      subst h
      simp only [List.set_cons_zero, List.filterMap_cons]
      cases f a <;> cases f p2 <;> simp [List.count_cons] <;> omega
    | succ j =>
      simp only [List.getElem?_cons_succ] at h
      have := ih j p h
      simp only [List.set_cons_succ, List.filterMap_cons]
      cases f a <;> simp [List.count_cons] <;> omega

theorem filterMap_cons_toList {α β : Type} (f : α → Option β) (a : α) (t : List α) :
    List.filterMap f (a :: t) = (f a).toList ++ List.filterMap f t := by
  cases h : f a <;> simp [List.filterMap_cons, h]

theorem parkedEvents_cons (a : ProducerState) (t : List ProducerState) :
    parkedEvents (a :: t) = a.parkedEvent.toList ++ parkedEvents t :=
  filterMap_cons_toList _ a t

theorem wokenEvents_cons (a : ProducerState) (t : List ProducerState) :
    wokenEvents (a :: t) = a.wokenEvent.toList ++ wokenEvents t :=
  filterMap_cons_toList _ a t

theorem completionEvents_cons (a : ProducerState) (t : List ProducerState) :
    completionEvents (a :: t) = a.completionEvent.toList ++ completionEvents t :=
  filterMap_cons_toList _ a t

theorem parkedEvents_wake_count (e x : Nat) (ps : List ProducerState) :
    (parkedEvents (ps.map (ProducerState.wake e))).count x
      = if x = e then 0 else (parkedEvents ps).count x := by
  induction ps with
  | nil => simp [parkedEvents]
  | cons a t ih =>
    rw [List.map_cons, parkedEvents_cons, parkedEvents_cons, List.count_append,
      List.count_append, ih]
    cases a <;> simp only [ProducerState.wake, ProducerState.parkedEvent, Option.toList,
      List.count_nil, Nat.zero_add] <;> try (split_ifs <;> rfl)
    rename_i c y
    by_cases hy : y = e
    · subst hy
      by_cases hx : x = y
      · subst hx
        simp [ProducerState.parkedEvent]
      · simp [ProducerState.parkedEvent, hx, List.count_cons, Ne.symm hx]
    · by_cases hx : x = e
      · subst hx
        simp [ProducerState.parkedEvent, hy, List.count_cons]
      · simp [ProducerState.parkedEvent, hy, hx, List.count_cons]

theorem wokenEvents_wake_count (e x : Nat) (ps : List ProducerState) :
    (wokenEvents (ps.map (ProducerState.wake e))).count x
      = (wokenEvents ps).count x + if x = e then (parkedEvents ps).count e else 0 := by
  induction ps with
  | nil => simp [wokenEvents, parkedEvents]
  | cons a t ih =>
    rw [List.map_cons, wokenEvents_cons, wokenEvents_cons, parkedEvents_cons, List.count_append,
      List.count_append, List.count_append, ih]
    cases a <;> simp only [ProducerState.wake, ProducerState.parkedEvent,
      ProducerState.wokenEvent, Option.toList, List.count_nil, Nat.zero_add] <;>
      try (split_ifs <;> omega)
    · rename_i c y
      by_cases hy : y = e
      · subst hy
        by_cases hx : x = y
        · subst hx
          simp [ProducerState.wokenEvent, List.count_cons]
          omega
        · simp [ProducerState.wokenEvent, hx, List.count_cons, Ne.symm hx]
      · by_cases hx : x = e
        · subst hx
          simp [ProducerState.wokenEvent, hy, List.count_cons]
        · simp [ProducerState.wokenEvent, hy, hx]

theorem completionEvents_wake (e : NotifyEvent) (ps : List ProducerState) :
    completionEvents (ps.map (ProducerState.wake e)) = completionEvents ps := by
  unfold completionEvents
  rw [List.filterMap_map]
  congr 1
  funext p
  cases p <;> simp [ProducerState.wake, ProducerState.completionEvent]
  split_ifs <;> rfl

theorem events_signal (e : NotifyEvent) (ps : List ProducerState) :
    parkedEvents (ps.map (ProducerState.signal e)) = parkedEvents ps ∧
    wokenEvents (ps.map (ProducerState.signal e)) = wokenEvents ps ∧
    completionEvents (ps.map (ProducerState.signal e)) = completionEvents ps := by
  unfold parkedEvents wokenEvents completionEvents
  refine ⟨?_, ?_, ?_⟩ <;>
  · rw [List.filterMap_map]
    congr 1
    funext p
    cases p <;> simp [ProducerState.signal, ProducerState.parkedEvent,
      ProducerState.wokenEvent, ProducerState.completionEvent]
    split_ifs <;> rfl

theorem ThreadCommandQueueImpl.AllocNotifyEvent_NTS_cases (q : ThreadCommandQueueImpl) :
    (q.AvailableEvents = [] ∧
      q.AllocNotifyEvent_NTS = (q.eventsCreated, { q with eventsCreated := q.eventsCreated + 1 })) ∨
    (∃ p rest, q.AvailableEvents = p :: rest ∧
      q.AllocNotifyEvent_NTS = (p, { q with AvailableEvents := rest })) := by
  unfold ThreadCommandQueueImpl.AllocNotifyEvent_NTS
  cases q.AvailableEvents with
  | nil => exact Or.inl ⟨rfl, rfl⟩
  | cons p rest => exact Or.inr ⟨p, rest, rfl, rfl⟩

theorem ThreadCommandQueueImpl.AllocNotifyEvent_NTS_count (q : ThreadCommandQueueImpl)
    (x : Nat) :
    q.AllocNotifyEvent_NTS.2.AvailableEvents.count x
        + (if x = q.AllocNotifyEvent_NTS.1 then 1 else 0)
        + (if x < q.eventsCreated then 1 else 0)
      = q.AvailableEvents.count x
        + (if x < q.AllocNotifyEvent_NTS.2.eventsCreated then 1 else 0) := by
  rcases q.AllocNotifyEvent_NTS_cases with ⟨h1, h2⟩ | ⟨p, rest, h1, h2⟩
  · rw [h2, h1]
    show List.count x [] + (if x = q.eventsCreated then 1 else 0) + _
      = _ + (if x < q.eventsCreated + 1 then 1 else 0)
    simp only [List.count_nil]
    split_ifs <;> omega
  · rw [h2, h1]
    show List.count x rest + (if x = p then 1 else 0) + _
      = _ + (if x < q.eventsCreated then 1 else 0)
    rw [List.count_cons]
    by_cases hx : x = p
    · subst hx
      simp
    · have : ¬ p = x := fun h => hx h.symm
      simp [hx, this]

theorem count_singleton_nat (a x : Nat) : List.count x [a] = if x = a then 1 else 0 := by
  by_cases h : x = a
  · subst h
    simp
  · have : ¬ a = x := fun h2 => h h2.symm
    simp [h, this]

theorem ThreadCommandQueueImpl.PushCommand_Block_events (q : ThreadCommandQueueImpl)
    (c : ThreadCommand) (x : Nat) :
    q.PushCommand_Block.2.AvailableEvents.count x + q.PushCommand_Block.2.BlockedProducers.count x
        + (if x < q.eventsCreated then 1 else 0)
      = q.AvailableEvents.count x + q.BlockedProducers.count x
        + (if x < q.PushCommand_Block.2.eventsCreated then 1 else 0) ∧
    q.PushCommand_Block.2.BlockedProducers.count x
      = q.BlockedProducers.count x
        + (ProducerState.afterPush c q.PushCommand_Block.1).parkedEvent.toList.count x ∧
    (ProducerState.afterPush c q.PushCommand_Block.1).completionEvent = none ∧
    (ProducerState.afterPush c q.PushCommand_Block.1).wokenEvent = none := by
  have ha := q.AllocNotifyEvent_NTS_count x
  obtain ⟨_, _, a3, _⟩ := q.AllocNotifyEvent_NTS_frame
  have h1 : q.PushCommand_Block.2.AvailableEvents = q.AllocNotifyEvent_NTS.2.AvailableEvents := rfl
  have h2 : q.PushCommand_Block.2.BlockedProducers
      = q.BlockedProducers ++ [q.AllocNotifyEvent_NTS.1] := by
    show q.AllocNotifyEvent_NTS.2.BlockedProducers ++ _ = _
    rw [a3]
  have h3 : q.PushCommand_Block.2.eventsCreated = q.AllocNotifyEvent_NTS.2.eventsCreated := rfl
  have h4 : q.PushCommand_Block.1 = .blocked q.AllocNotifyEvent_NTS.1 := rfl
  rw [h1, h2, h3, h4]
  refine ⟨?_, ?_, rfl, rfl⟩
  · simp only [List.count_append, count_singleton_nat]
    omega
  · simp only [ProducerState.afterPush, ProducerState.parkedEvent, Option.toList_some,
      List.count_append]

theorem ThreadCommandQueueImpl.PushCommand_Enqueue_events (q : ThreadCommandQueueImpl)
    (c : ThreadCommand) (buffer : Nat) (wasEmpty : Bool) (x : Nat) :
    (q.PushCommand_Enqueue c buffer wasEmpty).2.AvailableEvents.count x
        + (ProducerState.afterPush c
            (q.PushCommand_Enqueue c buffer wasEmpty).1).completionEvent.toList.count x
        + (if x < q.eventsCreated then 1 else 0)
      = q.AvailableEvents.count x
        + (if x < (q.PushCommand_Enqueue c buffer wasEmpty).2.eventsCreated then 1 else 0) ∧
    (ProducerState.afterPush c (q.PushCommand_Enqueue c buffer wasEmpty).1).parkedEvent = none ∧
    (ProducerState.afterPush c (q.PushCommand_Enqueue c buffer wasEmpty).1).wokenEvent = none := by
  have ha := q.AllocNotifyEvent_NTS_count x
  cases hw : c.NeedsWait <;> cases wasEmpty <;> refine ⟨?_, ?_, ?_⟩ <;>
    simp only [ThreadCommandQueueImpl.PushCommand_Enqueue, hw, if_true, if_false,
      Bool.false_eq_true, ProducerState.afterPush, ProducerState.parkedEvent,
      ProducerState.completionEvent, ProducerState.wokenEvent, Option.toList_some,
      Option.toList_none, List.count_nil, count_singleton_nat] <;>
    omega

theorem ThreadCommandQueueImpl.PushCommand_Locked_events (q : ThreadCommandQueueImpl)
    (c : ThreadCommand) (e : Option NotifyEvent) (x : Nat) :
    (q.PushCommand_Locked c e).2.AvailableEvents.count x
        + (q.PushCommand_Locked c e).2.BlockedProducers.count x
        + (ProducerState.afterPush c (q.PushCommand_Locked c e).1).completionEvent.toList.count x
        + (if x < q.eventsCreated then 1 else 0)
      = q.AvailableEvents.count x + e.toList.count x + q.BlockedProducers.count x
        + (if x < (q.PushCommand_Locked c e).2.eventsCreated then 1 else 0) ∧
    (q.PushCommand_Locked c e).2.BlockedProducers.count x
      = q.BlockedProducers.count x
        + (ProducerState.afterPush c (q.PushCommand_Locked c e).1).parkedEvent.toList.count x ∧
    (ProducerState.afterPush c (q.PushCommand_Locked c e).1).wokenEvent = none := by
  obtain ⟨_, _, f3, _, _, _, f7, f8⟩ := q.ReleaseWaitEvent_frame e
  have hA : (q.ReleaseWaitEvent e).AvailableEvents.count x
      = q.AvailableEvents.count x + e.toList.count x := by
    rw [f7, List.count_append]
  by_cases hrej : (q.ExitEnqueued && !c.ExitFlag) = true
  · rw [q.PushCommand_Locked_rejected c e hrej]
    simp only [ProducerState.afterPush, ProducerState.parkedEvent,
      ProducerState.completionEvent, ProducerState.wokenEvent, Option.toList_none, List.count_nil]
    rw [f3, f8]
    refine ⟨by omega, by omega, trivial⟩
  · have hrej' : (q.ExitEnqueued && !c.ExitFlag) = false := by simpa using hrej
    rcases hW : (q.ReleaseWaitEvent e).CommandBuffer.Write c.GetSize with ⟨_ | p, cb⟩
    · rw [q.PushCommand_Locked_blocked c e cb hrej' hW]
      obtain ⟨h1, h2, h3, h4⟩ := ThreadCommandQueueImpl.PushCommand_Block_events
        { q.ReleaseWaitEvent e with CommandBuffer := cb } c x
      have e1 : ({ q.ReleaseWaitEvent e with CommandBuffer := cb } :
          ThreadCommandQueueImpl).AvailableEvents = (q.ReleaseWaitEvent e).AvailableEvents := rfl
      have e2 : ({ q.ReleaseWaitEvent e with CommandBuffer := cb } :
          ThreadCommandQueueImpl).BlockedProducers = q.BlockedProducers := f3
      have e3 : ({ q.ReleaseWaitEvent e with CommandBuffer := cb } :
          ThreadCommandQueueImpl).eventsCreated = q.eventsCreated := f8
      rw [e1, e2, e3, hA] at h1
      rw [e2] at h2
      rw [h3]
      simp only [Option.toList_none, List.count_nil]
      dsimp only at h1 h2 h4 ⊢
      exact ⟨by omega, h2, h4⟩
    · rw [q.PushCommand_Locked_enqueued c e p cb hrej' hW]
      obtain ⟨h1, h2, h3⟩ := ThreadCommandQueueImpl.PushCommand_Enqueue_events
        { q.ReleaseWaitEvent e with CommandBuffer := cb } c p
        (q.ReleaseWaitEvent e).CommandBuffer.IsEmpty x
      obtain ⟨_, _, b3, _⟩ := ThreadCommandQueueImpl.PushCommand_Enqueue_frame
        { q.ReleaseWaitEvent e with CommandBuffer := cb } c p
        (q.ReleaseWaitEvent e).CommandBuffer.IsEmpty
      have e1 : ({ q.ReleaseWaitEvent e with CommandBuffer := cb } :
          ThreadCommandQueueImpl).AvailableEvents = (q.ReleaseWaitEvent e).AvailableEvents := rfl
      have e2 : ({ q.ReleaseWaitEvent e with CommandBuffer := cb } :
          ThreadCommandQueueImpl).BlockedProducers = q.BlockedProducers := f3
      have e3 : ({ q.ReleaseWaitEvent e with CommandBuffer := cb } :
          ThreadCommandQueueImpl).eventsCreated = q.eventsCreated := f8
      rw [e1, e3, hA] at h1
      rw [b3, e2, h2]
      simp only [Option.toList_none, List.count_nil]
      dsimp only at h1 h3 ⊢
      exact ⟨by omega, by omega, h3⟩

theorem producersFrom_events (reqs : List Request) :
    ∀ i, parkedEvents (Request.producersFrom i reqs) = [] ∧
      wokenEvents (Request.producersFrom i reqs) = [] ∧
      completionEvents (Request.producersFrom i reqs) = [] := by
  induction reqs with
  | nil => intro i; exact ⟨rfl, rfl, rfl⟩
  | cons r rs ih =>
    intro i
    obtain ⟨h1, h2, h3⟩ := ih (i + 1)
    rw [Request.producersFrom, parkedEvents_cons, wokenEvents_cons, completionEvents_cons,
      h1, h2, h3]
    cases r <;> exact ⟨rfl, rfl, rfl⟩

theorem ProducerState.events_start (c : ThreadCommand) :
    (ProducerState.start c).parkedEvent = none ∧ (ProducerState.start c).wokenEvent = none ∧
      (ProducerState.start c).completionEvent = none := ⟨rfl, rfl, rfl⟩

theorem ProducerState.events_woken (c : ThreadCommand) (e : NotifyEvent) :
    (ProducerState.woken c e).parkedEvent = none ∧ (ProducerState.woken c e).wokenEvent = some e ∧
      (ProducerState.woken c e).completionEvent = none := ⟨rfl, rfl, rfl⟩

theorem ProducerState.events_completing (c : ThreadCommand) (e : NotifyEvent) :
    (ProducerState.completing c e).parkedEvent = none ∧
      (ProducerState.completing c e).wokenEvent = none ∧
      (ProducerState.completing c e).completionEvent = some e ∧
      (ProducerState.returned c true).parkedEvent = none ∧
      (ProducerState.returned c true).wokenEvent = none ∧
      (ProducerState.returned c true).completionEvent = none := ⟨rfl, rfl, rfl, rfl, rfl, rfl⟩

theorem ProducerState.events_startExit (wait : Bool) :
    (ProducerState.startExit wait).parkedEvent = none ∧
      (ProducerState.startExit wait).wokenEvent = none ∧
      (ProducerState.startExit wait).completionEvent = none := ⟨rfl, rfl, rfl⟩

theorem System.EventsInv.of_parts (impl : ThreadCommandQueueImpl) (pb : PopBuffer) (pending : Bool)
    (ps : List ProducerState)
    (h1 : ∀ x : Nat,
      impl.AvailableEvents.count x + impl.BlockedProducers.count x
          + (List.filterMap ProducerState.wokenEvent ps).count x
          + (List.filterMap ProducerState.completionEvent ps).count x
        = if x < impl.eventsCreated then 1 else 0)
    (h2 : ∀ x : Nat,
      (List.filterMap ProducerState.parkedEvent ps).count x = impl.BlockedProducers.count x) :
    System.EventsInv { impl := impl, popBuffer := pb, pending := pending, producers := ps } :=
  ⟨h1, h2⟩

theorem System.EventsInv.parts {s : System} (h : s.EventsInv) :
    (∀ x : Nat,
      s.impl.AvailableEvents.count x + s.impl.BlockedProducers.count x
          + (List.filterMap ProducerState.wokenEvent s.producers).count x
          + (List.filterMap ProducerState.completionEvent s.producers).count x
        = if x < s.impl.eventsCreated then 1 else 0) ∧
    (∀ x : Nat,
      (List.filterMap ProducerState.parkedEvent s.producers).count x
        = s.impl.BlockedProducers.count x) :=
  h

theorem System.EventsInv.producerStep {s : System} (h : s.EventsInv) (sz i : Nat) :
    (s.producerStep sz i).EventsInv := by
  have h0 := h
  obtain ⟨h1, h2⟩ := h.parts
  unfold System.producerStep
  cases hp : s.producers[i]? with
  | none => exact h0
  | some p =>
    cases p with
    | start c =>
      simp only []
      refine System.EventsInv.of_parts _ _ _ _ (fun x => ?_) (fun x => ?_)
      · obtain ⟨e1, e2, e3⟩ := s.impl.PushCommand_Locked_events c none x
        have w := filterMap_set_count ProducerState.wokenEvent x
          (ProducerState.afterPush c (s.impl.PushCommand_Locked c none).1) s.producers i _ hp
        have k := filterMap_set_count ProducerState.completionEvent x
          (ProducerState.afterPush c (s.impl.PushCommand_Locked c none).1) s.producers i _ hp
        have := h1 x
        rw [e3] at w
        simp only [(ProducerState.events_start c).2.1, (ProducerState.events_start c).2.2, Option.toList_none,
          Option.toList_some, List.count_nil] at w k e1
        omega
      · obtain ⟨e1, e2, e3⟩ := s.impl.PushCommand_Locked_events c none x
        have k := filterMap_set_count ProducerState.parkedEvent x
          (ProducerState.afterPush c (s.impl.PushCommand_Locked c none).1) s.producers i _ hp
        have := h2 x
        simp only [(ProducerState.events_start c).1, Option.toList_none, Option.toList_some,
          List.count_nil] at k e1 e2
        omega
    | woken c e =>
      simp only []
      refine System.EventsInv.of_parts _ _ _ _ (fun x => ?_) (fun x => ?_)
      · obtain ⟨e1, e2, e3⟩ := s.impl.PushCommand_Locked_events c (some e) x
        have w := filterMap_set_count ProducerState.wokenEvent x
          (ProducerState.afterPush c (s.impl.PushCommand_Locked c (some e)).1) s.producers i _ hp
        have k := filterMap_set_count ProducerState.completionEvent x
          (ProducerState.afterPush c (s.impl.PushCommand_Locked c (some e)).1) s.producers i _ hp
        have := h1 x
        rw [e3] at w
        simp only [(ProducerState.events_woken c e).2.1, (ProducerState.events_woken c e).2.2, Option.toList_none,
          Option.toList_some, List.count_nil] at w k e1
        omega
      · obtain ⟨e1, e2, e3⟩ := s.impl.PushCommand_Locked_events c (some e) x
        have k := filterMap_set_count ProducerState.parkedEvent x
          (ProducerState.afterPush c (s.impl.PushCommand_Locked c (some e)).1) s.producers i _ hp
        have := h2 x
        simp only [(ProducerState.events_woken c e).1, Option.toList_none, Option.toList_some,
          List.count_nil] at k e1 e2
        omega
    | startExit wait =>
      simp only []
      have hq : (s.impl.PushExitCommand_Locked sz wait).1.AvailableEvents = s.impl.AvailableEvents ∧
          (s.impl.PushExitCommand_Locked sz wait).1.BlockedProducers = s.impl.BlockedProducers ∧
          (s.impl.PushExitCommand_Locked sz wait).1.eventsCreated = s.impl.eventsCreated := by
        unfold ThreadCommandQueueImpl.PushExitCommand_Locked
        split_ifs <;> exact ⟨rfl, rfl, rfl⟩
      obtain ⟨q1, q2, q3⟩ := hq
      have hn : ∀ f : ProducerState → Option NotifyEvent,
          (f = ProducerState.parkedEvent ∨ f = ProducerState.wokenEvent ∨
            f = ProducerState.completionEvent) →
          f (match (s.impl.PushExitCommand_Locked sz wait).2 with
            | some c => ProducerState.start c
            | none => ProducerState.exitReturned) = none := by
        intro f hf
        rcases hf with rfl | rfl | rfl <;>
          cases (s.impl.PushExitCommand_Locked sz wait).2 <;> rfl
      refine System.EventsInv.of_parts _ _ _ _ (fun x => ?_) (fun x => ?_)
      · have w := filterMap_set_count ProducerState.wokenEvent x
          (match (s.impl.PushExitCommand_Locked sz wait).2 with
            | some c => ProducerState.start c
            | none => ProducerState.exitReturned) s.producers i _ hp
        have k := filterMap_set_count ProducerState.completionEvent x
          (match (s.impl.PushExitCommand_Locked sz wait).2 with
            | some c => ProducerState.start c
            | none => ProducerState.exitReturned) s.producers i _ hp
        rw [hn _ (Or.inr (Or.inl rfl))] at w
        rw [hn _ (Or.inr (Or.inr rfl))] at k
        have := h1 x
        simp only [(ProducerState.events_startExit wait).2.1, (ProducerState.events_startExit wait).2.2, Option.toList_none,
          Option.toList_some, List.count_nil] at w k
        rw [q1, q2, q3]
        omega
      · have k := filterMap_set_count ProducerState.parkedEvent x
          (match (s.impl.PushExitCommand_Locked sz wait).2 with
            | some c => ProducerState.start c
            | none => ProducerState.exitReturned) s.producers i _ hp
        rw [hn _ (Or.inl rfl)] at k
        have := h2 x
        simp only [(ProducerState.events_startExit wait).1, Option.toList_none, Option.toList_some,
          List.count_nil] at k
        rw [q2]
        omega
    | completing c e =>
      simp only []
      refine System.EventsInv.of_parts _ _ _ _ (fun x => ?_) (fun x => ?_)
      · have w := filterMap_set_count ProducerState.wokenEvent x
          (ProducerState.returned c true) s.producers i _ hp
        have k := filterMap_set_count ProducerState.completionEvent x
          (ProducerState.returned c true) s.producers i _ hp
        have := h1 x
        simp only [(ProducerState.events_completing c e).2.1, (ProducerState.events_completing c e).2.2.1, (ProducerState.events_completing c e).2.2.2.2.1, (ProducerState.events_completing c e).2.2.2.2.2, Option.toList_none,
          Option.toList_some, List.count_nil] at w k
        show (s.impl.AvailableEvents ++ [e]).count x + s.impl.BlockedProducers.count x
          + _ + _ = if x < s.impl.eventsCreated then 1 else 0
        rw [List.count_append]
        omega
      · have k := filterMap_set_count ProducerState.parkedEvent x
          (ProducerState.returned c true) s.producers i _ hp
        have := h2 x
        simp only [(ProducerState.events_completing c e).1, (ProducerState.events_completing c e).2.2.2.1, Option.toList_none, Option.toList_some,
          List.count_nil] at k
        show _ = s.impl.BlockedProducers.count x
        omega
    | parked c e => exact h0
    | waitComplete c e => exact h0
    | returned c b => exact h0
    | exitReturned => exact h0

theorem count_cons_nat (x e : Nat) (rest : List Nat) :
    List.count x (e :: rest) = rest.count x + if x = e then 1 else 0 := by
  rw [List.count_cons]
  by_cases h : x = e
  · subst h; simp
  · have h2 : ¬ e = x := fun h3 => h h3.symm
    simp [h, h2]

theorem System.EventsInv.popStep {s : System} (h : s.EventsInv) (MaxSize : Nat) :
    (s.popStep MaxSize).EventsInv := by
  have h0 := h
  obtain ⟨h1, h2⟩ := h.parts
  unfold System.popStep
  cases hpend : s.pending with
  | true => simpa using h0
  | false =>
    simp only [Bool.false_eq_true, if_false]
    rcases hr : s.impl.CommandBuffer.ReadBegin with _ | p
    · rw [s.impl.PopCommand_of_none MaxSize s.popBuffer hr]
      exact System.EventsInv.of_parts _ _ _ _ h1 h2
    · cases hb : s.impl.BlockedProducers with
      | nil =>
        rw [s.impl.PopCommand_some_nil MaxSize s.popBuffer p hr hb]
        simp only []
        refine System.EventsInv.of_parts _ _ _ _ (fun x => ?_) (fun x => ?_)
        · exact h1 x
        · exact h2 x
      | cons e rest =>
        rw [s.impl.PopCommand_some_cons MaxSize s.popBuffer p e rest hr hb]
        simp only []
        have hrest : rest.count e = 0 := by
          have a := h1 e
          rw [hb, count_cons_nat] at a
          simp only [if_true] at a
          split_ifs at a <;> omega
        have hpark : (List.filterMap ProducerState.parkedEvent s.producers).count e = 1 := by
          have a := h2 e
          rw [hb, count_cons_nat] at a
          simp only [if_true] at a
          omega
        refine System.EventsInv.of_parts _ _ _ _ (fun x => ?_) (fun x => ?_)
        · have a := h1 x
          have w := wokenEvents_wake_count e x s.producers
          have k := completionEvents_wake e s.producers
          unfold wokenEvents parkedEvents at w
          unfold completionEvents at k
          rw [hb, count_cons_nat] at a
          rw [w, k, hpark]
          show _ = if x < s.impl.eventsCreated then 1 else 0
          show s.impl.AvailableEvents.count x + rest.count x + _ + _ = _
          by_cases hx : x = e
          · simp only [hx, if_true] at a ⊢
            omega
          · simp only [hx, if_false] at a ⊢
            omega
        · have a := h2 x
          have w := parkedEvents_wake_count e x s.producers
          unfold parkedEvents at w
          rw [hb, count_cons_nat] at a
          rw [w]
          show _ = rest.count x
          by_cases hx : x = e
          · simp only [hx, if_true]
            omega
          · simp only [hx, if_false] at a ⊢
            omega

theorem System.EventsInv.executeStep {s : System} (h : s.EventsInv) :
    s.executeStep.EventsInv := by
  have h0 := h
  obtain ⟨h1, h2⟩ := h.parts
  have hq : ∀ pb : PopBuffer, (s.impl.Execute pb).AvailableEvents = s.impl.AvailableEvents ∧
      (s.impl.Execute pb).BlockedProducers = s.impl.BlockedProducers ∧
      (s.impl.Execute pb).eventsCreated = s.impl.eventsCreated := by
    intro pb
    unfold ThreadCommandQueueImpl.Execute
    cases pb.Buffer with
    | none => exact ⟨rfl, rfl, rfl⟩
    | some c =>
      simp only []
      unfold ThreadCommandQueueImpl.ExecuteCommand
      cases c.kind <;> split_ifs <;> (try split) <;> exact ⟨rfl, rfl, rfl⟩
  obtain ⟨q1, q2, q3⟩ := hq s.popBuffer
  unfold System.executeStep
  cases hpend : s.pending with
  | false => simpa using h0
  | true =>
    simp only [if_true]
    have hps : ∀ ps : List ProducerState,
        (ps = s.producers ∨ ∃ e, ps = s.producers.map (ProducerState.signal e)) →
        System.EventsInv (System.mk (s.impl.Execute s.popBuffer) s.popBuffer false ps) := by
      intro ps hps
      have e3 : List.filterMap ProducerState.parkedEvent ps
            = List.filterMap ProducerState.parkedEvent s.producers ∧
          List.filterMap ProducerState.wokenEvent ps
            = List.filterMap ProducerState.wokenEvent s.producers ∧
          List.filterMap ProducerState.completionEvent ps
            = List.filterMap ProducerState.completionEvent s.producers := by
        rcases hps with rfl | ⟨e, rfl⟩
        · exact ⟨rfl, rfl, rfl⟩
        · exact events_signal e s.producers
      refine System.EventsInv.of_parts _ _ _ _ (fun x => ?_) (fun x => ?_)
      · rw [q1, q2, q3, e3.2.1, e3.2.2]; exact h1 x
      · rw [q2, e3.1]; exact h2 x
    apply hps
    cases s.popBuffer.Buffer with
    | none => exact Or.inl rfl
    | some c =>
      simp only []
      split_ifs
      · cases c.pEvent with
        | none => exact Or.inl rfl
        | some e => exact Or.inr ⟨e, rfl⟩
      · exact Or.inl rfl

theorem System.EventsInv.events_init (reqs : List Request) : (System.init reqs).EventsInv := by
  obtain ⟨p1, p2, p3⟩ := producersFrom_events reqs 0
  unfold parkedEvents at p1
  unfold wokenEvents at p2
  unfold completionEvents at p3
  refine System.EventsInv.of_parts _ _ _ _ (fun x => ?_) (fun x => ?_)
  · rw [p2, p3]
    show ([] : List Nat).count x + ([] : List Nat).count x + ([] : List Nat).count x
      + ([] : List Nat).count x = if x < 0 then 1 else 0
    simp
  · rw [p1]
    rfl

theorem System.Reachable.eventsInv {MaxSize sizeofExitCommand : Nat} {s : System}
    (h : s.Reachable MaxSize sizeofExitCommand) : s.EventsInv := by
  induction h with
  | init reqs _ => exact System.EventsInv.events_init reqs
  | step s a _ ih =>
    cases a with
    | producer i => exact ih.producerStep sizeofExitCommand i
    | pop => exact ih.popStep MaxSize
    | execute => exact ih.executeStep

theorem System.Reachable.run {MaxSize sizeofExitCommand : Nat} (as : List Action) :
    ∀ s : System, s.Reachable MaxSize sizeofExitCommand →
      (System.run MaxSize sizeofExitCommand s as).Reachable MaxSize sizeofExitCommand := by
  induction as with
  | nil => intro s h; exact h
  | cons a as ih => intro s h; exact ih _ (System.Reachable.step s a h)

/-- C13, as stated, fails.  With a `PopBuffer` of 256 bytes, threads 0 to 7 fill
the ring with commands of 256 bytes, thread 8 pushes, finds the ring full and is
parked on event 0, and the consumer pops: `PopCommand` removes event 0 from the
blocked-producer list and signals it, and the event "is freed later by waiter".
In that state event 0 has been created, and it is neither in the free list, nor
in the blocked-producer list, nor the completion event of any command: it is
held by the woken thread 8 until its retry. -/
theorem C13_event_ownership_counterexample :
    (∀ r ∈ List.replicate 9 (Request.push 256 false false), r.Valid 256) ∧
    wokenState =
      System.run 256 32 (System.init (List.replicate 9 (Request.push 256 false false)))
        ((List.range 9).map Action.producer ++ [.pop]) ∧
    wokenState.impl.eventsCreated = 1 ∧
    wokenState.impl.AvailableEvents = [] ∧
    wokenState.impl.BlockedProducers = [] ∧
    completionEvents wokenState.producers = [] ∧
    ¬ (wokenState.impl.AvailableEvents.count 0 + wokenState.impl.BlockedProducers.count 0
        + (completionEvents wokenState.producers).count 0 = 1) ∧
    wokenState.producers[8]? =
      some (.woken { Size := 256, WaitFlag := false, ExitFlag := false, pEvent := none,
                     kind := .user 8 } 0) := by
  decide

/-- C13, amended: in every reachable state of the system (lock-protected
sections taken as atomic steps), every notification event that has been created
is in exactly one of four places: the free list (`AvailableEvents`), the
blocked-producer list (`BlockedProducers`), the hands of a producer that
`PopCommand` has woken and that has not yet run its retry (which frees the
event), or attached as the completion event of a command whose push has not
returned; an event that has not been created is in none of them; and the
blocked-producer list holds exactly the events of the parked producers. -/
theorem C13_event_ownership (MaxSize sizeofExitCommand : Nat) (s : System)
    (h : s.Reachable MaxSize sizeofExitCommand) :
    (∀ x : NotifyEvent,
      s.impl.AvailableEvents.count x + s.impl.BlockedProducers.count x
          + (wokenEvents s.producers).count x + (completionEvents s.producers).count x
        = if x < s.impl.eventsCreated then 1 else 0) ∧
    (∀ x : NotifyEvent, (parkedEvents s.producers).count x = s.impl.BlockedProducers.count x) :=
  h.eventsInv

/-- C13, amended, at the state in which thread 8 has been woken and holds
event 0. -/
theorem C13_event_ownership_witness :
    wokenState.impl.AvailableEvents.count 0 + wokenState.impl.BlockedProducers.count 0
        + (wokenEvents wokenState.producers).count 0
        + (completionEvents wokenState.producers).count 0
      = (if 0 < wokenState.impl.eventsCreated then 1 else 0) ∧
    wokenEvents wokenState.producers = [0] :=
  ⟨(C13_event_ownership 256 32 wokenState
      (System.Reachable.run wokenRun _ (System.Reachable.init _ (by decide)))).1 0,
   by decide⟩

/-! ## The layout of the queue's ring -/

theorem lookup_map_size (l : List (Nat × ThreadCommand)) (o : Nat) :
    (l.map fun x => (x.1, x.2.Size)).lookup o = (l.lookup o).map ThreadCommand.Size := by
  induction l with
  | nil => rfl
  | cons x rest ih =>
    obtain ⟨p, c⟩ := x
    simp only [List.map_cons, List.lookup]
    cases h : (o == p)
    · simpa using ih
    · rfl

theorem ThreadCommandQueueImpl.ring_sizeAt (q : ThreadCommandQueueImpl) (o : Nat) :
    q.ring.sizeAt o = (q.commandAt o).Size := by
  unfold Ring.sizeAt storedSize ThreadCommandQueueImpl.ring ThreadCommandQueueImpl.commandAt
  simp only []
  rw [lookup_map_size]
  cases q.ringData.lookup o <;> rfl

theorem ThreadCommandQueueImpl.LiveInv.create (MaxSize : Nat) :
    ThreadCommandQueueImpl.create.LiveInv MaxSize [] :=
  ⟨rfl, Ring.Inv.fresh 2048 (by norm_num), fun _ hx => absurd hx (List.not_mem_nil _)⟩

theorem ThreadCommandQueueImpl.LiveInv.nil_of_empty {MaxSize : Nat} {q : ThreadCommandQueueImpl}
    {live : List (Nat × ThreadCommand)} (h : q.LiveInv MaxSize live)
    (hr : q.CommandBuffer.ReadBegin = none) : live = [] := by
  obtain ⟨_, hinv, _⟩ := h
  have he : q.CommandBuffer.IsEmpty = true := (CircularBuffer.ReadBegin_none_iff _).mp hr
  have he2 : q.ring.buf.Head = q.ring.buf.Tail := by
    simpa [CircularBuffer.IsEmpty] using he
  have := (hinv.empty he2).1
  simpa using this

theorem ThreadCommandQueueImpl.LiveInv.pop {MaxSize : Nat} {q : ThreadCommandQueueImpl}
    {live : List (Nat × ThreadCommand)} (h : q.LiveInv MaxSize live) (p : Nat)
    (hr : q.CommandBuffer.ReadBegin = some p) (popBuffer : PopBuffer) :
    ∃ c rest, live = (p, c) :: rest ∧ q.commandAt p = c ∧
      (popBuffer.InitFromBuffer MaxSize c).1 = { Size := c.Size, Buffer := some c } ∧
      ∀ q1 : ThreadCommandQueueImpl, q1.CommandBuffer = q.CommandBuffer.ReadEnd c.Size →
        q1.ringData = q.ringData → q1.LiveInv MaxSize rest := by
  obtain ⟨hS, hinv, hmem⟩ := h
  have hne : q.ring.buf.Head ≠ q.ring.buf.Tail := by
    intro he
    have : q.CommandBuffer.ReadBegin = none := by
      rw [CircularBuffer.ReadBegin_none_iff]
      simpa [CircularBuffer.IsEmpty] using he
    rw [hr] at this
    cases this
  have hp : p = q.CommandBuffer.Tail := by
    unfold CircularBuffer.ReadBegin at hr
    split_ifs at hr
    exact (Option.some.inj hr).symm
  obtain ⟨s, rest0, hQ, _, hinv2⟩ := hinv.read_some hne
  cases live with
  | nil => simp at hQ
  | cons x rest =>
    obtain ⟨o, c⟩ := x
    simp only [List.map_cons, List.cons.injEq, Prod.mk.injEq] at hQ
    obtain ⟨⟨ho, hs⟩, hrest⟩ := hQ
    have hop : o = p := by rw [hp]; exact ho
    subst hop
    obtain ⟨hl, v1, v2, v3, v4⟩ := hmem (o, c) (List.mem_cons_self _ _)
    simp only at hl v1 v2 v3 v4
    have hc : q.commandAt o = c := by
      unfold ThreadCommandQueueImpl.commandAt
      rw [hl]
      rfl
    refine ⟨c, rest, rfl, hc, ?_, ?_⟩
    · unfold PopBuffer.InitFromBuffer
      have h1 : ¬ c.Size > MaxSize := by omega
      have h2 : c.Size ≠ 0 := by omega
      simp only [h1, if_false, h2]
    · intro q1 hb hd
      refine ⟨?_, ?_, ?_⟩
      · rw [hb, CircularBuffer.ReadEnd_Size, hS]
      · rw [Ring.read_of_ne hne] at hinv2
        have hsz : q.ring.sizeAt q.ring.buf.Tail = c.Size := by
          rw [q.ring_sizeAt]
          show (q.commandAt q.CommandBuffer.Tail).Size = c.Size
          rw [← hp, hc]
        rw [hsz, ← hrest] at hinv2
        have hring : q1.ring = { q.ring with buf := q.ring.buf.ReadEnd c.Size } := by
          unfold ThreadCommandQueueImpl.ring
          rw [hb, hd]
        rw [hring]
        exact hinv2
      · intro x hx
        rw [hd]
        exact hmem x (List.mem_cons_of_mem _ hx)

theorem System.BaseInv.set {MaxSize : Nat} {s s1 : System} {live live1 : List (Nat × ThreadCommand)}
    (hB : s.BaseInv MaxSize live) (i : Nat) (oldp newp : ProducerState)
    (hold : s.producers[i]? = some oldp)
    (hps : s1.producers = s.producers.set i newp)
    (hl : s1.impl.LiveInv MaxSize live1)
    (hnew : ∀ c, newp.toPush = some c → ValidCommandSize MaxSize c.Size) :
    s1.BaseInv MaxSize live1 := by
  refine ⟨hl, ?_⟩
  intro p hp c hc
  rw [hps] at hp
  rcases List.mem_or_eq_of_mem_set hp with h | h
  · exact hB.2 p h c hc
  · subst h
    exact hnew c hc

theorem ThreadCommandQueueImpl.LiveInv.popCommand {MaxSize : Nat} {q : ThreadCommandQueueImpl}
    {live : List (Nat × ThreadCommand)} (h : q.LiveInv MaxSize live) (popBuffer : PopBuffer) :
    (live = [] ∧ (q.PopCommand MaxSize popBuffer).1 = false) ∨
    (∃ x rest, live = x :: rest ∧ (q.PopCommand MaxSize popBuffer).1 = true ∧
      (q.PopCommand MaxSize popBuffer).2.2.Buffer = some x.2 ∧
      (q.PopCommand MaxSize popBuffer).2.1.LiveInv MaxSize rest) := by
  rcases hr : q.CommandBuffer.ReadBegin with _ | p
  · left
    refine ⟨h.nil_of_empty hr, ?_⟩
    rw [q.PopCommand_of_none MaxSize popBuffer hr]
  · right
    obtain ⟨c, rest, hlive, hc, hinit, hnext⟩ := h.pop p hr popBuffer
    obtain ⟨p1, p2, p3, _⟩ := q.PopCommand_of_some MaxSize popBuffer p hr
    have hrd : (q.PopCommand MaxSize popBuffer).2.1.ringData = q.ringData := by
      cases hb : q.BlockedProducers with
      | nil => rw [q.PopCommand_some_nil MaxSize popBuffer p hr hb]
      | cons e es => rw [q.PopCommand_some_cons MaxSize popBuffer p e es hr hb]
    refine ⟨(p, c), rest, hlive, p1, ?_, hnext _ ?_ hrd⟩
    · rw [p2, hc, hinit]
    · rw [p3, hc, hinit]; rfl

theorem ThreadCommandQueueImpl.LiveInv.drain {MaxSize : Nat} (fuel : Nat) :
    ∀ (q : ThreadCommandQueueImpl) (live : List (Nat × ThreadCommand)) (popBuffer : PopBuffer),
      q.LiveInv MaxSize live →
      q.drain MaxSize fuel popBuffer = (live.take fuel).map Prod.snd := by
  induction fuel with
  | zero => intro q live popBuffer _; rfl
  | succ fuel ih =>
    intro q live popBuffer h
    rcases h.popCommand popBuffer with ⟨hl, h1⟩ | ⟨x, rest, hl, h1, h2, h3⟩
    · subst hl
      unfold ThreadCommandQueueImpl.drain
      rcases hpc : q.PopCommand MaxSize popBuffer with ⟨b, q1, pb1⟩
      rw [hpc] at h1
      simp only at h1
      subst h1
      rfl
    · subst hl
      unfold ThreadCommandQueueImpl.drain
      rcases hpc : q.PopCommand MaxSize popBuffer with ⟨b, q1, pb1⟩
      rw [hpc] at h1 h2 h3
      simp only at h1 h2 h3
      subst h1
      simp only [h2, Option.toList_some, List.take_succ_cons, List.map_cons, List.singleton_append]
      rw [ih q1 rest pb1 h3]

end OVR
